import Mathlib

/-!
# Verification of the BusTub-style storage engine (CMU-15-445 repository)

This file gives a shallow embedding, in Lean 4, of the components of the
repository that the verified claims are about:

* the MVCC helpers `ReconstructTuple` and `CollectUndoLogs`
  (src/src/execution/execution_common.cpp),
* the transaction manager `Commit` (src/src/concurrency/transaction_manager.cpp),
* the `Watermark` structure (src/src/concurrency/watermark.cpp and its header),
* the LRU-K replacer (src/src/buffer/lru_k_replacer.cpp),
* the buffer pool manager (src/src/buffer/buffer_pool_manager.cpp) with page
  guards (src/src/storage/page/page_guard.cpp),
* the extendible hash table
  (src/src/container/disk/hash/disk_extendible_hash_table.cpp and its pages),
* the B+Tree (src/src/storage/index/b_plus_tree.cpp and its pages).

Machine integers of the C++ are modelled by `Nat` (and by `Int` where a
sentinel value `-1` such as `INVALID_PAGE_ID` / `INVALID_TXN_ID` matters);
no arithmetic in the modelled routines overflows 32/64-bit ranges on the
considered inputs.  C++ `std::unordered_map` state is modelled by association
lists, `std::priority_queue` by a list with multiset semantics (its `top` is
the minimum for the comparator used in the source).  Latches, page pinning
I/O and `promise/future` synchronisation do not change the modelled data and
are dropped; single-threaded executions are modelled.  Fallible code returns
`Option`/`Except`; a `BUSTUB_ASSERT` / `throw` aborts the surrounding
operation, which the embedding models by returning `none` / `.error`.
-/

namespace BusTub

/-! ## Association-list helpers (model of C++ hash maps) -/

/-- Lookup in an association list, modelling `std::unordered_map::find`. -/
def alookup {κ α : Type} [DecidableEq κ] : List (κ × α) → κ → Option α
  | [], _ => none
  | (k, v) :: rest, key => if k = key then some v else alookup rest key

/-- Insert-or-assign in an association list, modelling `map[k] = v`. -/
def aupdate {κ α : Type} [DecidableEq κ] : List (κ × α) → κ → α → List (κ × α)
  | [], k, v => [(k, v)]
  | (k0, v0) :: rest, k, v =>
    if k0 = k then (k0, v) :: rest else (k0, v0) :: aupdate rest k v

/-- Key removal in an association list, modelling `map.erase(k)`. -/
def aerase {κ α : Type} [DecidableEq κ] : List (κ × α) → κ → List (κ × α)
  | [], _ => []
  | (k0, v0) :: rest, k =>
    if k0 = k then rest else (k0, v0) :: aerase rest k

@[simp] theorem alookup_nil {κ α : Type} [DecidableEq κ] (k : κ) :
    alookup ([] : List (κ × α)) k = none := rfl

@[simp] theorem alookup_cons {κ α : Type} [DecidableEq κ] (k0 : κ) (v0 : α) (rest) (k : κ) :
    alookup ((k0, v0) :: rest) k = if k0 = k then some v0 else alookup rest k := rfl

theorem alookup_aupdate_self {κ α : Type} [DecidableEq κ] (l : List (κ × α)) (k : κ) (v : α) :
    alookup (aupdate l k v) k = some v := by
  induction l with
  | nil => simp [aupdate, alookup]
  | cons hd tl ih =>
    obtain ⟨k0, v0⟩ := hd
    by_cases h : k0 = k <;> simp [aupdate, alookup, h, ih]

theorem alookup_aupdate_ne {κ α : Type} [DecidableEq κ] (l : List (κ × α)) (k k' : κ) (v : α)
    (h : k ≠ k') : alookup (aupdate l k v) k' = alookup l k' := by
  induction l with
  | nil => simp [aupdate, alookup, h]
  | cons hd tl ih =>
    obtain ⟨k0, v0⟩ := hd
    by_cases h0 : k0 = k
    · subst h0
      simp [aupdate, alookup, h]
    · simp [aupdate, alookup, h0, ih]

theorem alookup_aerase_ne {κ α : Type} [DecidableEq κ] (l : List (κ × α)) (k k' : κ)
    (h : k ≠ k') : alookup (aerase l k) k' = alookup l k' := by
  induction l with
  | nil => simp [aerase]
  | cons hd tl ih =>
    obtain ⟨k0, v0⟩ := hd
    by_cases h0 : k0 = k
    · subst h0
      simp [aerase, alookup, h]
    · simp [aerase, alookup, h0, ih]

/-! ## MVCC data model

`transaction.h` / `tuple.h` are not part of the provided sources (only their
users are), so the plain data carriers below are modelled from the spec:

* a tuple is addressed by a RID and carries metadata made of a timestamp and a
  logical-deletion flag (spec section 3, "Tuple");
* an undo log carries a timestamp, a deletion flag, a bitmap of modified
  columns, the partial previous tuple for those columns, and a link to the
  previous undo log by transaction id + log index (spec section 3, "Undo log");
* transaction ids occupy the high range starting at `TXN_START_ID` so that a
  metadata timestamp is unambiguously a commit timestamp or a writing
  transaction's temporary id (spec section 4.8, "Clocks").

Values stored in tuple columns are abstracted by `Nat`; a tuple is its list of
column values. -/

/-- Modelled from the spec: tuple metadata, a timestamp plus a logical-deletion
flag (`TupleMeta` of the missing `tuple.h`). -/
structure TupleMeta where
  ts : Nat
  isDeleted : Bool
  deriving DecidableEq, Repr

/-- Modelled from the spec: a link to an undo log, by transaction id and log
index (`UndoLink` of the missing `transaction.h`).  The transaction id is an
integer so that the sentinel `INVALID_TXN_ID = -1` can be represented. -/
structure UndoLink where
  prevTxn : Int
  prevLogIdx : Nat
  deriving DecidableEq, Repr

/-- Modelled from the spec: `UndoLink::IsValid`, true when the transaction id
is not the invalid sentinel. -/
def UndoLink.isValid (l : UndoLink) : Bool := l.prevTxn ≠ -1

/-- Modelled from the spec: an undo log (`UndoLog` of the missing
`transaction.h`): timestamp, deletion flag, modified-column bitmap, partial
tuple for the modified columns, link to the previous undo log. -/
structure UndoLog where
  ts : Nat
  isDeleted : Bool
  modifiedFields : List Bool
  tuple : List Nat
  prevVersion : UndoLink
  deriving DecidableEq, Repr

/-- Modelled from the spec: the first transaction temporary id; ordinary
commit timestamps are below it (`TXN_START_ID` of the missing `config.h`). -/
def TXN_START_ID : Nat := 2 ^ 62

/-! ## `ReconstructTuple` (src/src/execution/execution_common.cpp:97-139) -/

/-- One overlay step of `ReconstructTuple`'s loop body for a non-deleted log
(src/src/execution/execution_common.cpp:114-132): column `i` of the result is
the next unread value of the log's partial tuple when bit `i` of the
modified-column bitmap is set (the source materialises the partial schema of
the set columns and reads it left to right, so the value used for column `i`
is at the rank of `i` among the set bits), and the running tuple's value at
`i` otherwise.  The rebuilt value vector has one entry per bitmap position,
exactly as the source loop over `undo_log.modified_fields_.size()`. -/
def applyUndoLog (tupleIn : List Nat) (log : UndoLog) : List Nat :=
  (List.range log.modifiedFields.length).map fun i =>
    if log.modifiedFields.getD i false then
      log.tuple.getD ((log.modifiedFields.take i).count true) 0
    else
      tupleIn.getD i 0

/-- Embeds `ReconstructTuple` (src/src/execution/execution_common.cpp:97-139).
The schema argument of the source only guides (de)serialisation of column
values and is dropped in the value-level model.  The fold state carries the
running tuple and the `delete_flag` of the source. -/
def reconstructTuple (baseTuple : List Nat) (baseMeta : TupleMeta)
    (undoLogs : List UndoLog) : Option (List Nat) :=
  if baseMeta.isDeleted ∧ undoLogs = [] then
    none
  else
    let final := undoLogs.foldl
      (fun (st : List Nat × Bool) log =>
        if log.isDeleted then (st.1, true) else (applyUndoLog st.1 log, false))
      (baseTuple, false)
    if final.2 then none else some final.1

/-! ## `CollectUndoLogs` (src/src/execution/execution_common.cpp:164-200) -/

/-- The undo-log store of the transaction manager, `GetUndoLog`
(src/src/include/concurrency/transaction_manager.h:88, implementation not in
the provided sources): a total map from links to logs; the claims are stated
for chains all of whose links resolve. -/
def UndoLogStore : Type := UndoLink → UndoLog

/-- The `while (tmp_link.IsValid())` walk of `CollectUndoLogs`
(src/src/execution/execution_common.cpp:188-199), with explicit fuel (the
source recursion is bounded by the length of the finite undo chain; the
theorems instantiate the fuel above that length).  `acc` is the `undo_logs`
vector being built. -/
def collectChain (getLog : UndoLogStore) (readTs : Nat) :
    Nat → UndoLink → List UndoLog → Option (List UndoLog)
  | 0, _, _ => none
  | fuel + 1, link, acc =>
    if link.isValid then
      let log := getLog link
      if log.ts ≤ readTs then some (acc ++ [log])
      else collectChain getLog readTs fuel log.prevVersion (acc ++ [log])
    else none

/-- Embeds `CollectUndoLogs` (src/src/execution/execution_common.cpp:164-200):
case 1 returns an empty list when the base tuple is visible; case 2 returns an
empty list when the base tuple is this transaction's own pending write; case 3
walks the chain.  `tempTs` is `txn->GetTransactionTempTs()`. -/
def collectUndoLogs (getLog : UndoLogStore) (fuel : Nat) (baseMeta : TupleMeta)
    (readTs tempTs : Nat) (undoLink : Option UndoLink) : Option (List UndoLog) :=
  if baseMeta.ts ≤ readTs then some []
  else if TXN_START_ID ≤ baseMeta.ts ∧ baseMeta.ts = tempTs then some []
  else
    match undoLink with
    | none => none
    | some link => collectChain getLog readTs fuel link []

/-- The finite undo chain reachable from a link: empty for an invalid link,
else the log of the link followed by the chain of its predecessor.  Chains
are finite and newest-first (spec section 3, "Undo log" invariants). -/
inductive UndoChain (getLog : UndoLogStore) : UndoLink → List UndoLog → Prop
  | nil (link : UndoLink) : link.isValid = false → UndoChain getLog link []
  | cons (link : UndoLink) (rest : List UndoLog) : link.isValid = true →
      UndoChain getLog (getLog link).prevVersion rest →
      UndoChain getLog link (getLog link :: rest)

/-- Specification-side collection, from the claim's words: walk the chain
newest-first collecting every log up to and including the first one whose
timestamp is at most the read timestamp; no value if the chain exhausts
first. -/
def collectVisible (readTs : Nat) : List UndoLog → Option (List UndoLog)
  | [] => none
  | log :: rest =>
    if log.ts ≤ readTs then some [log]
    else (collectVisible readTs rest).map (fun l => log :: l)

theorem collectChain_eq_collectVisible (getLog : UndoLogStore) (readTs : Nat)
    (link : UndoLink) (chain : List UndoLog) (h : UndoChain getLog link chain) :
    ∀ fuel acc, chain.length < fuel →
      collectChain getLog readTs fuel link acc =
        (collectVisible readTs chain).map (fun l => acc ++ l) := by
  induction h with
  | nil link hval =>
    intro fuel acc hfuel
    match fuel, hfuel with
    | fuel + 1, _ =>
      simp [collectChain, hval, collectVisible]
  | cons link rest hval hrest ih =>
    intro fuel acc hfuel
    match fuel, hfuel with
    | fuel + 1, hfuel =>
      by_cases hts : (getLog link).ts ≤ readTs
      · simp [collectChain, hval, hts, collectVisible]
      · have hlen : rest.length < fuel := by
          simpa using Nat.lt_of_succ_lt_succ hfuel
        simp only [collectChain, hval, if_pos rfl, if_neg hts, if_true, collectVisible]
        rw [ih fuel (acc ++ [getLog link]) hlen]
        cases collectVisible readTs rest <;> simp

theorem getD_map_range {α : Type} (n : Nat) (f : Nat → α) (i : Nat) (h : i < n) (d : α) :
    (((List.range n).map f).getD i d) = f i := by
  simp [List.getD_eq_getElem?_getD, List.getElem?_map, List.getElem?_range, h]

theorem elim_getLast?_cons (a : UndoLog) (l : List UndoLog) (b b' : Bool) :
    (a :: l).getLast?.elim b UndoLog.isDeleted =
      (a :: l).getLast?.elim b' UndoLog.isDeleted := by
  have h : (a :: l).getLast?.isSome := by
    rw [List.getLast?_isSome]
    simp
  obtain ⟨x, hx⟩ := Option.isSome_iff_exists.mp h
  simp [hx]

theorem recon_flag_fold (logs : List UndoLog) (t : List Nat) (b : Bool) :
    logs.foldl
      (fun (st : List Nat × Bool) log =>
        if log.isDeleted then (st.1, true) else (applyUndoLog st.1 log, false)) (t, b) =
    (logs.foldl (fun u log => if log.isDeleted then u else applyUndoLog u log) t,
     logs.getLast?.elim b UndoLog.isDeleted) := by
  induction logs generalizing t b with
  | nil => simp
  | cons hd tl ih =>
    by_cases h : hd.isDeleted <;>
      cases tl <;>
        simp_all [List.getLast?_cons_cons, elim_getLast?_cons _ _ true b,
          elim_getLast?_cons _ _ false b]

/-- C4.  Tuple reconstruction: `ReconstructTuple` applies the logs
front-to-back; a log with its deletion flag set marks the version absent and
leaves the running tuple unchanged, while a non-deleted log overlays its
partial tuple onto exactly the columns set in its modified-column bitmap of
the running tuple (an unmodified column keeps the running tuple's value, a
modified column receives the partial tuple's value at the rank of that column
among the set bits); the result is the tuple after the last applied log, or
absent if the last applied log was a deletion (or the base tuple is deleted
and the log list is empty). -/
theorem reconstructTuple_spec (baseTuple : List Nat) (baseMeta : TupleMeta)
    (undoLogs : List UndoLog) :
    reconstructTuple baseTuple baseMeta undoLogs =
      (if undoLogs.getLast?.elim baseMeta.isDeleted UndoLog.isDeleted then none
       else some (undoLogs.foldl
         (fun u log => if log.isDeleted then u else applyUndoLog u log) baseTuple)) ∧
    (∀ (t : List Nat) (log : UndoLog) (i : Nat), i < log.modifiedFields.length →
      log.modifiedFields.getD i false = false →
      (applyUndoLog t log).getD i 0 = t.getD i 0) ∧
    (∀ (t : List Nat) (log : UndoLog) (i : Nat), i < log.modifiedFields.length →
      log.modifiedFields.getD i false = true →
      (applyUndoLog t log).getD i 0 =
        log.tuple.getD ((log.modifiedFields.take i).count true) 0) ∧
    (∀ (t : List Nat) (log : UndoLog),
      (applyUndoLog t log).length = log.modifiedFields.length) := by
  refine ⟨?_, ?_, ?_, ?_⟩
  · unfold reconstructTuple
    rw [recon_flag_fold]
    cases hlast : undoLogs.getLast? with
    | none =>
      have : undoLogs = [] := by simpa using hlast
      subst this
      by_cases hdel : baseMeta.isDeleted <;> simp [hdel]
    | some l =>
      have hne : undoLogs ≠ [] := by
        intro h
        subst h
        simp at hlast
      by_cases hdel : l.isDeleted <;> simp [hlast, hne, hdel, Option.elim]
  · intro t log i hi hbit
    rw [applyUndoLog, getD_map_range _ _ _ hi, hbit]
    simp
  · intro t log i hi hbit
    rw [applyUndoLog, getD_map_range _ _ _ hi, hbit]
    simp
  · intro t log
    simp [applyUndoLog]

/-- C3.  MVCC visibility collection: `CollectUndoLogs` returns an empty log
list when the base tuple's timestamp is at most the transaction's read
timestamp; otherwise an empty log list when the base timestamp is a
transaction temporary id (at least `TXN_START_ID`) equal to the transaction's
own temporary id; otherwise it walks the undo chain newest-first collecting
every log up to and including the first one whose timestamp is at most the
read timestamp (`collectVisible`), and yields no value when the chain is
absent or exhausts before such a log is found.  `chain` is the finite chain of
logs reachable from `undoLink` and the fuel is any bound above its length. -/
theorem collectUndoLogs_spec (getLog : UndoLogStore) (fuel : Nat)
    (baseMeta : TupleMeta) (readTs tempTs : Nat) (undoLink : Option UndoLink)
    (chain : List UndoLog)
    (hchain : ∀ link, undoLink = some link → UndoChain getLog link chain)
    (hfuel : chain.length < fuel) :
    collectUndoLogs getLog fuel baseMeta readTs tempTs undoLink =
      if baseMeta.ts ≤ readTs then some []
      else if TXN_START_ID ≤ baseMeta.ts ∧ baseMeta.ts = tempTs then some []
      else
        match undoLink with
        | none => none
        | some _ => collectVisible readTs chain := by
  unfold collectUndoLogs
  by_cases h1 : baseMeta.ts ≤ readTs
  · simp only [if_pos h1]
  · by_cases h2 : TXN_START_ID ≤ baseMeta.ts ∧ baseMeta.ts = tempTs
    · simp only [if_neg h1, if_pos h2]
    · simp only [if_neg h1, if_neg h2]
      cases undoLink with
      | none => rfl
      | some link =>
        show collectChain getLog readTs fuel link [] = collectVisible readTs chain
        rw [collectChain_eq_collectVisible getLog readTs link chain
          (hchain link rfl) fuel [] hfuel]
        cases collectVisible readTs chain <;> simp

/-- Witness for C3 at a concrete input: a store whose chain from link
`(0, 0)` is a single log of timestamp 1, read timestamp 3, base tuple
timestamp 5; the walk collects exactly that log. -/
theorem collectUndoLogs_spec_witness :
    collectUndoLogs
      (fun _ => { ts := 1, isDeleted := false, modifiedFields := [], tuple := [],
                  prevVersion := { prevTxn := -1, prevLogIdx := 0 } })
      2 { ts := 5, isDeleted := false } 3 0
      (some { prevTxn := 0, prevLogIdx := 0 }) =
      some [{ ts := 1, isDeleted := false, modifiedFields := [], tuple := [],
              prevVersion := { prevTxn := -1, prevLogIdx := 0 } }] := by
  rw [collectUndoLogs_spec
    (fun _ => { ts := 1, isDeleted := false, modifiedFields := [], tuple := [],
                prevVersion := { prevTxn := -1, prevLogIdx := 0 } })
    2 { ts := 5, isDeleted := false } 3 0
    (some { prevTxn := 0, prevLogIdx := 0 })
    [{ ts := 1, isDeleted := false, modifiedFields := [], tuple := [],
       prevVersion := { prevTxn := -1, prevLogIdx := 0 } }]
    (fun link hl => by
      cases hl
      exact UndoChain.cons _ _ (by decide)
        (UndoChain.nil _ (by decide)))
    (by decide)]
  decide

/-! ## `Watermark` (src/src/concurrency/watermark.cpp,
src/src/include/concurrency/watermark.h)

`current_reads_` (an `std::unordered_map<timestamp_t, int>`) is modelled by an
association list, and `read_queue_` (an `std::priority_queue` whose comparator
`a > b` makes `top()` the minimum) by a list with multiset semantics: `qtop?`
is its minimum, popping erases one occurrence of the minimum. -/

/-- The minimum of the queue model; `read_queue_.top()` when nonempty. -/
def qtop? : List Nat → Option Nat
  | [] => none
  | a :: rest =>
    match qtop? rest with
    | none => some a
    | some b => some (min a b)

theorem qtop?_eq_none_iff (q : List Nat) : qtop? q = none ↔ q = [] := by
  cases q with
  | nil => simp [qtop?]
  | cons a rest =>
    simp only [qtop?]
    cases qtop? rest <;> simp

theorem qtop?_mem (q : List Nat) (m : Nat) (h : qtop? q = some m) : m ∈ q := by
  induction q generalizing m with
  | nil => simp [qtop?] at h
  | cons a rest ih =>
    simp only [qtop?] at h
    cases hr : qtop? rest with
    | none =>
      rw [hr] at h
      simp at h
      simp [h]
    | some b =>
      rw [hr] at h
      simp at h
      rcases Nat.le_total a b with hab | hba
      · simp [← h, Nat.min_eq_left hab]
      · right
        rw [← h, Nat.min_eq_right hba]
        exact ih b hr

theorem qtop?_le (q : List Nat) (m : Nat) (h : qtop? q = some m) :
    ∀ x ∈ q, m ≤ x := by
  induction q generalizing m with
  | nil => simp
  | cons a rest ih =>
    intro x hx
    simp only [qtop?] at h
    cases hr : qtop? rest with
    | none =>
      rw [hr] at h
      simp at h
      have : rest = [] := (qtop?_eq_none_iff rest).mp hr
      subst this
      simp at hx
      omega
    | some b =>
      rw [hr] at h
      simp at h
      rcases List.mem_cons.mp hx with hxa | hxr
      · subst hxa
        omega
      · have := ih b hr x hxr
        omega

theorem le_qtop? (q : List Nat) (m : Nat) (hm : m ∈ q) (hle : ∀ x ∈ q, m ≤ x) :
    qtop? q = some m := by
  induction q with
  | nil => simp at hm
  | cons a rest ih =>
    simp only [qtop?]
    cases hr : qtop? rest with
    | none =>
      have : rest = [] := (qtop?_eq_none_iff rest).mp hr
      subst this
      simp at hm
      simp [hm]
    | some b =>
      have hbmem : b ∈ rest := qtop?_mem rest b hr
      have hba : m ≤ b := hle b (List.mem_cons_of_mem a hbmem)
      have hma : m ≤ a := hle a (List.mem_cons_self a rest)
      rcases List.mem_cons.mp hm with hm1 | hm2
      · subst hm1
        simp [Nat.min_eq_left hba]
      · have hbm : b ≤ m := qtop?_le rest b hr m hm2
        have : b = m := Nat.le_antisymm hbm hba
        subst this
        simp [Nat.min_eq_right hma]

/-- The lazy cleanup loop of `Watermark::RemoveTxn`
(src/src/concurrency/watermark.cpp:40-42): pop the queue while its top is a
timestamp no longer present in `current_reads_`. -/
def purgeQueue (reads : List (Nat × Nat)) (q : List Nat) : List Nat :=
  match h : qtop? q with
  | none => q
  | some m =>
    if alookup reads m = none then purgeQueue reads (q.erase m) else q
termination_by q.length
decreasing_by
  have hm : m ∈ q := qtop?_mem q m h
  have := List.length_erase_of_mem hm
  have hpos : 0 < q.length := List.length_pos_of_mem hm
  omega

/-- Embeds the `Watermark` state
(src/src/include/concurrency/watermark.h:47-54). -/
structure Watermark where
  commitTs : Nat
  watermark : Nat
  currentReads : List (Nat × Nat)
  readQueue : List Nat
  deriving DecidableEq, Repr

/-- The `Watermark` constructor
(src/src/include/concurrency/watermark.h:27-30). -/
def Watermark.init (c : Nat) : Watermark :=
  { commitTs := c, watermark := c, currentReads := [], readQueue := [] }

/-- Embeds `Watermark::AddTxn` (src/src/concurrency/watermark.cpp:15-30);
`none` models the thrown exception when `read_ts < commit_ts_`. -/
def Watermark.addTxn (w : Watermark) (readTs : Nat) : Option Watermark :=
  if readTs < w.commitTs then none
  else
    let w1 :=
      match alookup w.currentReads readTs with
      | some c => { w with currentReads := aupdate w.currentReads readTs (c + 1) }
      | none =>
        { w with currentReads := aupdate w.currentReads readTs 1,
                 readQueue := readTs :: w.readQueue }
    some (if readTs < w1.watermark then { w1 with watermark := readTs } else w1)

/-- Embeds `Watermark::RemoveTxn` (src/src/concurrency/watermark.cpp:32-53);
`none` models the thrown exception when the timestamp is not registered. -/
def Watermark.removeTxn (w : Watermark) (readTs : Nat) : Option Watermark :=
  match alookup w.currentReads readTs with
  | none => none
  | some c =>
    if c = 0 then none
    else
      let w1 :=
        if c - 1 = 0 then
          let reads' := aerase w.currentReads readTs
          { w with currentReads := reads', readQueue := purgeQueue reads' w.readQueue }
        else
          { w with currentReads := aupdate w.currentReads readTs (c - 1) }
      some (if readTs = w1.watermark then
              (if w1.readQueue = [] then { w1 with watermark := w1.commitTs }
               else { w1 with watermark := (qtop? w1.readQueue).getD 0 })
            else w1)

/-- Embeds `Watermark::UpdateCommitTs`
(src/src/include/concurrency/watermark.h:38). -/
def Watermark.updateCommitTs (w : Watermark) (c : Nat) : Watermark :=
  { w with commitTs := c }

/-- Embeds `Watermark::GetWatermark`
(src/src/include/concurrency/watermark.h:40-45). -/
def Watermark.getWatermark (w : Watermark) : Nat :=
  if w.currentReads = [] then w.commitTs else w.watermark

/-- The multiset of currently registered read timestamps, with multiplicity. -/
def registeredReads (w : Watermark) : List Nat :=
  (w.currentReads.map fun p => List.replicate p.2 p.1).flatten

/-! ### Association-list facts used by the watermark proofs -/

theorem alookup_eq_none_iff {κ α : Type} [DecidableEq κ] (l : List (κ × α)) (k : κ) :
    alookup l k = none ↔ k ∉ l.map Prod.fst := by
  induction l with
  | nil => simp
  | cons hd tl ih =>
    obtain ⟨k0, v0⟩ := hd
    simp only [alookup_cons, List.map_cons, List.mem_cons]
    by_cases h : k0 = k
    · subst h
      simp
    · have h' : ¬k = k0 := fun he => h he.symm
      rw [if_neg h, ih]
      simp [h']

theorem alookup_mem {κ α : Type} [DecidableEq κ] (l : List (κ × α)) (k : κ) (v : α)
    (h : alookup l k = some v) : (k, v) ∈ l := by
  induction l with
  | nil => simp at h
  | cons hd tl ih =>
    obtain ⟨k0, v0⟩ := hd
    by_cases h0 : k0 = k
    · subst h0
      simp [alookup] at h
      simp [h]
    · simp [alookup, h0] at h
      simp [ih h]

theorem alookup_isSome_iff {κ α : Type} [DecidableEq κ] (l : List (κ × α)) (k : κ) :
    (alookup l k).isSome ↔ k ∈ l.map Prod.fst := by
  cases hcase : alookup l k with
  | none =>
    simp only [Option.isSome_none, Bool.false_eq_true, false_iff]
    exact (alookup_eq_none_iff l k).mp hcase
  | some v =>
    simp only [Option.isSome_some, true_iff]
    exact List.mem_map.mpr ⟨(k, v), alookup_mem l k v hcase, rfl⟩

theorem alookup_of_mem_nodup {κ α : Type} [DecidableEq κ] (l : List (κ × α)) (k : κ) (v : α)
    (hnd : (l.map Prod.fst).Nodup) (h : (k, v) ∈ l) : alookup l k = some v := by
  induction l with
  | nil => simp at h
  | cons hd tl ih =>
    obtain ⟨k0, v0⟩ := hd
    simp only [List.map_cons, List.nodup_cons] at hnd
    rcases List.mem_cons.mp h with h1 | h2
    · rw [Prod.mk.injEq] at h1
      simp [alookup, h1.1, h1.2]
    · have hk : k0 ≠ k := by
        intro he
        subst he
        exact hnd.1 (List.mem_map.mpr ⟨_, h2, rfl⟩)
      simp [alookup, hk, ih hnd.2 h2]

theorem mem_aupdate {κ α : Type} [DecidableEq κ] (l : List (κ × α)) (k : κ) (v : α)
    (p : κ × α) (h : p ∈ aupdate l k v) : p = (k, v) ∨ p ∈ l := by
  induction l with
  | nil => simp [aupdate] at h; simp [h]
  | cons hd tl ih =>
    obtain ⟨k0, v0⟩ := hd
    by_cases h0 : k0 = k
    · subst h0
      simp only [aupdate, if_pos rfl] at h
      rcases List.mem_cons.mp h with h1 | h2
      · left; exact h1
      · right; exact List.mem_cons_of_mem _ h2
    · simp only [aupdate, if_neg h0] at h
      rcases List.mem_cons.mp h with h1 | h2
      · right; simp [h1]
      · rcases ih h2 with h3 | h3
        · left; exact h3
        · right; exact List.mem_cons_of_mem _ h3

theorem keys_aupdate_present {κ α : Type} [DecidableEq κ] (l : List (κ × α)) (k : κ) (v : α)
    (h : (alookup l k).isSome) : (aupdate l k v).map Prod.fst = l.map Prod.fst := by
  induction l with
  | nil => simp [alookup] at h
  | cons hd tl ih =>
    obtain ⟨k0, v0⟩ := hd
    by_cases h0 : k0 = k
    · subst h0
      simp [aupdate]
    · simp only [alookup_cons, if_neg h0] at h
      simp [aupdate, h0, ih h]

theorem aupdate_absent {κ α : Type} [DecidableEq κ] (l : List (κ × α)) (k : κ) (v : α)
    (h : alookup l k = none) : aupdate l k v = l ++ [(k, v)] := by
  induction l with
  | nil => simp [aupdate]
  | cons hd tl ih =>
    obtain ⟨k0, v0⟩ := hd
    by_cases h0 : k0 = k
    · subst h0
      simp [alookup] at h
    · simp only [alookup_cons, if_neg h0] at h
      simp [aupdate, h0, ih h]

theorem mem_aerase {κ α : Type} [DecidableEq κ] (l : List (κ × α)) (k : κ)
    (p : κ × α) (h : p ∈ aerase l k) : p ∈ l := by
  induction l with
  | nil => simp [aerase] at h
  | cons hd tl ih =>
    obtain ⟨k0, v0⟩ := hd
    by_cases h0 : k0 = k
    · subst h0
      simp only [aerase, if_pos rfl] at h
      exact List.mem_cons_of_mem _ h
    · simp only [aerase, if_neg h0] at h
      rcases List.mem_cons.mp h with h1 | h2
      · simp [h1]
      · exact List.mem_cons_of_mem _ (ih h2)

theorem keys_aerase_sublist {κ α : Type} [DecidableEq κ] (l : List (κ × α)) (k : κ) :
    ((aerase l k).map Prod.fst).Sublist (l.map Prod.fst) := by
  induction l with
  | nil => simp [aerase]
  | cons hd tl ih =>
    obtain ⟨k0, v0⟩ := hd
    by_cases h0 : k0 = k
    · subst h0
      simp only [aerase, if_pos rfl, List.map_cons]
      exact (List.sublist_cons_self _ _)
    · simp only [aerase, if_neg h0, List.map_cons]
      exact ih.cons₂ _

theorem nodup_keys_aerase {κ α : Type} [DecidableEq κ] (l : List (κ × α)) (k : κ)
    (h : (l.map Prod.fst).Nodup) : ((aerase l k).map Prod.fst).Nodup :=
  (keys_aerase_sublist l k).nodup h

theorem alookup_aerase_self {κ α : Type} [DecidableEq κ] (l : List (κ × α)) (k : κ)
    (hnd : (l.map Prod.fst).Nodup) : alookup (aerase l k) k = none := by
  induction l with
  | nil => simp [aerase]
  | cons hd tl ih =>
    obtain ⟨k0, v0⟩ := hd
    simp only [List.map_cons, List.nodup_cons] at hnd
    by_cases h0 : k0 = k
    · subst h0
      simp only [aerase, if_pos rfl]
      rw [alookup_eq_none_iff]
      exact hnd.1
    · simp [aerase, h0, ih hnd.2]

theorem aerase_eq_nil {κ α : Type} [DecidableEq κ] (l : List (κ × α)) (k : κ)
    (h : aerase l k = []) : l = [] ∨ ∃ v, l = [(k, v)] := by
  cases l with
  | nil => left; rfl
  | cons hd tl =>
    obtain ⟨k0, v0⟩ := hd
    by_cases h0 : k0 = k
    · subst h0
      simp only [aerase, if_pos rfl] at h
      subst h
      right; exact ⟨v0, rfl⟩
    · simp [aerase, h0] at h

theorem aupdate_ne_nil {κ α : Type} [DecidableEq κ] (l : List (κ × α)) (k : κ) (v : α) :
    aupdate l k v ≠ [] := by
  cases l with
  | nil => simp [aupdate]
  | cons hd tl =>
    obtain ⟨k0, v0⟩ := hd
    by_cases h0 : k0 = k <;> simp [aupdate, h0]

/-! ### Facts about the purge loop -/

theorem purge_subset (reads : List (Nat × Nat)) (q : List Nat) :
    ∀ x ∈ purgeQueue reads q, x ∈ q := by
  generalize hn : q.length = n
  induction n using Nat.strong_induction_on generalizing q with
  | _ n ih =>
    rw [purgeQueue]
    split
    · intro x hx; exact hx
    · rename_i m htop
      by_cases habs : alookup reads m = none
      · rw [if_pos habs]
        have hmem : m ∈ q := qtop?_mem q m htop
        have hlen : (q.erase m).length < n := by
          have := List.length_erase_of_mem hmem
          have := List.length_pos_of_mem hmem
          omega
        intro x hx
        have := ih (q.erase m).length hlen (q.erase m) rfl x hx
        exact List.erase_subset _ _ this
      · rw [if_neg habs]
        intro x hx; exact hx

theorem purge_keeps (reads : List (Nat × Nat)) (q : List Nat) (k : Nat)
    (hk : (alookup reads k).isSome) : k ∈ q → k ∈ purgeQueue reads q := by
  generalize hn : q.length = n
  induction n using Nat.strong_induction_on generalizing q with
  | _ n ih =>
    intro hmem
    rw [purgeQueue]
    split
    · exact hmem
    · rename_i m htop
      by_cases habs : alookup reads m = none
      · rw [if_pos habs]
        have hmemm : m ∈ q := qtop?_mem q m htop
        have hlen : (q.erase m).length < n := by
          have := List.length_erase_of_mem hmemm
          have := List.length_pos_of_mem hmemm
          omega
        have hne : k ≠ m := by
          intro he
          subst he
          rw [habs] at hk
          simp at hk
        refine ih (q.erase m).length hlen (q.erase m) rfl ?_
        exact (List.mem_erase_of_ne hne).mpr hmem
      · rw [if_neg habs]
        exact hmem

theorem purge_post (reads : List (Nat × Nat)) (q : List Nat) :
    purgeQueue reads q = [] ∨
      ∃ m, qtop? (purgeQueue reads q) = some m ∧ (alookup reads m).isSome := by
  generalize hn : q.length = n
  induction n using Nat.strong_induction_on generalizing q with
  | _ n ih =>
    rw [purgeQueue]
    split
    · rename_i htop
      left
      exact (qtop?_eq_none_iff q).mp htop
    · rename_i m htop
      by_cases habs : alookup reads m = none
      · rw [if_pos habs]
        have hmemm : m ∈ q := qtop?_mem q m htop
        have hlen : (q.erase m).length < n := by
          have := List.length_erase_of_mem hmemm
          have := List.length_pos_of_mem hmemm
          omega
        exact ih (q.erase m).length hlen (q.erase m) rfl
      · rw [if_neg habs]
        right
        refine ⟨m, htop, ?_⟩
        cases hcase : alookup reads m with
        | none => exact absurd hcase habs
        | some c => simp

/-! ### The watermark invariant -/

/-- Invariant maintained by the watermark under the amended usage discipline:
registered timestamps have a positive count, unique keys bounded by the commit
timestamp; the queue is empty when the map is; every key is in the queue; the
queue's minimum is a registered key; and `watermark_` is the queue minimum
while the map is nonempty. -/
structure WInv (w : Watermark) : Prop where
  nodup : (w.currentReads.map Prod.fst).Nodup
  pos : ∀ p ∈ w.currentReads, 0 < p.2
  keyLe : ∀ p ∈ w.currentReads, p.1 ≤ w.commitTs
  emptyQ : w.currentReads = [] → w.readQueue = []
  emptyWm : w.currentReads = [] → w.commitTs ≤ w.watermark
  keysSub : ∀ p ∈ w.currentReads, p.1 ∈ w.readQueue
  topReg : ∀ m, qtop? w.readQueue = some m → (alookup w.currentReads m).isSome
  wmEq : w.currentReads ≠ [] → qtop? w.readQueue = some w.watermark

theorem winv_wm_min (w : Watermark) (h : WInv w) (hne : w.currentReads ≠ []) :
    w.watermark ∈ w.currentReads.map Prod.fst ∧
      ∀ k ∈ w.currentReads.map Prod.fst, w.watermark ≤ k := by
  have htop := h.wmEq hne
  constructor
  · rw [← alookup_isSome_iff]
    exact h.topReg _ htop
  · intro k hk
    obtain ⟨p, hp, hpk⟩ := List.mem_map.mp hk
    subst hpk
    exact qtop?_le _ _ htop _ (h.keysSub p hp)

theorem winv_init (c : Nat) : WInv (Watermark.init c) := by
  refine ⟨?_, ?_, ?_, ?_, ?_, ?_, ?_, ?_⟩ <;> simp [Watermark.init, qtop?]

theorem winv_upd (w : Watermark) (c : Nat) (h : WInv w) (hc : w.commitTs ≤ c)
    (hne : w.currentReads ≠ []) : WInv (w.updateCommitTs c) := by
  refine ⟨h.nodup, h.pos, ?_, ?_, ?_, h.keysSub, h.topReg, h.wmEq⟩
  · intro p hp
    exact le_trans (h.keyLe p hp) hc
  · intro he
    exact absurd he hne
  · intro he
    exact absurd he hne

theorem qtop?_cons (a : Nat) (q : List Nat) :
    qtop? (a :: q) = some ((qtop? q).elim a (min a)) := by
  simp only [qtop?]
  cases qtop? q <;> simp

theorem winv_add (w w' : Watermark) (hinv : WInv w)
    (hadd : w.addTxn w.commitTs = some w') : WInv w' := by
  unfold Watermark.addTxn at hadd
  rw [if_neg (lt_irrefl w.commitTs)] at hadd
  cases hlook : alookup w.currentReads w.commitTs with
  | some c =>
    simp only [hlook] at hadd
    have hne : w.currentReads ≠ [] := by
      intro he
      rw [he] at hlook
      simp at hlook
    have hmin := winv_wm_min w hinv hne
    have hwmle : w.watermark ≤ w.commitTs := by
      obtain ⟨p, hp, hpe⟩ := List.mem_map.mp hmin.1
      rw [← hpe]
      exact hinv.keyLe p hp
    rw [if_neg (by omega)] at hadd
    rw [Option.some.injEq] at hadd
    subst hadd
    have hkeys : (aupdate w.currentReads w.commitTs (c + 1)).map Prod.fst =
        w.currentReads.map Prod.fst :=
      keys_aupdate_present _ _ _ (by simp [hlook])
    refine ⟨?_, ?_, ?_, ?_, ?_, ?_, ?_, ?_⟩
    · rw [hkeys]
      exact hinv.nodup
    · intro p hp
      rcases mem_aupdate _ _ _ _ hp with h1 | h2
      · subst h1; simp
      · exact hinv.pos p h2
    · intro p hp
      rcases mem_aupdate _ _ _ _ hp with h1 | h2
      · subst h1; simp
      · exact hinv.keyLe p h2
    · intro he
      exact absurd he (aupdate_ne_nil _ _ _)
    · intro he
      exact absurd he (aupdate_ne_nil _ _ _)
    · intro p hp
      rcases mem_aupdate _ _ _ _ hp with h1 | h2
      · subst h1
        exact hinv.keysSub (w.commitTs, c) (alookup_mem _ _ _ hlook)
      · exact hinv.keysSub p h2
    · intro m hm
      rw [alookup_isSome_iff, hkeys, ← alookup_isSome_iff]
      exact hinv.topReg m hm
    · intro _
      exact hinv.wmEq hne
  | none =>
    simp only [hlook] at hadd
    have habsent : w.commitTs ∉ w.currentReads.map Prod.fst :=
      (alookup_eq_none_iff _ _).mp hlook
    have hupd : aupdate w.currentReads w.commitTs 1 =
        w.currentReads ++ [(w.commitTs, 1)] := aupdate_absent _ _ _ hlook
    by_cases hre : w.currentReads = []
    · rw [hre] at hupd hadd
      have hq0 : w.readQueue = [] := hinv.emptyQ hre
      have hwm0 : w.commitTs ≤ w.watermark := hinv.emptyWm hre
      rw [hq0] at hadd
      -- in both branches of the conditional the new watermark is `commitTs`
      have key : ∀ wv, wv = w.commitTs → WInv
          { commitTs := w.commitTs, watermark := wv,
            currentReads := aupdate [] w.commitTs 1,
            readQueue := [w.commitTs] } := by
        intro wv hwv
        subst hwv
        refine ⟨?_, ?_, ?_, ?_, ?_, ?_, ?_, ?_⟩ <;>
          simp [aupdate, qtop?, alookup]
      by_cases hlt : w.commitTs < w.watermark
      · rw [if_pos hlt] at hadd
        rw [Option.some.injEq] at hadd
        subst hadd
        exact key _ rfl
      · rw [if_neg hlt] at hadd
        rw [Option.some.injEq] at hadd
        subst hadd
        have : w.watermark = w.commitTs := by omega
        have h2 := key w.watermark this
        simpa using h2
    · have hne := hre
      have hmin := winv_wm_min w hinv hne
      have hwmle : w.watermark ≤ w.commitTs := by
        obtain ⟨p, hp, hpe⟩ := List.mem_map.mp hmin.1
        rw [← hpe]
        exact hinv.keyLe p hp
      rw [if_neg (by omega)] at hadd
      rw [Option.some.injEq] at hadd
      subst hadd
      have hq : qtop? (w.commitTs :: w.readQueue) = some w.watermark := by
        rw [qtop?_cons, hinv.wmEq hne]
        simp [Nat.min_eq_right hwmle]
      refine ⟨?_, ?_, ?_, ?_, ?_, ?_, ?_, ?_⟩
      · rw [hupd, List.map_append]
        refine List.Nodup.append hinv.nodup (by simp) ?_
        simp [List.disjoint_singleton, habsent]
      · intro p hp
        rw [hupd] at hp
        rcases List.mem_append.mp hp with h1 | h2
        · exact hinv.pos p h1
        · simp at h2; subst h2; simp
      · intro p hp
        rw [hupd] at hp
        rcases List.mem_append.mp hp with h1 | h2
        · exact hinv.keyLe p h1
        · simp at h2; subst h2; simp
      · intro he
        exact absurd he (aupdate_ne_nil _ _ _)
      · intro he
        exact absurd he (aupdate_ne_nil _ _ _)
      · intro p hp
        rw [hupd] at hp
        rcases List.mem_append.mp hp with h1 | h2
        · exact List.mem_cons_of_mem _ (hinv.keysSub p h1)
        · simp at h2; subst h2; simp
      · intro m hm
        rw [hq] at hm
        rw [Option.some.injEq] at hm
        subst hm
        have hwne : w.commitTs ≠ w.watermark := by
          intro he
          rw [he] at habsent
          exact habsent hmin.1
        rw [alookup_aupdate_ne _ _ _ _ hwne, alookup_isSome_iff]
        exact hmin.1
      · intro _
        exact hq

theorem winv_rem (w w' : Watermark) (ts : Nat) (hinv : WInv w)
    (hrem : w.removeTxn ts = some w') : WInv w' := by
  unfold Watermark.removeTxn at hrem
  cases hlook : alookup w.currentReads ts with
  | none =>
    rw [hlook] at hrem
    simp at hrem
  | some c =>
    simp only [hlook] at hrem
    by_cases hc0 : c = 0
    · rw [if_pos hc0] at hrem
      simp at hrem
    · rw [if_neg hc0] at hrem
      have hne : w.currentReads ≠ [] := by
        intro he
        rw [he] at hlook
        simp at hlook
      have hwmeq := hinv.wmEq hne
      have hmin := winv_wm_min w hinv hne
      have hmemr : (ts, c) ∈ w.currentReads := alookup_mem _ _ _ hlook
      have htsq : ts ∈ w.readQueue := hinv.keysSub _ hmemr
      by_cases hc1 : c - 1 = 0
      · -- the count reaches zero: erase the key and purge the queue
        rw [if_pos hc1] at hrem
        dsimp only at hrem
        by_cases hre' : aerase w.currentReads ts = []
        · have hsingle := aerase_eq_nil _ _ hre'
          rcases hsingle with h | ⟨v, hv⟩
          · exact absurd h hne
          have hq'nil : purgeQueue (aerase w.currentReads ts) w.readQueue = [] := by
            rcases purge_post (aerase w.currentReads ts) w.readQueue with h | ⟨m, _, hm2⟩
            · exact h
            · rw [hre'] at hm2
              simp at hm2
          have hwm_ts : w.watermark = ts := by
            have h1 := hmin.1
            rw [hv] at h1
            simpa using h1
          rw [hre'] at hq'nil hrem
          rw [hq'nil] at hrem
          rw [if_pos hwm_ts.symm, if_pos rfl] at hrem
          rw [Option.some.injEq] at hrem
          subst hrem
          refine ⟨?_, ?_, ?_, ?_, ?_, ?_, ?_, ?_⟩ <;> simp [qtop?]
        · -- the map stays nonempty after the erase
          have hsub := purge_subset (aerase w.currentReads ts) w.readQueue
          have hkeep : ∀ p ∈ aerase w.currentReads ts,
              p.1 ∈ purgeQueue (aerase w.currentReads ts) w.readQueue := by
            intro p hp
            refine purge_keeps _ _ p.1 ?_ (hinv.keysSub p (mem_aerase _ _ _ hp))
            rw [alookup_isSome_iff]
            exact List.mem_map.mpr ⟨p, hp, rfl⟩
          obtain ⟨p0, hp0⟩ := List.exists_mem_of_ne_nil _ hre'
          have hq'ne : purgeQueue (aerase w.currentReads ts) w.readQueue ≠ [] := by
            intro he
            have := hkeep p0 hp0
            rw [he] at this
            simp at this
          obtain ⟨m', hm'1, hm'2⟩ :
              ∃ m, qtop? (purgeQueue (aerase w.currentReads ts) w.readQueue) = some m ∧
                (alookup (aerase w.currentReads ts) m).isSome := by
            rcases purge_post (aerase w.currentReads ts) w.readQueue with h | h
            · exact absurd h hq'ne
            · exact h
          have hcommon :
              ∀ wv, qtop? (purgeQueue (aerase w.currentReads ts) w.readQueue) = some wv →
              WInv { commitTs := w.commitTs, watermark := wv,
                     currentReads := aerase w.currentReads ts,
                     readQueue := purgeQueue (aerase w.currentReads ts) w.readQueue } := by
            intro wv hwv
            refine ⟨?_, ?_, ?_, ?_, ?_, ?_, ?_, ?_⟩
            · exact nodup_keys_aerase _ _ hinv.nodup
            · intro p hp
              exact hinv.pos p (mem_aerase _ _ _ hp)
            · intro p hp
              exact hinv.keyLe p (mem_aerase _ _ _ hp)
            · intro he
              exact absurd he hre'
            · intro he
              exact absurd he hre'
            · intro p hp
              exact hkeep p hp
            · intro m hm
              rw [hwv] at hm
              rw [Option.some.injEq] at hm
              subst hm
              rw [hm'1] at hwv
              rw [Option.some.injEq] at hwv
              subst hwv
              exact hm'2
            · intro _
              exact hwv
          by_cases hts : ts = w.watermark
          · rw [if_pos hts, if_neg hq'ne] at hrem
            rw [Option.some.injEq] at hrem
            subst hrem
            refine hcommon _ ?_
            rw [hm'1]
            simp
          · rw [if_neg hts] at hrem
            rw [Option.some.injEq] at hrem
            subst hrem
            -- the old watermark is still the minimum after erasing `ts`
            have hwne : ts ≠ w.watermark := hts
            have hlook' : (alookup (aerase w.currentReads ts) w.watermark).isSome := by
              rw [alookup_aerase_ne _ _ _ hwne]
              exact hinv.topReg _ hwmeq
            have hwq' : w.watermark ∈ purgeQueue (aerase w.currentReads ts) w.readQueue :=
              purge_keeps _ _ _ hlook' (qtop?_mem _ _ hwmeq)
            have h1 : m' ≤ w.watermark := qtop?_le _ _ hm'1 _ hwq'
            have h2 : w.watermark ≤ m' :=
              qtop?_le _ _ hwmeq _ (hsub _ (qtop?_mem _ _ hm'1))
            have hm'wm : m' = w.watermark := by omega
            exact hcommon w.watermark (by rw [hm'1, hm'wm])
      · -- the count stays positive: only the count cell changes
        rw [if_neg hc1] at hrem
        dsimp only at hrem
        have hqne : w.readQueue ≠ [] := by
          intro he
          rw [he] at htsq
          simp at htsq
        have hkeys : (aupdate w.currentReads ts (c - 1)).map Prod.fst =
            w.currentReads.map Prod.fst :=
          keys_aupdate_present _ _ _ (by simp [hlook])
        have hcommon : WInv { commitTs := w.commitTs, watermark := w.watermark,
                              currentReads := aupdate w.currentReads ts (c - 1),
                              readQueue := w.readQueue } := by
          refine ⟨?_, ?_, ?_, ?_, ?_, ?_, ?_, ?_⟩
          · rw [hkeys]
            exact hinv.nodup
          · intro p hp
            rcases mem_aupdate _ _ _ _ hp with h1 | h2
            · subst h1
              simp
              omega
            · exact hinv.pos p h2
          · intro p hp
            rcases mem_aupdate _ _ _ _ hp with h1 | h2
            · subst h1
              exact hinv.keyLe (ts, c) hmemr
            · exact hinv.keyLe p h2
          · intro he
            exact absurd he (aupdate_ne_nil _ _ _)
          · intro he
            exact absurd he (aupdate_ne_nil _ _ _)
          · intro p hp
            rcases mem_aupdate _ _ _ _ hp with h1 | h2
            · subst h1
              exact htsq
            · exact hinv.keysSub p h2
          · intro m hm
            rw [alookup_isSome_iff, hkeys, ← alookup_isSome_iff]
            exact hinv.topReg m hm
          · intro _
            exact hwmeq
        by_cases hts : ts = w.watermark
        · rw [if_pos hts, if_neg hqne] at hrem
          rw [Option.some.injEq] at hrem
          subst hrem
          have : (qtop? w.readQueue).getD 0 = w.watermark := by
            rw [hwmeq]
            simp
          rw [this]
          exact hcommon
        · rw [if_neg hts] at hrem
          rw [Option.some.injEq] at hrem
          subst hrem
          exact hcommon

/-- States reachable under the amended usage discipline: `AddTxn` is called
with the commit timestamp current at the call (as `TransactionManager::Begin`
does), `RemoveTxn` with a currently registered timestamp (its success encodes
this), and `UpdateCommitTs` with a non-decreasing timestamp and only while at
least one read timestamp is registered (as `TransactionManager::Commit`
does). -/
inductive WReach : Watermark → Prop
  | init (c : Nat) : WReach (Watermark.init c)
  | add (w w' : Watermark) : WReach w → w.addTxn w.commitTs = some w' → WReach w'
  | rem (w w' : Watermark) (ts : Nat) : WReach w → w.removeTxn ts = some w' → WReach w'
  | upd (w : Watermark) (c : Nat) : WReach w → w.commitTs ≤ c →
      w.currentReads ≠ [] → WReach (w.updateCommitTs c)

theorem winv_reach (w : Watermark) (h : WReach w) : WInv w := by
  induction h with
  | init c => exact winv_init c
  | add w w' _ hadd ih => exact winv_add w w' ih hadd
  | rem w w' ts _ hrem ih => exact winv_rem w w' ts ih hrem
  | upd w c _ hc hne ih => exact winv_upd w c ih hc hne

theorem qtop?_append (q1 q2 : List Nat) :
    qtop? (q1 ++ q2) =
      match qtop? q1, qtop? q2 with
      | none, x => x
      | some a, none => some a
      | some a, some b => some (min a b) := by
  induction q1 with
  | nil =>
    cases h2 : qtop? q2 <;> simp [qtop?, h2]
  | cons a rest ih =>
    rw [List.cons_append, qtop?_cons, qtop?_cons, ih]
    cases h1 : qtop? rest <;> cases h2 : qtop? q2 <;> simp [Nat.min_assoc]

theorem qtop?_replicate (n : Nat) (a : Nat) (h : 0 < n) :
    qtop? (List.replicate n a) = some a := by
  induction n with
  | zero => omega
  | succ m ih =>
    rw [List.replicate_succ, qtop?_cons]
    by_cases hm : 0 < m
    · rw [ih hm]
      simp
    · have hm0 : m = 0 := by omega
      subst hm0
      simp [qtop?]

theorem qtop?_flatten_replicate (reads : List (Nat × Nat))
    (hpos : ∀ p ∈ reads, 0 < p.2) :
    qtop? ((reads.map fun p => List.replicate p.2 p.1).flatten) =
      qtop? (reads.map Prod.fst) := by
  induction reads with
  | nil => simp
  | cons hd tl ih =>
    obtain ⟨k, c⟩ := hd
    have hc : 0 < c := hpos (k, c) (List.mem_cons_self _ _)
    have ih' := ih (fun p hp => hpos p (List.mem_cons_of_mem _ hp))
    simp only [List.map_cons, List.flatten_cons]
    rw [qtop?_append, qtop?_replicate c k hc, ih']
    rw [qtop?_cons]
    cases qtop? (tl.map Prod.fst) <;> simp

/-- C6 counterexample to the claim as stated: starting from a fresh watermark
with commit timestamp 0, the single call `AddTxn(1)` is permitted by the
claim (its read timestamp 1 is at least the current commit timestamp 0), one
read timestamp is registered and its minimum is 1, yet `GetWatermark()`
returns 0: `AddTxn` only lowers `watermark_` (`min(watermark_, read_ts)`,
src/src/concurrency/watermark.cpp:27-29), so a stale smaller value survives
the registration. -/
theorem watermark_getWatermark_counterexample :
    (Watermark.init 0).commitTs ≤ 1 ∧
    ((Watermark.init 0).addTxn 1).map Watermark.getWatermark = some 0 ∧
    ((Watermark.init 0).addTxn 1).map registeredReads = some [1] ∧
    (0 : Nat) ≠ 1 := by
  refine ⟨by decide, ?_, ?_, by decide⟩ <;>
    simp [Watermark.init, Watermark.addTxn, Watermark.getWatermark,
      registeredReads, alookup, aupdate]

/-- C6 (amended).  Watermark minimality under the amended discipline: in
every watermark state reachable by `AddTxn(read_ts)` calls with `read_ts`
equal to the commit timestamp current at that call, `RemoveTxn` calls of
previously added timestamps, and `UpdateCommitTs` calls with non-decreasing
commit timestamps made only while at least one read timestamp is registered,
`GetWatermark()` equals the minimum read timestamp currently registered
(counting multiplicity), and equals the commit timestamp when no read
timestamp is registered. -/
theorem watermark_minimum_spec (w : Watermark) (h : WReach w) :
    w.getWatermark = (qtop? (registeredReads w)).getD w.commitTs := by
  have hinv := winv_reach w h
  unfold Watermark.getWatermark registeredReads
  by_cases hre : w.currentReads = []
  · rw [if_pos hre, hre]
    simp [qtop?]
  · rw [if_neg hre]
    rw [qtop?_flatten_replicate _ hinv.pos]
    have hmin := winv_wm_min w hinv hre
    rw [le_qtop? _ _ hmin.1 hmin.2]
    simp

/-- Witness for C6 at a concrete state: register timestamp 0 on a fresh
watermark with commit timestamp 0; the watermark then reports 0, the minimum
registered read timestamp. -/
theorem watermark_minimum_spec_witness :
    ∃ w', (Watermark.init 0).addTxn (Watermark.init 0).commitTs = some w' ∧
      w'.getWatermark = (qtop? (registeredReads w')).getD w'.commitTs := by
  refine ⟨{ commitTs := 0, watermark := 0, currentReads := [(0, 1)],
            readQueue := [0] }, by decide, ?_⟩
  exact watermark_minimum_spec _
    (WReach.add _ _ (WReach.init 0) (by decide))

/-! ## `TransactionManager::Commit`
(src/src/concurrency/transaction_manager.cpp:54-97)

The catalog and table heaps the commit loop writes through
(`catalog_->GetTable`, `table_->GetTuple`, `table_->UpdateTupleInPlace`; their
implementations are not under src/) are modelled as a two-level association
map: table oid to a map from RID (page id, slot) to the stored tuple metadata
and tuple.  A transaction carries the fields of the missing `transaction.h`
that `Commit`/`Abort` use: state, isolation level, read timestamp, commit
timestamp and write set. -/

/-- Transaction states (spec section 3, "Transaction"). -/
inductive TxnState
  | running
  | tainted
  | committed
  | aborted
  deriving DecidableEq, Repr

/-- Isolation levels (spec section 6, configuration). -/
inductive IsoLevel
  | snapshotIsolation
  | serializable
  deriving DecidableEq, Repr

/-- Modelled from the spec: the transaction record fields used by
`Commit`/`Abort` (the `Transaction` class of the missing `transaction.h`).
The write set maps a table oid to the RIDs written in it. -/
structure Txn where
  state : TxnState
  isolation : IsoLevel
  readTs : Nat
  commitTs : Option Nat
  writeSet : List (Nat × List (Nat × Nat))
  deriving DecidableEq, Repr

/-- Table heaps: table oid to RID to (metadata, tuple). -/
def Tables : Type := List (Nat × List ((Nat × Nat) × (TupleMeta × List Nat)))

/-- Lookup of one tuple: `catalog_->GetTable(oid)` then
`table_->GetTuple(rid)`. -/
def tableLookup (tbls : Tables) (oid : Nat) (rid : Nat × Nat) :
    Option (TupleMeta × List Nat) :=
  (alookup tbls oid).bind fun heap => alookup heap rid

/-- The state of the transaction manager that `Commit` touches
(src/src/include/concurrency/transaction_manager.h:122-135). -/
structure TxnMgr where
  lastCommitTs : Nat
  runningTxns : Watermark
  tables : Tables

/-- Embeds `TransactionManager::VerifyTxn`
(src/src/concurrency/transaction_manager.cpp:52): always true. -/
def verifyTxn (_txn : Txn) : Bool := true

/-- Embeds `TransactionManager::Abort`
(src/src/concurrency/transaction_manager.cpp:100-112). -/
def abortTxn (s : TxnMgr) (txn : Txn) : Except String (TxnMgr × Txn) :=
  if txn.state ≠ TxnState.running ∧ txn.state ≠ TxnState.tainted then
    Except.error "txn not in running / tainted state"
  else
    match s.runningTxns.removeTxn txn.readTs with
    | none => Except.error "read ts not found in current reads"
    | some wm =>
      Except.ok ({ s with runningTxns := wm }, { txn with state := TxnState.aborted })

/-- One iteration of the commit write-back loop
(src/src/concurrency/transaction_manager.cpp:78-85): rewrite the tuple's
metadata timestamp to the commit timestamp, keeping its deletion flag and its
bytes.  A missing table or tuple would abort the process in the source; the
model leaves the state unchanged and the theorems quantify over present
tuples. -/
def commitWrite (commitTs : Nat) (tbls : Tables) (oid : Nat) (rid : Nat × Nat) : Tables :=
  match alookup tbls oid with
  | none => tbls
  | some heap =>
    match alookup heap rid with
    | none => tbls
    | some (meta, tup) =>
      aupdate tbls oid
        (aupdate heap rid ({ ts := commitTs, isDeleted := meta.isDeleted }, tup))

/-- Embeds `TransactionManager::Commit`
(src/src/concurrency/transaction_manager.cpp:54-97).  `Except.error` models
the thrown exceptions; `Except.ok (false, ...)` the verification-failure
return (dead, since `VerifyTxn` returns true); `Except.ok (true, ...)` a
completed commit. -/
def commitTxn (s : TxnMgr) (txn : Txn) : Except String (Bool × TxnMgr × Txn) :=
  let commitTs := s.lastCommitTs + 1
  if txn.state ≠ TxnState.running then Except.error "txn not in running state"
  else if txn.isolation = IsoLevel.serializable ∧ verifyTxn txn = false then
    match abortTxn s txn with
    | Except.ok (s1, txn1) => Except.ok (false, s1, txn1)
    | Except.error msg => Except.error msg
  else
    let tables' := txn.writeSet.foldl
      (fun tbls pr => pr.2.foldl
        (fun tbls rid => commitWrite commitTs tbls pr.1 rid) tbls)
      s.tables
    let txn' := { txn with commitTs := some commitTs, state := TxnState.committed }
    let wm1 := s.runningTxns.updateCommitTs commitTs
    match wm1.removeTxn txn.readTs with
    | none => Except.error "read ts not found in current reads"
    | some wm2 =>
      Except.ok (true,
        { s with tables := tables', runningTxns := wm2,
                 lastCommitTs := s.lastCommitTs + 1 },
        txn')

theorem commitWrite_other (cts : Nat) (tbls : Tables) (oid : Nat) (rid : Nat × Nat)
    (oid' : Nat) (rid' : Nat × Nat) (h : oid ≠ oid' ∨ rid ≠ rid') :
    tableLookup (commitWrite cts tbls oid rid) oid' rid' = tableLookup tbls oid' rid' := by
  unfold commitWrite
  cases h1 : alookup tbls oid with
  | none => rfl
  | some heap =>
    dsimp only
    cases h2 : alookup heap rid with
    | none => rfl
    | some mt =>
      obtain ⟨meta, tup⟩ := mt
      dsimp only
      unfold tableLookup
      by_cases ho : oid = oid'
      · subst ho
        rcases h with h | h
        · exact absurd rfl h
        · rw [alookup_aupdate_self, h1]
          simp only [Option.some_bind]
          exact alookup_aupdate_ne _ _ _ _ h
      · rw [alookup_aupdate_ne _ _ _ _ ho]

theorem commitWrite_target (cts : Nat) (tbls : Tables) (oid : Nat) (rid : Nat × Nat)
    (m : TupleMeta) (t : List Nat) (h : tableLookup tbls oid rid = some (m, t)) :
    tableLookup (commitWrite cts tbls oid rid) oid rid =
      some ({ ts := cts, isDeleted := m.isDeleted }, t) := by
  unfold tableLookup at h
  cases h1 : alookup tbls oid with
  | none => rw [h1] at h; simp at h
  | some heap =>
    rw [h1] at h
    simp only [Option.some_bind] at h
    unfold commitWrite tableLookup
    rw [h1]
    dsimp only
    rw [h]
    dsimp only
    rw [alookup_aupdate_self]
    simp only [Option.some_bind]
    exact alookup_aupdate_self _ _ _

/-- "Already committed at `(oid, rid)`": the state of the target cell after
its write-back. -/
def cellCommitted (cts : Nat) (d0 : Bool) (t0 : List Nat) (tbls : Tables)
    (oid : Nat) (rid : Nat × Nat) : Prop :=
  tableLookup tbls oid rid = some ({ ts := cts, isDeleted := d0 }, t0)

theorem commitWrite_pres_committed (cts : Nat) (d0 : Bool) (t0 : List Nat)
    (tbls : Tables) (oidT : Nat) (ridT : Nat × Nat) (oid : Nat) (rid : Nat × Nat)
    (h : cellCommitted cts d0 t0 tbls oidT ridT) :
    cellCommitted cts d0 t0 (commitWrite cts tbls oid rid) oidT ridT := by
  by_cases he : oid = oidT ∧ rid = ridT
  · obtain ⟨h1, h2⟩ := he
    subst h1
    subst h2
    unfold cellCommitted at h ⊢
    rw [commitWrite_target cts tbls oid rid _ _ h]
  · unfold cellCommitted at h ⊢
    rw [commitWrite_other cts tbls oid rid oidT ridT (by tauto)]
    exact h

/-- Either the cell still holds its original contents or it has been
committed. -/
def cellOrig (m0 : TupleMeta) (t0 : List Nat) (cts : Nat) (tbls : Tables)
    (oid : Nat) (rid : Nat × Nat) : Prop :=
  tableLookup tbls oid rid = some (m0, t0) ∨
    cellCommitted cts m0.isDeleted t0 tbls oid rid

theorem commitWrite_pres_orig (cts : Nat) (m0 : TupleMeta) (t0 : List Nat)
    (tbls : Tables) (oidT : Nat) (ridT : Nat × Nat) (oid : Nat) (rid : Nat × Nat)
    (h : cellOrig m0 t0 cts tbls oidT ridT) :
    cellOrig m0 t0 cts (commitWrite cts tbls oid rid) oidT ridT := by
  rcases h with h | h
  · by_cases he : oid = oidT ∧ rid = ridT
    · obtain ⟨h1, h2⟩ := he
      subst h1
      subst h2
      right
      unfold cellCommitted
      rw [commitWrite_target cts tbls oid rid _ _ h]
    · left
      rw [commitWrite_other cts tbls oid rid oidT ridT (by tauto)]
      exact h
  · right
    exact commitWrite_pres_committed cts _ _ tbls oidT ridT oid rid h

theorem foldRids_pres_committed (cts : Nat) (d0 : Bool) (t0 : List Nat)
    (oidT : Nat) (ridT : Nat × Nat) (oid : Nat) (rids : List (Nat × Nat)) :
    ∀ tbls, cellCommitted cts d0 t0 tbls oidT ridT →
      cellCommitted cts d0 t0
        (rids.foldl (fun tbls rid => commitWrite cts tbls oid rid) tbls) oidT ridT := by
  induction rids with
  | nil => intro tbls h; exact h
  | cons r rest ih =>
    intro tbls h
    exact ih _ (commitWrite_pres_committed cts d0 t0 tbls oidT ridT oid r h)

theorem foldRids_pres_orig (cts : Nat) (m0 : TupleMeta) (t0 : List Nat)
    (oidT : Nat) (ridT : Nat × Nat) (oid : Nat) (rids : List (Nat × Nat)) :
    ∀ tbls, cellOrig m0 t0 cts tbls oidT ridT →
      cellOrig m0 t0 cts
        (rids.foldl (fun tbls rid => commitWrite cts tbls oid rid) tbls) oidT ridT := by
  induction rids with
  | nil => intro tbls h; exact h
  | cons r rest ih =>
    intro tbls h
    exact ih _ (commitWrite_pres_orig cts m0 t0 tbls oidT ridT oid r h)

theorem foldRids_commits (cts : Nat) (m0 : TupleMeta) (t0 : List Nat)
    (oidT : Nat) (ridT : Nat × Nat) (rids : List (Nat × Nat)) :
    ∀ tbls, cellOrig m0 t0 cts tbls oidT ridT → ridT ∈ rids →
      cellCommitted cts m0.isDeleted t0
        (rids.foldl (fun tbls rid => commitWrite cts tbls oidT rid) tbls) oidT ridT := by
  induction rids with
  | nil => intro tbls _ hmem; simp at hmem
  | cons r rest ih =>
    intro tbls h hmem
    by_cases hr : r = ridT
    · subst hr
      have hstep : cellCommitted cts m0.isDeleted t0
          (commitWrite cts tbls oidT r) oidT r := by
        rcases h with h | h
        · unfold cellCommitted
          rw [commitWrite_target cts tbls oidT r _ _ h]
        · exact commitWrite_pres_committed cts _ _ tbls oidT r oidT r h
      exact foldRids_pres_committed cts _ _ oidT r oidT rest _ hstep
    · have hmem' : ridT ∈ rest := by
        rcases List.mem_cons.mp hmem with h1 | h1
        · exact absurd h1.symm hr
        · exact h1
      exact ih _ (commitWrite_pres_orig cts m0 t0 tbls oidT ridT oidT r h) hmem'

theorem foldWs_pres_committed (cts : Nat) (d0 : Bool) (t0 : List Nat)
    (oidT : Nat) (ridT : Nat × Nat) (ws : List (Nat × List (Nat × Nat))) :
    ∀ tbls, cellCommitted cts d0 t0 tbls oidT ridT →
      cellCommitted cts d0 t0
        (ws.foldl (fun tbls pr => pr.2.foldl
          (fun tbls rid => commitWrite cts tbls pr.1 rid) tbls) tbls) oidT ridT := by
  induction ws with
  | nil => intro tbls h; exact h
  | cons pr rest ih =>
    intro tbls h
    exact ih _ (foldRids_pres_committed cts d0 t0 oidT ridT pr.1 pr.2 tbls h)

theorem foldWs_pres_orig (cts : Nat) (m0 : TupleMeta) (t0 : List Nat)
    (oidT : Nat) (ridT : Nat × Nat) (ws : List (Nat × List (Nat × Nat))) :
    ∀ tbls, cellOrig m0 t0 cts tbls oidT ridT →
      cellOrig m0 t0 cts
        (ws.foldl (fun tbls pr => pr.2.foldl
          (fun tbls rid => commitWrite cts tbls pr.1 rid) tbls) tbls) oidT ridT := by
  induction ws with
  | nil => intro tbls h; exact h
  | cons pr rest ih =>
    intro tbls h
    exact ih _ (foldRids_pres_orig cts m0 t0 oidT ridT pr.1 pr.2 tbls h)

theorem foldWs_commits (cts : Nat) (m0 : TupleMeta) (t0 : List Nat)
    (oidT : Nat) (ridT : Nat × Nat) (ridsT : List (Nat × Nat))
    (ws : List (Nat × List (Nat × Nat))) :
    ∀ tbls, cellOrig m0 t0 cts tbls oidT ridT → (oidT, ridsT) ∈ ws → ridT ∈ ridsT →
      cellCommitted cts m0.isDeleted t0
        (ws.foldl (fun tbls pr => pr.2.foldl
          (fun tbls rid => commitWrite cts tbls pr.1 rid) tbls) tbls) oidT ridT := by
  induction ws with
  | nil => intro tbls _ hmem _; simp at hmem
  | cons pr rest ih =>
    intro tbls h hmem hrid
    rcases List.mem_cons.mp hmem with h1 | h1
    · subst h1
      have := foldRids_commits cts m0 t0 oidT ridT ridsT tbls h hrid
      exact foldWs_pres_committed cts _ _ oidT ridT rest _ this
    · exact ih _ (foldRids_pres_orig cts m0 t0 oidT ridT pr.1 pr.2 tbls h) h1 hrid

theorem foldRids_untouched (cts : Nat) (oidT : Nat) (ridT : Nat × Nat)
    (oid : Nat) (rids : List (Nat × Nat)) (hno : oid ≠ oidT ∨ ridT ∉ rids) :
    ∀ tbls, tableLookup
        (rids.foldl (fun tbls rid => commitWrite cts tbls oid rid) tbls) oidT ridT =
      tableLookup tbls oidT ridT := by
  induction rids with
  | nil => intro tbls; rfl
  | cons r rest ih =>
    intro tbls
    have hno' : oid ≠ oidT ∨ ridT ∉ rest := by
      rcases hno with h | h
      · exact Or.inl h
      · exact Or.inr (fun hm => h (List.mem_cons_of_mem _ hm))
    have hr : oid ≠ oidT ∨ r ≠ ridT := by
      rcases hno with h | h
      · exact Or.inl h
      · exact Or.inr (fun he => h (he ▸ List.mem_cons_self _ _))
    rw [List.foldl_cons, ih hno', commitWrite_other cts tbls oid r oidT ridT hr]

theorem foldWs_untouched (cts : Nat) (oidT : Nat) (ridT : Nat × Nat)
    (ws : List (Nat × List (Nat × Nat)))
    (hno : ∀ rids, (oidT, rids) ∈ ws → ridT ∉ rids) :
    ∀ tbls, tableLookup
        (ws.foldl (fun tbls pr => pr.2.foldl
          (fun tbls rid => commitWrite cts tbls pr.1 rid) tbls) tbls) oidT ridT =
      tableLookup tbls oidT ridT := by
  induction ws with
  | nil => intro tbls; rfl
  | cons pr rest ih =>
    intro tbls
    have hno' : ∀ rids, (oidT, rids) ∈ rest → ridT ∉ rids :=
      fun rids hm => hno rids (List.mem_cons_of_mem _ hm)
    have hhd : pr.1 ≠ oidT ∨ ridT ∉ pr.2 := by
      by_cases he : pr.1 = oidT
      · right
        intro hm
        exact hno pr.2 (by rw [← he]; exact List.mem_cons_self _ _) hm
      · exact Or.inl he
    rw [List.foldl_cons, ih hno', foldRids_untouched cts oidT ridT pr.1 pr.2 hhd tbls]

theorem commit_ok_shape (s : TxnMgr) (txn : Txn) (b : Bool) (s' : TxnMgr) (txn' : Txn)
    (h : commitTxn s txn = Except.ok (b, s', txn')) :
    b = true ∧ txn'.commitTs = some (s.lastCommitTs + 1) ∧
      s'.lastCommitTs = s.lastCommitTs + 1 := by
  unfold commitTxn at h
  by_cases h1 : txn.state ≠ TxnState.running
  · rw [if_pos h1] at h
    simp at h
  · rw [if_neg h1] at h
    have h2 : ¬(txn.isolation = IsoLevel.serializable ∧ verifyTxn txn = false) := by
      simp [verifyTxn]
    rw [if_neg h2] at h
    dsimp only at h
    cases h3 : (s.runningTxns.updateCommitTs (s.lastCommitTs + 1)).removeTxn txn.readTs with
    | none =>
      rw [h3] at h
      simp at h
    | some wm2 =>
      rw [h3] at h
      simp only [Except.ok.injEq, Prod.mk.injEq] at h
      obtain ⟨hb, hs, ht⟩ := h
      refine ⟨hb.symm, ?_, ?_⟩
      · rw [← ht]
      · rw [← hs]

/-- C5.  Commit effects: for a transaction in the RUNNING state (whose read
timestamp is registered in the watermark, as `Begin` guarantees),
`Commit` computes `commit_ts = last_commit_ts + 1`, rewrites the base-tuple
metadata timestamp of every RID of the write set to `commit_ts` preserving
each tuple's deletion flag and bytes (tuples outside the write set are
untouched), records `commit_ts` on the transaction, marks it COMMITTED,
updates the watermark's commit timestamp and removes the transaction's read
timestamp from it, and publishes `last_commit_ts = commit_ts`; two successive
successful commits receive strictly increasing commit timestamps; `Commit` on
a transaction not in the RUNNING state takes the transaction-state error
branch and performs no effect (the returned state is the error alone). -/
theorem commitTxn_spec (s : TxnMgr) (txn : Txn) :
    (∀ (_hrun : txn.state = TxnState.running) (c : Nat),
      alookup s.runningTxns.currentReads txn.readTs = some c → c ≠ 0 →
      ∃ s' txn', commitTxn s txn = Except.ok (true, s', txn') ∧
        txn'.commitTs = some (s.lastCommitTs + 1) ∧
        txn'.state = TxnState.committed ∧
        s'.lastCommitTs = s.lastCommitTs + 1 ∧
        (s.runningTxns.updateCommitTs (s.lastCommitTs + 1)).removeTxn txn.readTs =
          some s'.runningTxns ∧
        (∀ oid rids rid m0 t0, (oid, rids) ∈ txn.writeSet → rid ∈ rids →
          tableLookup s.tables oid rid = some (m0, t0) →
          tableLookup s'.tables oid rid =
            some ({ ts := s.lastCommitTs + 1, isDeleted := m0.isDeleted }, t0)) ∧
        (∀ oid rid, (∀ rids, (oid, rids) ∈ txn.writeSet → rid ∉ rids) →
          tableLookup s'.tables oid rid = tableLookup s.tables oid rid)) ∧
    (txn.state ≠ TxnState.running →
      commitTxn s txn = Except.error "txn not in running state") ∧
    (∀ s1 txn1 txn2 s2 txn2' c1 c2,
      commitTxn s txn = Except.ok (true, s1, txn1) →
      commitTxn s1 txn2 = Except.ok (true, s2, txn2') →
      txn1.commitTs = some c1 → txn2'.commitTs = some c2 → c1 < c2) := by
  refine ⟨?_, ?_, ?_⟩
  · intro hrun c hreg hc
    have hnr : ¬txn.state ≠ TxnState.running := by simp [hrun]
    have hver : ¬(txn.isolation = IsoLevel.serializable ∧ verifyTxn txn = false) := by
      simp [verifyTxn]
    have hlook2 : alookup
        ((s.runningTxns.updateCommitTs (s.lastCommitTs + 1)).currentReads)
        txn.readTs = some c := hreg
    obtain ⟨wm2, hwm2⟩ : ∃ wm2,
        (s.runningTxns.updateCommitTs (s.lastCommitTs + 1)).removeTxn txn.readTs =
          some wm2 := by
      unfold Watermark.removeTxn
      rw [hlook2]
      dsimp only
      rw [if_neg hc]
      exact ⟨_, rfl⟩
    have hok : commitTxn s txn = Except.ok (true,
        { s with
            tables := txn.writeSet.foldl
              (fun tbls pr => pr.2.foldl
                (fun tbls rid => commitWrite (s.lastCommitTs + 1) tbls pr.1 rid) tbls)
              s.tables,
            runningTxns := wm2,
            lastCommitTs := s.lastCommitTs + 1 },
        { txn with commitTs := some (s.lastCommitTs + 1),
                   state := TxnState.committed }) := by
      unfold commitTxn
      rw [if_neg hnr, if_neg hver]
      dsimp only
      rw [hwm2]
    refine ⟨_, _, hok, rfl, rfl, rfl, ?_, ?_, ?_⟩
    · exact hwm2
    · intro oid rids rid m0 t0 hws hrid hm0
      exact foldWs_commits (s.lastCommitTs + 1) m0 t0 oid rid rids txn.writeSet
        s.tables (Or.inl hm0) hws hrid
    · intro oid rid hno
      exact foldWs_untouched (s.lastCommitTs + 1) oid rid txn.writeSet hno s.tables
  · intro hnr
    unfold commitTxn
    rw [if_pos hnr]
  · intro s1 txn1 txn2 s2 txn2' c1 c2 h1 h2 hc1 hc2
    obtain ⟨_, ht1, hs1⟩ := commit_ok_shape s txn true s1 txn1 h1
    obtain ⟨_, ht2, _⟩ := commit_ok_shape s1 txn2 true s2 txn2' h2
    rw [hc1] at ht1
    rw [hc2] at ht2
    rw [Option.some.injEq] at ht1 ht2
    omega

/-- Witness for C5 at a concrete input: a single-table state with one tuple
and a running transaction with read timestamp 0 whose write set holds that
tuple's RID. -/
theorem commitTxn_spec_witness :
    ∃ s' txn',
      commitTxn
        { lastCommitTs := 0,
          runningTxns := { commitTs := 0, watermark := 0,
                           currentReads := [(0, 1)], readQueue := [0] },
          tables := [(1, [((0, 0), ({ ts := TXN_START_ID, isDeleted := false }, [7]))])] }
        { state := TxnState.running, isolation := IsoLevel.snapshotIsolation,
          readTs := 0, commitTs := none, writeSet := [(1, [(0, 0)])] } =
        Except.ok (true, s', txn') ∧
      txn'.commitTs = some 1 ∧ txn'.state = TxnState.committed := by
  obtain ⟨s', txn', h1, h2, h3, _⟩ :=
    (commitTxn_spec
      { lastCommitTs := 0,
        runningTxns := { commitTs := 0, watermark := 0,
                         currentReads := [(0, 1)], readQueue := [0] },
        tables := [(1, [((0, 0), ({ ts := TXN_START_ID, isDeleted := false }, [7]))])] }
      { state := TxnState.running, isolation := IsoLevel.snapshotIsolation,
        readTs := 0, commitTs := none, writeSet := [(1, [(0, 0)])] }).1
      rfl 1 (by simp [alookup]) (by decide)
  exact ⟨s', txn', h1, h2, h3⟩

/-! ## LRU-K replacer (src/src/buffer/lru_k_replacer.cpp)

`lru_k_replacer.h` (the `LRUKNode` class and the `std::optional` overload of
`Evict` used by the buffer pool manager) is not under src/, so the node is
modelled from the spec (section 4.3): a record holding a bounded FIFO of up
to K access timestamps and an evictable flag.  Per the source comments
(lru_k_replacer.cpp:35, "compare history_.front()"), `GetKDistance` is the
front (oldest) entry of the bounded history — for a frame with fewer than K
accesses its oldest access, otherwise its K-th most recent access — so that
a smaller front means a larger backward K-distance.  `node_store_` (an
`std::unordered_map`) is an association list; the victim scan is order
independent on the states the claims quantify over. -/

/-- Modelled from the spec: the per-frame record of the missing
`lru_k_replacer.h` — a bounded FIFO of up to K access timestamps (oldest
first) and an evictable flag (initially false). -/
structure LRUKNode where
  history : List Nat
  evictable : Bool
  deriving DecidableEq, Repr

/-- Modelled from the spec: `LRUKNode::GetHistorySize`. -/
def LRUKNode.getHistorySize (n : LRUKNode) : Nat := n.history.length

/-- Modelled from the spec: `LRUKNode::GetKDistance`, the front of the
bounded history (lru_k_replacer.cpp:35). -/
def LRUKNode.getKDistance (n : LRUKNode) : Nat := n.history.headD 0

/-- Modelled from the spec: `LRUKNode::RecordAccess` — append the timestamp
and truncate the history to the most recent K entries (spec section 4.3). -/
def LRUKNode.recAccess (k : Nat) (n : LRUKNode) (t : Nat) : LRUKNode :=
  { n with history := (n.history ++ [t]).drop ((n.history ++ [t]).length - k) }

/-- Embeds the `LRUKReplacer` state (spec section 4.3 and
lru_k_replacer.cpp). -/
structure LRUKReplacer where
  store : List (Nat × LRUKNode)
  currentTs : Nat
  currSize : Nat
  k : Nat
  replacerSize : Nat
  deriving DecidableEq, Repr

/-- The `LRUKReplacer` constructor (lru_k_replacer.cpp:27). -/
def LRUKReplacer.init (numFrames k : Nat) : LRUKReplacer :=
  { store := [], currentTs := 0, currSize := 0, k := k, replacerSize := numFrames }

/-- Embeds `LRUKReplacer::RecordAccess` (lru_k_replacer.cpp:74-86); `none`
models the `BUSTUB_ASSERT` abort on an out-of-range frame id. -/
def LRUKReplacer.recordAccess (r : LRUKReplacer) (fid : Nat) : Option LRUKReplacer :=
  if fid < r.replacerSize then
    let node : LRUKNode :=
      match alookup r.store fid with
      | none => { history := [], evictable := false }
      | some n => n
    some { r with store := aupdate r.store fid (node.recAccess r.k r.currentTs),
                  currentTs := r.currentTs + 1 }
  else none

/-- Embeds `LRUKReplacer::SetEvictable` (lru_k_replacer.cpp:95-112); `none`
models the asserts on an out-of-range or unknown frame id. -/
def LRUKReplacer.setEvictable (r : LRUKReplacer) (fid : Nat) (b : Bool) :
    Option LRUKReplacer :=
  if fid < r.replacerSize then
    match alookup r.store fid with
    | none => none
    | some n =>
      let newSize :=
        if n.evictable = false ∧ b = true then r.currSize + 1
        else if n.evictable = true ∧ b = false then r.currSize - 1
        else r.currSize
      some { r with store := aupdate r.store fid { n with evictable := b },
                    currSize := newSize }
  else none

/-- Embeds `LRUKReplacer::Remove` (lru_k_replacer.cpp:121-138). -/
def LRUKReplacer.removeFrame (r : LRUKReplacer) (fid : Nat) : Option LRUKReplacer :=
  if fid < r.replacerSize then
    match alookup r.store fid with
    | none => some r
    | some n =>
      some { r with store := aerase r.store fid,
                    currSize := if n.evictable then r.currSize - 1 else r.currSize }
  else none

/-- The victim scan of `LRUKReplacer::Evict` (lru_k_replacer.cpp:45-60):
fold over `node_store_` keeping the current `lru_frame`.  A frame with fewer
than K accesses beats any frame with at least K; within the same class the
frame whose `GetKDistance` (history front) is not larger wins, the later one
on ties. -/
def evictLoop (k : Nat) : List (Nat × LRUKNode) → Option (Nat × LRUKNode) →
    Option (Nat × LRUKNode)
  | [], best => best
  | (fid, n) :: rest, best =>
    if n.evictable then
      match best with
      | none => evictLoop k rest (some (fid, n))
      | some (bfid, bn) =>
        if n.getHistorySize < k ∧ k ≤ bn.getHistorySize then
          evictLoop k rest (some (fid, n))
        else if k ≤ n.getHistorySize ∧ bn.getHistorySize < k then
          evictLoop k rest (some (bfid, bn))
        else if n.getKDistance ≤ bn.getKDistance then
          evictLoop k rest (some (fid, n))
        else
          evictLoop k rest (some (bfid, bn))
    else
      evictLoop k rest best

/-- Embeds `LRUKReplacer::Evict` (lru_k_replacer.cpp:37-67) in the
`std::optional` form its buffer-pool caller uses: `none` when no frame is
evictable, otherwise the victim of the scan, whose record is removed via
`Remove`. -/
def LRUKReplacer.evict (r : LRUKReplacer) : Option (Nat × LRUKReplacer) :=
  if r.currSize = 0 then none
  else
    match evictLoop r.k r.store none with
    | none => none
    | some (fid, _) =>
      match r.removeFrame fid with
      | none => none
      | some r' => some (fid, r')

/-- Replacer states reachable by any sequence of operations. -/
inductive LReach : LRUKReplacer → Prop
  | init (numFrames k : Nat) : LReach (LRUKReplacer.init numFrames k)
  | access (r r' : LRUKReplacer) (fid : Nat) :
      LReach r → r.recordAccess fid = some r' → LReach r'
  | setEv (r r' : LRUKReplacer) (fid : Nat) (b : Bool) :
      LReach r → r.setEvictable fid b = some r' → LReach r'
  | rm (r r' : LRUKReplacer) (fid : Nat) :
      LReach r → r.removeFrame fid = some r' → LReach r'
  | ev (r r' : LRUKReplacer) (fid : Nat) :
      LReach r → r.evict = some (fid, r') → LReach r'

/-- Number of evictable entries of a store. -/
def evictableCount (store : List (Nat × LRUKNode)) : Nat :=
  (store.filter fun p => p.2.evictable).length

/-- Invariant of reachable replacer states: unique frame ids, all below the
replacer capacity, and `curr_size_` equal to the number of evictable
entries. -/
structure LInv (r : LRUKReplacer) : Prop where
  nodup : (r.store.map Prod.fst).Nodup
  bounded : ∀ p ∈ r.store, p.1 < r.replacerSize
  size : r.currSize = evictableCount r.store

theorem evictableCount_aupdate_present (store : List (Nat × LRUKNode)) (fid : Nat)
    (n n' : LRUKNode) (hl : alookup store fid = some n) :
    ∀ _hnd : (store.map Prod.fst).Nodup,
      evictableCount (aupdate store fid n') + (if n.evictable then 1 else 0) =
        evictableCount store + (if n'.evictable then 1 else 0) := by
  induction store with
  | nil => simp at hl
  | cons hd tl ih =>
    intro hnd
    obtain ⟨k0, v0⟩ := hd
    simp only [List.map_cons, List.nodup_cons] at hnd
    by_cases h0 : k0 = fid
    · have hv0n : v0 = n := by
        rw [alookup_cons, if_pos h0] at hl
        exact Option.some.inj hl
      subst hv0n
      simp only [aupdate, if_pos h0, evictableCount, List.filter_cons]
      cases hv : v0.evictable <;> cases hv' : n'.evictable <;>
        simp [hv, hv'] <;> omega
    · rw [alookup_cons, if_neg h0] at hl
      have := ih hl hnd.2
      simp only [aupdate, if_neg h0, evictableCount, List.filter_cons] at this ⊢
      cases hv0 : v0.evictable <;> cases hvn : n.evictable <;> cases hvn' : n'.evictable <;>
        simp [hv0, hvn, hvn'] at this ⊢ <;> omega

theorem evictableCount_aupdate_absent (store : List (Nat × LRUKNode)) (fid : Nat)
    (n' : LRUKNode) (hl : alookup store fid = none) :
    evictableCount (aupdate store fid n') =
      evictableCount store + (if n'.evictable then 1 else 0) := by
  rw [aupdate_absent store fid n' hl]
  unfold evictableCount
  rw [List.filter_append, List.length_append]
  cases hv : n'.evictable <;> simp [hv]

theorem evictableCount_aerase (store : List (Nat × LRUKNode)) (fid : Nat)
    (n : LRUKNode) (hl : alookup store fid = some n) :
    ∀ _hnd : (store.map Prod.fst).Nodup,
      evictableCount store =
        evictableCount (aerase store fid) + (if n.evictable then 1 else 0) := by
  induction store with
  | nil => simp at hl
  | cons hd tl ih =>
    intro hnd
    obtain ⟨k0, v0⟩ := hd
    simp only [List.map_cons, List.nodup_cons] at hnd
    by_cases h0 : k0 = fid
    · have hv0n : v0 = n := by
        rw [alookup_cons, if_pos h0] at hl
        exact Option.some.inj hl
      subst hv0n
      simp only [aerase, if_pos h0, evictableCount, List.filter_cons]
      cases hv : v0.evictable <;> simp [hv]
    · rw [alookup_cons, if_neg h0] at hl
      have := ih hl hnd.2
      simp only [aerase, if_neg h0, evictableCount, List.filter_cons] at this ⊢
      cases hv0 : v0.evictable <;> cases hvn : n.evictable <;>
        simp [hv0, hvn] at this ⊢ <;> omega

theorem keys_aupdate_sub (store : List (Nat × LRUKNode)) (fid : Nat) (n' : LRUKNode) :
    ∀ p ∈ aupdate store fid n', p.1 = fid ∨ p ∈ store := by
  intro p hp
  rcases mem_aupdate store fid n' p hp with h | h
  · left; rw [h]
  · right; exact h

theorem linv_recordAccess (r r' : LRUKReplacer) (fid : Nat) (hinv : LInv r)
    (h : r.recordAccess fid = some r') : LInv r' := by
  unfold LRUKReplacer.recordAccess at h
  by_cases hf : fid < r.replacerSize
  · rw [if_pos hf] at h
    rw [Option.some.injEq] at h
    subst h
    cases hl : alookup r.store fid with
    | none =>
      simp only [hl]
      have habs : fid ∉ r.store.map Prod.fst := (alookup_eq_none_iff _ _).mp hl
      refine ⟨?_, ?_, ?_⟩
      · rw [aupdate_absent _ _ _ hl, List.map_append]
        refine List.Nodup.append hinv.nodup (by simp) (by simp [habs])
      · intro p hp
        rcases keys_aupdate_sub _ _ _ p hp with h1 | h1
        · rw [h1]; exact hf
        · exact hinv.bounded p h1
      · rw [evictableCount_aupdate_absent _ _ _ hl]
        simp [LRUKNode.recAccess, hinv.size]
    | some n =>
      simp only [hl]
      refine ⟨?_, ?_, ?_⟩
      · rw [keys_aupdate_present _ _ _ (by simp [hl])]
        exact hinv.nodup
      · intro p hp
        rcases keys_aupdate_sub _ _ _ p hp with h1 | h1
        · rw [h1]; exact hf
        · exact hinv.bounded p h1
      · have := evictableCount_aupdate_present r.store fid n (n.recAccess r.k r.currentTs)
          hl hinv.nodup
        have hev : (n.recAccess r.k r.currentTs).evictable = n.evictable := rfl
        rw [hev] at this
        have hs := hinv.size
        dsimp only
        omega
  · rw [if_neg hf] at h
    simp at h

theorem linv_setEvictable (r r' : LRUKReplacer) (fid : Nat) (b : Bool) (hinv : LInv r)
    (h : r.setEvictable fid b = some r') : LInv r' := by
  unfold LRUKReplacer.setEvictable at h
  by_cases hf : fid < r.replacerSize
  · rw [if_pos hf] at h
    cases hl : alookup r.store fid with
    | none =>
      rw [hl] at h
      simp at h
    | some n =>
      rw [hl] at h
      dsimp only at h
      rw [Option.some.injEq] at h
      subst h
      have hcnt := evictableCount_aupdate_present r.store fid n { n with evictable := b }
        hl hinv.nodup
      have hmem : (fid, n) ∈ r.store := alookup_mem _ _ _ hl
      have hpos : n.evictable = true → 0 < evictableCount r.store := by
        intro he
        unfold evictableCount
        have : (fid, n) ∈ r.store.filter (fun p => p.2.evictable) :=
          List.mem_filter.mpr ⟨hmem, by simp [he]⟩
        exact List.length_pos_of_mem this
      refine ⟨?_, ?_, ?_⟩
      · rw [keys_aupdate_present _ _ _ (by simp [hl])]
        exact hinv.nodup
      · intro p hp
        rcases keys_aupdate_sub _ _ _ p hp with h1 | h1
        · rw [h1]; exact hf
        · exact hinv.bounded p h1
      · have hs := hinv.size
        dsimp only
        cases hv : n.evictable <;> cases hb : b <;>
          simp only [hv, hb] at hcnt ⊢ <;> simp at hcnt ⊢ <;>
            first
              | omega
              | (have hp2 : 0 < evictableCount r.store := hpos (by rw [hv]); omega)
  · rw [if_neg hf] at h
    simp at h

theorem linv_removeFrame (r r' : LRUKReplacer) (fid : Nat) (hinv : LInv r)
    (h : r.removeFrame fid = some r') : LInv r' := by
  unfold LRUKReplacer.removeFrame at h
  by_cases hf : fid < r.replacerSize
  · rw [if_pos hf] at h
    cases hl : alookup r.store fid with
    | none =>
      rw [hl] at h
      rw [Option.some.injEq] at h
      subst h
      exact hinv
    | some n =>
      rw [hl] at h
      dsimp only at h
      rw [Option.some.injEq] at h
      subst h
      have hcnt := evictableCount_aerase r.store fid n hl hinv.nodup
      refine ⟨nodup_keys_aerase _ _ hinv.nodup, ?_, ?_⟩
      · intro p hp
        exact hinv.bounded p (mem_aerase _ _ _ hp)
      · have hs := hinv.size
        dsimp only
        cases hv : n.evictable <;> simp only [hv] at hcnt ⊢ <;> simp at hcnt ⊢ <;> omega
  · rw [if_neg hf] at h
    simp at h

theorem evict_inversion (r : LRUKReplacer) (fid : Nat) (r' : LRUKReplacer)
    (h : r.evict = some (fid, r')) :
    ∃ n, evictLoop r.k r.store none = some (fid, n) ∧ r.removeFrame fid = some r' ∧
      r.currSize ≠ 0 := by
  unfold LRUKReplacer.evict at h
  by_cases h0 : r.currSize = 0
  · rw [if_pos h0] at h
    simp at h
  · rw [if_neg h0] at h
    cases hloop : evictLoop r.k r.store none with
    | none =>
      rw [hloop] at h
      simp at h
    | some p =>
      obtain ⟨f, n⟩ := p
      rw [hloop] at h
      dsimp only at h
      cases hrm : r.removeFrame f with
      | none =>
        rw [hrm] at h
        simp at h
      | some r2 =>
        rw [hrm] at h
        simp only [Option.some.injEq, Prod.mk.injEq] at h
        obtain ⟨h1, h2⟩ := h
        subst h2
        rw [← h1]
        exact ⟨n, rfl, hrm, h0⟩

theorem linv_reach (r : LRUKReplacer) (h : LReach r) : LInv r := by
  induction h with
  | init numFrames k =>
    exact ⟨by simp [LRUKReplacer.init], by simp [LRUKReplacer.init],
      by simp [LRUKReplacer.init, evictableCount]⟩
  | access r r' fid _ hop ih => exact linv_recordAccess r r' fid ih hop
  | setEv r r' fid b _ hop ih => exact linv_setEvictable r r' fid b ih hop
  | rm r r' fid _ hop ih => exact linv_removeFrame r r' fid ih hop
  | ev r r' fid _ hop ih =>
    obtain ⟨n, _, hrm, _⟩ := evict_inversion r fid r' hop
    exact linv_removeFrame r r' fid ih hrm

/-- What the running `lru_frame` of the victim scan satisfies relative to the
entries already scanned: absent iff none of them is evictable; otherwise it
is an evictable scanned entry, and with fewer than K recorded accesses it has
the least history front among such scanned candidates, while with at least K
recorded accesses no scanned candidate has fewer than K and it has the least
front among all scanned candidates. -/
def bestSpec (k : Nat) (cands : List (Nat × LRUKNode)) :
    Option (Nat × LRUKNode) → Prop
  | none => ∀ q ∈ cands, q.2.evictable = false
  | some (bf, bn) => (bf, bn) ∈ cands ∧ bn.evictable = true ∧
      (if bn.getHistorySize < k then
        ∀ q ∈ cands, q.2.evictable = true → q.2.getHistorySize < k →
          bn.getKDistance ≤ q.2.getKDistance
       else
        (∀ q ∈ cands, q.2.evictable = true → k ≤ q.2.getHistorySize) ∧
        ∀ q ∈ cands, q.2.evictable = true →
          bn.getKDistance ≤ q.2.getKDistance)

theorem evictLoop_go (k : Nat) (rest : List (Nat × LRUKNode)) :
    ∀ (pre : List (Nat × LRUKNode)) (best : Option (Nat × LRUKNode)),
      bestSpec k pre best → bestSpec k (pre ++ rest) (evictLoop k rest best) := by
  induction rest with
  | nil =>
    intro pre best h
    rw [List.append_nil]
    exact h
  | cons hd tl ih =>
    intro pre best h
    obtain ⟨fid, n⟩ := hd
    have hsplit : pre ++ (fid, n) :: tl = (pre ++ [(fid, n)]) ++ tl := by
      simp
    rw [hsplit]
    by_cases hev : n.evictable = true
    · cases best with
      | none =>
        simp only [evictLoop, hev, if_true]
        refine ih (pre ++ [(fid, n)]) (some (fid, n)) ?_
        refine ⟨by simp, hev, ?_⟩
        by_cases hinf : n.getHistorySize < k
        · rw [if_pos hinf]
          intro q hq hqe _
          rcases List.mem_append.mp hq with h1 | h1
          · rw [h q h1] at hqe
            exact absurd hqe (by decide)
          · rw [List.mem_singleton] at h1
            subst h1
            exact Nat.le_refl _
        · rw [if_neg hinf]
          constructor
          · intro q hq hqe
            rcases List.mem_append.mp hq with h1 | h1
            · rw [h q h1] at hqe
              exact absurd hqe (by decide)
            · rw [List.mem_singleton] at h1
              subst h1
              exact Nat.le_of_not_lt hinf
          · intro q hq hqe
            rcases List.mem_append.mp hq with h1 | h1
            · rw [h q h1] at hqe
              exact absurd hqe (by decide)
            · rw [List.mem_singleton] at h1
              subst h1
              exact Nat.le_refl _
      | some bp =>
        obtain ⟨bfid, bn⟩ := bp
        obtain ⟨hbmem, hbev, hbspec⟩ := h
        simp only [evictLoop, hev, if_true]
        by_cases c1 : n.getHistorySize < k ∧ k ≤ bn.getHistorySize
        · rw [if_pos c1]
          refine ih (pre ++ [(fid, n)]) (some (fid, n)) ?_
          refine ⟨by simp, hev, ?_⟩
          rw [if_pos c1.1]
          rw [if_neg (by omega)] at hbspec
          intro q hq hqe hqinf
          rcases List.mem_append.mp hq with h1 | h1
          · have := hbspec.1 q h1 hqe
            omega
          · rw [List.mem_singleton] at h1
            subst h1
            exact Nat.le_refl _
        · rw [if_neg c1]
          by_cases c2 : k ≤ n.getHistorySize ∧ bn.getHistorySize < k
          · rw [if_pos c2]
            refine ih (pre ++ [(fid, n)]) (some (bfid, bn)) ?_
            refine ⟨List.mem_append.mpr (Or.inl hbmem), hbev, ?_⟩
            rw [if_pos c2.2]
            rw [if_pos c2.2] at hbspec
            intro q hq hqe hqinf
            rcases List.mem_append.mp hq with h1 | h1
            · exact hbspec q h1 hqe hqinf
            · rw [List.mem_singleton] at h1
              subst h1
              have h2 : n.getHistorySize < k := hqinf
              omega
          · rw [if_neg c2]
            by_cases c3 : n.getKDistance ≤ bn.getKDistance
            · rw [if_pos c3]
              refine ih (pre ++ [(fid, n)]) (some (fid, n)) ?_
              refine ⟨by simp, hev, ?_⟩
              by_cases hbinf : bn.getHistorySize < k
              · have hninf : n.getHistorySize < k := by omega
                rw [if_pos hbinf] at hbspec
                rw [if_pos hninf]
                intro q hq hqe hqinf
                rcases List.mem_append.mp hq with h1 | h1
                · exact Nat.le_trans c3 (hbspec q h1 hqe hqinf)
                · rw [List.mem_singleton] at h1
                  subst h1
                  exact Nat.le_refl _
              · have hnfin : ¬n.getHistorySize < k := by omega
                rw [if_neg hbinf] at hbspec
                rw [if_neg hnfin]
                constructor
                · intro q hq hqe
                  rcases List.mem_append.mp hq with h1 | h1
                  · exact hbspec.1 q h1 hqe
                  · rw [List.mem_singleton] at h1
                    subst h1
                    exact Nat.le_of_not_lt hnfin
                · intro q hq hqe
                  rcases List.mem_append.mp hq with h1 | h1
                  · exact Nat.le_trans c3 (hbspec.2 q h1 hqe)
                  · rw [List.mem_singleton] at h1
                    subst h1
                    exact Nat.le_refl _
            · rw [if_neg c3]
              refine ih (pre ++ [(fid, n)]) (some (bfid, bn)) ?_
              refine ⟨List.mem_append.mpr (Or.inl hbmem), hbev, ?_⟩
              by_cases hbinf : bn.getHistorySize < k
              · have hninf : n.getHistorySize < k := by omega
                rw [if_pos hbinf] at hbspec ⊢
                intro q hq hqe hqinf
                rcases List.mem_append.mp hq with h1 | h1
                · exact hbspec q h1 hqe hqinf
                · rw [List.mem_singleton] at h1
                  subst h1
                  exact Nat.le_of_lt (Nat.lt_of_not_le c3)
              · have hnfin : ¬n.getHistorySize < k := by omega
                rw [if_neg hbinf] at hbspec ⊢
                constructor
                · intro q hq hqe
                  rcases List.mem_append.mp hq with h1 | h1
                  · exact hbspec.1 q h1 hqe
                  · rw [List.mem_singleton] at h1
                    subst h1
                    exact Nat.le_of_not_lt hnfin
                · intro q hq hqe
                  rcases List.mem_append.mp hq with h1 | h1
                  · exact hbspec.2 q h1 hqe
                  · rw [List.mem_singleton] at h1
                    subst h1
                    exact Nat.le_of_lt (Nat.lt_of_not_le c3)
    · have hnev : n.evictable = false := Bool.eq_false_iff.mpr hev
      simp only [evictLoop, hnev, Bool.false_eq_true, if_false]
      refine ih (pre ++ [(fid, n)]) best ?_
      cases best with
      | none =>
        intro q hq
        rcases List.mem_append.mp hq with h1 | h1
        · exact h q h1
        · rw [List.mem_singleton] at h1
          subst h1
          exact hnev
      | some bp =>
        obtain ⟨bfid, bn⟩ := bp
        obtain ⟨hbmem, hbev, hbspec⟩ := h
        refine ⟨List.mem_append.mpr (Or.inl hbmem), hbev, ?_⟩
        by_cases hbinf : bn.getHistorySize < k
        · rw [if_pos hbinf] at hbspec ⊢
          intro q hq hqe hqinf
          rcases List.mem_append.mp hq with h1 | h1
          · exact hbspec q h1 hqe hqinf
          · rw [List.mem_singleton] at h1
            subst h1
            have h2 : n.evictable = true := hqe
            rw [hnev] at h2
            exact absurd h2 (by decide)
        · rw [if_neg hbinf] at hbspec ⊢
          constructor
          · intro q hq hqe
            rcases List.mem_append.mp hq with h1 | h1
            · exact hbspec.1 q h1 hqe
            · rw [List.mem_singleton] at h1
              subst h1
              have h2 : n.evictable = true := hqe
              rw [hnev] at h2
              exact absurd h2 (by decide)
          · intro q hq hqe
            rcases List.mem_append.mp hq with h1 | h1
            · exact hbspec.2 q h1 hqe
            · rw [List.mem_singleton] at h1
              subst h1
              have h2 : n.evictable = true := hqe
              rw [hnev] at h2
              exact absurd h2 (by decide)

theorem evictLoop_spec (k : Nat) (store : List (Nat × LRUKNode)) :
    bestSpec k store (evictLoop k store none) := by
  have h := evictLoop_go k store [] none (by intro q hq; simp at hq)
  simpa using h

/-- C2. LRU-K victim choice: in every replacer state reachable by any
sequence of operations, if some frame is evictable then `Evict` succeeds and
returns a victim frame that is evictable and has the largest backward
K-distance: if the victim has fewer than K recorded accesses it minimizes
the oldest recorded access timestamp among evictable frames with fewer than
K accesses (the LRU tie-break; such frames always beat frames with K
accesses), and otherwise no evictable frame has fewer than K accesses and
the victim minimizes its K-th oldest access timestamp — equivalently,
maximizes current_time minus it — among all evictable frames.  On success
the victim's record is removed from the store and the evictable count is
decremented. -/
theorem lrukEvict_spec (r : LRUKReplacer) (hreach : LReach r)
    (fid0 : Nat) (n0 : LRUKNode) (hmem : (fid0, n0) ∈ r.store)
    (hev0 : n0.evictable = true) :
    ∃ fid n r', r.evict = some (fid, r') ∧
      bestSpec r.k r.store (some (fid, n)) ∧
      r'.store = aerase r.store fid ∧
      r'.currSize + 1 = r.currSize := by
  have hinv := linv_reach r hreach
  have hspec := evictLoop_spec r.k r.store
  have hpos : evictableCount r.store ≠ 0 := by
    unfold evictableCount
    have : (fid0, n0) ∈ r.store.filter (fun p => p.2.evictable) :=
      List.mem_filter.mpr ⟨hmem, by simp [hev0]⟩
    have := List.length_pos_of_mem this
    omega
  have h0 : r.currSize ≠ 0 := by
    rw [hinv.size]
    exact hpos
  cases hloop : evictLoop r.k r.store none with
  | none =>
    rw [hloop] at hspec
    have := hspec (fid0, n0) hmem
    simp only at this
    rw [hev0] at this
    exact absurd this (by decide)
  | some p =>
    obtain ⟨fid, n⟩ := p
    rw [hloop] at hspec
    have hspec' := hspec
    simp only [bestSpec] at hspec'
    obtain ⟨hm, he, -⟩ := hspec'
    have hl : alookup r.store fid = some n :=
      alookup_of_mem_nodup r.store fid n hinv.nodup hm
    have hb : fid < r.replacerSize := hinv.bounded (fid, n) hm
    have hrm : r.removeFrame fid =
        some { r with store := aerase r.store fid, currSize := r.currSize - 1 } := by
      unfold LRUKReplacer.removeFrame
      rw [if_pos hb, hl]
      dsimp only
      rw [if_pos he]
    have hevict : r.evict =
        some (fid, { r with store := aerase r.store fid, currSize := r.currSize - 1 }) := by
      unfold LRUKReplacer.evict
      rw [if_neg h0, hloop]
      dsimp only
      rw [hrm]
    refine ⟨fid, n, _, hevict, hspec, rfl, ?_⟩
    show r.currSize - 1 + 1 = r.currSize
    omega

/-- Witness for C2 at a concrete input: the replacer reached from
`LRUKReplacer.init 3 2` by recording an access to frame 0 and marking it
evictable. -/
theorem lrukEvict_spec_witness :
    ∃ fid n r',
      LRUKReplacer.evict
        { store := [(0, { history := [0], evictable := true })],
          currentTs := 1, currSize := 1, k := 2, replacerSize := 3 } =
        some (fid, r') ∧
      bestSpec 2 [(0, { history := [0], evictable := true })] (some (fid, n)) ∧
      r'.store = aerase [(0, { history := [0], evictable := true })] fid ∧
      r'.currSize + 1 = 1 := by
  refine lrukEvict_spec
    { store := [(0, { history := [0], evictable := true })],
      currentTs := 1, currSize := 1, k := 2, replacerSize := 3 }
    ?_ 0 { history := [0], evictable := true } (by decide) rfl
  refine LReach.setEv
    { store := [(0, { history := [0], evictable := false })],
      currentTs := 1, currSize := 0, k := 2, replacerSize := 3 }
    _ 0 true ?_ (by decide)
  refine LReach.access (LRUKReplacer.init 3 2) _ 0 ?_ (by decide)
  exact LReach.init 3 2

/-! ## Buffer pool manager (src/src/buffer/buffer_pool_manager.cpp)

Frames are an association list from frame id to the `FrameHeader` fields the
control flow reads (`pin_count_`, `is_dirty_`); the page table maps page ids
to frame ids; disk traffic (reads, writebacks, `IncreaseDiskSpace`) carries
no data the claims mention and is dropped.  `frames_[frame_id]` vector
accesses are lookups whose failure (impossible on reachable states) maps to
`none`, as do the aborts inside the replacer calls. -/

/-- Embeds `FrameHeader` (pin count and dirty flag;
buffer_pool_manager.cpp:24,51-55). -/
structure FrameHeader where
  pin : Nat
  dirty : Bool
  deriving DecidableEq, Repr

/-- `FrameHeader::Reset` (buffer_pool_manager.cpp:51-55). -/
def FrameHeader.reset : FrameHeader := { pin := 0, dirty := false }

/-- Embeds the `BufferPoolManager` state (buffer_pool_manager.cpp). -/
structure BufferPoolManager where
  numFrames : Nat
  nextPageId : Nat
  pageTable : List (Nat × Nat)
  frames : List (Nat × FrameHeader)
  freeFrames : List Nat
  replacer : LRUKReplacer
  deriving DecidableEq, Repr

/-- The `BufferPoolManager` constructor (buffer_pool_manager.cpp:95-104):
every frame starts reset and on the free list, the replacer starts empty. -/
def BufferPoolManager.init (numFrames k : Nat) : BufferPoolManager :=
  { numFrames := numFrames,
    nextPageId := 0,
    pageTable := [],
    frames := (List.range numFrames).map (fun fid => (fid, FrameHeader.reset)),
    freeFrames := List.range numFrames,
    replacer := LRUKReplacer.init numFrames k }

/-- The frame-acquisition block shared verbatim by `NewPage`
(buffer_pool_manager.cpp:149-185) and `CheckedPage`
(buffer_pool_manager.cpp:595-631): take the front of the free list if any;
otherwise evict a victim, erase the single page-table entry mapped to it
(writing the old page back is disk traffic), and `Reset` its header.  `none`
in the first component is the no-evictable-frame failure. -/
def BufferPoolManager.acquireFrame (b : BufferPoolManager) :
    Option Nat × BufferPoolManager :=
  match b.freeFrames with
  | fid :: rest => (some fid, { b with freeFrames := rest })
  | [] =>
    match b.replacer.evict with
    | none => (none, b)
    | some (fid, rep') =>
      let b1 := { b with replacer := rep' }
      let b2 :=
        match b1.pageTable.find? (fun kv => kv.2 == fid) with
        | some kv => { b1 with pageTable := aerase b1.pageTable kv.1 }
        | none => b1
      (some fid, { b2 with frames := aupdate b2.frames fid FrameHeader.reset })

/-- The registration block shared by `NewPage`
(buffer_pool_manager.cpp:192-206) and `CheckedPage`
(buffer_pool_manager.cpp:636-642): map the page id to the acquired frame
(`emplace`, which coincides with `aupdate` because the key is absent there),
record an access and mark the frame evictable.  `none` models the replacer
asserts. -/
def BufferPoolManager.registerFrame (b : BufferPoolManager) (pid fid : Nat) :
    Option BufferPoolManager :=
  let b2 := { b with pageTable := aupdate b.pageTable pid fid }
  match b2.replacer.recordAccess fid with
  | none => none
  | some rep1 =>
    match rep1.setEvictable fid true with
    | none => none
    | some rep2 => some { b2 with replacer := rep2 }

/-- Embeds `BufferPoolManager::NewPage` (buffer_pool_manager.cpp:145-209).
The inner `none` is the `INVALID_PAGE_ID` return when no frame is free or
evictable; note the new frame is registered evictable with pin count
untouched and no guard is produced. -/
def BufferPoolManager.newPage (b : BufferPoolManager) :
    Option (Option Nat × BufferPoolManager) :=
  match b.acquireFrame with
  | (none, b1) => some (none, b1)
  | (some fid, b1) =>
    let pid := b1.nextPageId
    match BufferPoolManager.registerFrame { b1 with nextPageId := pid + 1 } pid fid with
    | none => none
    | some b' => some (some pid, b')

/-- Embeds `BufferPoolManager::CheckedPage` (buffer_pool_manager.cpp:581-654):
on a page-table hit return the mapped frame unchanged (the commented-out pin
and evictable updates are dead code); on a miss acquire and register a
frame.  The inner `none` is the `nullptr` return. -/
def BufferPoolManager.checkedPage (b : BufferPoolManager) (pid : Nat) :
    Option (Option Nat × BufferPoolManager) :=
  match alookup b.pageTable pid with
  | some fid => some (some fid, b)
  | none =>
    match b.acquireFrame with
    | (none, b1) => some (none, b1)
    | (some fid, b1) =>
      match b1.registerFrame pid fid with
      | none => none
      | some b' => some (some fid, b')

/-- Embeds `BufferPoolManager::CheckedWritePage`
(buffer_pool_manager.cpp:327-345): `CheckedPage`, then pin-count increment,
dirty flag, and `SetEvictable(frame, false)`. -/
def BufferPoolManager.checkedWritePage (b : BufferPoolManager) (pid : Nat) :
    Option (Option Nat × BufferPoolManager) :=
  match b.checkedPage pid with
  | none => none
  | some (none, b1) => some (none, b1)
  | some (some fid, b1) =>
    match alookup b1.frames fid with
    | none => none
    | some fh =>
      let b2 := { b1 with
        frames := aupdate b1.frames fid { fh with pin := fh.pin + 1, dirty := true } }
      match b2.replacer.setEvictable fid false with
      | none => none
      | some rep' => some (some fid, { b2 with replacer := rep' })

/-- Embeds `BufferPoolManager::CheckedReadPage`
(buffer_pool_manager.cpp:385-402): as `CheckedWritePage` but without setting
the dirty flag. -/
def BufferPoolManager.checkedReadPage (b : BufferPoolManager) (pid : Nat) :
    Option (Option Nat × BufferPoolManager) :=
  match b.checkedPage pid with
  | none => none
  | some (none, b1) => some (none, b1)
  | some (some fid, b1) =>
    match alookup b1.frames fid with
    | none => none
    | some fh =>
      let b2 := { b1 with frames := aupdate b1.frames fid { fh with pin := fh.pin + 1 } }
      match b2.replacer.setEvictable fid false with
      | none => none
      | some rep' => some (some fid, { b2 with replacer := rep' })

/-- Embeds `BufferPoolManager::DeletePage` (buffer_pool_manager.cpp:244-283):
unmapped pages delete trivially; pinned pages fail; otherwise the mapping is
erased, the frame is pushed back on the free list, reset, and removed from
the replacer. -/
def BufferPoolManager.deletePage (b : BufferPoolManager) (pid : Nat) :
    Option (Bool × BufferPoolManager) :=
  match alookup b.pageTable pid with
  | none => some (true, b)
  | some fid =>
    match alookup b.frames fid with
    | none => none
    | some fh =>
      if 0 < fh.pin then some (false, b)
      else
        let b1 := { b with
          pageTable := aerase b.pageTable pid,
          freeFrames := b.freeFrames ++ [fid],
          frames := aupdate b.frames fid FrameHeader.reset }
        match b1.replacer.removeFrame fid with
        | none => none
        | some rep' => some (true, { b1 with replacer := rep' })

/-- Embeds `BufferPoolManager::FlushPage` (buffer_pool_manager.cpp:479-504):
the writeback itself is disk traffic; its visible effect is clearing the
dirty flag of a mapped page. -/
def BufferPoolManager.flushPage (b : BufferPoolManager) (pid : Nat) :
    Option (Bool × BufferPoolManager) :=
  match alookup b.pageTable pid with
  | none => some (false, b)
  | some fid =>
    match alookup b.frames fid with
    | none => none
    | some fh =>
      some (true, { b with frames := aupdate b.frames fid { fh with dirty := false } })

/-- Embeds `ReadPageGuard::Drop` / `WritePageGuard::Drop`
(page_guard.cpp:148-163, 309-324): decrement the pin count of the guarded
frame and mark it evictable when the count reaches zero. -/
def BufferPoolManager.dropGuard (b : BufferPoolManager) (fid : Nat) :
    Option BufferPoolManager :=
  match alookup b.frames fid with
  | none => none
  | some fh =>
    let fh2 : FrameHeader := { fh with pin := fh.pin - 1 }
    let b1 := { b with frames := aupdate b.frames fid fh2 }
    if fh2.pin = 0 then
      match b1.replacer.setEvictable fid true with
      | none => none
      | some rep' => some { b1 with replacer := rep' }
    else some b1

/-- Buffer pool states reachable by any sequence of operations.  Guards are
released only on frames actually pinned, and guards are requested only for
already-allocated page ids, as real callers do. -/
inductive BReach : BufferPoolManager → Prop
  | init (numFrames k : Nat) : BReach (BufferPoolManager.init numFrames k)
  | newP (b : BufferPoolManager) (res : Option Nat) (b' : BufferPoolManager) :
      BReach b → b.newPage = some (res, b') → BReach b'
  | readP (b : BufferPoolManager) (pid : Nat) (res : Option Nat) (b' : BufferPoolManager) :
      BReach b → pid < b.nextPageId → b.checkedReadPage pid = some (res, b') → BReach b'
  | writeP (b : BufferPoolManager) (pid : Nat) (res : Option Nat) (b' : BufferPoolManager) :
      BReach b → pid < b.nextPageId → b.checkedWritePage pid = some (res, b') → BReach b'
  | delP (b : BufferPoolManager) (pid : Nat) (ok : Bool) (b' : BufferPoolManager) :
      BReach b → b.deletePage pid = some (ok, b') → BReach b'
  | flushP (b : BufferPoolManager) (pid : Nat) (ok : Bool) (b' : BufferPoolManager) :
      BReach b → b.flushPage pid = some (ok, b') → BReach b'
  | dropG (b : BufferPoolManager) (fid : Nat) (fh : FrameHeader) (b' : BufferPoolManager) :
      BReach b → alookup b.frames fid = some fh → 0 < fh.pin →
      b.dropGuard fid = some b' → BReach b'

theorem recordAccess_shape (r r' : LRUKReplacer) (fid : Nat)
    (h : r.recordAccess fid = some r') :
    r'.replacerSize = r.replacerSize ∧ fid < r.replacerSize ∧
      ∀ f, f ≠ fid → alookup r'.store f = alookup r.store f := by
  unfold LRUKReplacer.recordAccess at h
  by_cases hf : fid < r.replacerSize
  · rw [if_pos hf] at h
    rw [Option.some.injEq] at h
    subst h
    exact ⟨rfl, hf, fun f hne => alookup_aupdate_ne _ _ _ _ (Ne.symm hne)⟩
  · rw [if_neg hf] at h
    simp at h

theorem setEvictable_shape (r r' : LRUKReplacer) (fid : Nat) (ev : Bool)
    (h : r.setEvictable fid ev = some r') :
    r'.replacerSize = r.replacerSize ∧
      (∀ f, f ≠ fid → alookup r'.store f = alookup r.store f) ∧
      ∃ n, alookup r.store fid = some n ∧
        alookup r'.store fid = some { n with evictable := ev } := by
  unfold LRUKReplacer.setEvictable at h
  by_cases hf : fid < r.replacerSize
  · rw [if_pos hf] at h
    cases hl : alookup r.store fid with
    | none =>
      rw [hl] at h
      simp at h
    | some n =>
      rw [hl] at h
      dsimp only at h
      rw [Option.some.injEq] at h
      subst h
      exact ⟨rfl, fun f hne => alookup_aupdate_ne _ _ _ _ (Ne.symm hne),
        n, rfl, alookup_aupdate_self _ _ _⟩
  · rw [if_neg hf] at h
    simp at h

theorem removeFrame_shape (r r' : LRUKReplacer) (fid : Nat)
    (hnd : (r.store.map Prod.fst).Nodup)
    (h : r.removeFrame fid = some r') :
    r'.replacerSize = r.replacerSize ∧ alookup r'.store fid = none ∧
      ∀ f, f ≠ fid → alookup r'.store f = alookup r.store f := by
  unfold LRUKReplacer.removeFrame at h
  by_cases hf : fid < r.replacerSize
  · rw [if_pos hf] at h
    cases hl : alookup r.store fid with
    | none =>
      rw [hl] at h
      rw [Option.some.injEq] at h
      subst h
      exact ⟨rfl, hl, fun f _ => rfl⟩
    | some n =>
      rw [hl] at h
      dsimp only at h
      rw [Option.some.injEq] at h
      subst h
      exact ⟨rfl, alookup_aerase_self _ _ hnd,
        fun f hne => alookup_aerase_ne _ _ _ (Ne.symm hne)⟩
  · rw [if_neg hf] at h
    simp at h

theorem evict_store_shape (r r' : LRUKReplacer) (fid : Nat)
    (hnd : (r.store.map Prod.fst).Nodup)
    (h : r.evict = some (fid, r')) :
    (∃ n, (fid, n) ∈ r.store) ∧ r'.replacerSize = r.replacerSize ∧
      alookup r'.store fid = none ∧
      ∀ f, f ≠ fid → alookup r'.store f = alookup r.store f := by
  obtain ⟨n, hloop, hrm, -⟩ := evict_inversion r fid r' h
  have hspec := evictLoop_spec r.k r.store
  rw [hloop] at hspec
  simp only [bestSpec] at hspec
  obtain ⟨hm, -, -⟩ := hspec
  obtain ⟨hsz, hnone, hne⟩ := removeFrame_shape r r' fid hnd hrm
  exact ⟨⟨n, hm⟩, hsz, hnone, hne⟩

theorem linv_evict (r r' : LRUKReplacer) (fid : Nat) (hinv : LInv r)
    (h : r.evict = some (fid, r')) : LInv r' := by
  obtain ⟨-, -, hrm, -⟩ := evict_inversion r fid r' h
  exact linv_removeFrame r r' fid hinv hrm

theorem alookup_none_of_keys_lt (pt : List (Nat × Nat)) (n : Nat)
    (h : ∀ p ∈ pt, p.1 < n) : alookup pt n = none := by
  rw [alookup_eq_none_iff]
  intro hmem
  obtain ⟨p, hp, hpe⟩ := List.mem_map.mp hmem
  have := h p hp
  omega

theorem mem_aerase_ne_key {κ α : Type} [DecidableEq κ] (l : List (κ × α)) (k : κ)
    (hnd : (l.map Prod.fst).Nodup) :
    ∀ p ∈ aerase l k, p.1 ≠ k := by
  intro p hp he
  have h1 : (alookup (aerase l k) k).isSome := by
    rw [alookup_isSome_iff]
    exact List.mem_map.mpr ⟨p, hp, he⟩
  rw [alookup_aerase_self l k hnd] at h1
  simp at h1

/-- Invariant of reachable buffer-pool states: frame headers exist for
exactly the frame ids below the capacity, free frames are distinct, unpinned,
and untracked by the replacer, the page table maps allocated page ids to
in-range frames injectively and never to free frames, and the embedded
replacer satisfies its own invariant with matching capacity. -/
structure BInv (b : BufferPoolManager) : Prop where
  framesNodup : (b.frames.map Prod.fst).Nodup
  framesComplete : ∀ fid, fid < b.numFrames → (alookup b.frames fid).isSome
  freeBounded : ∀ fid ∈ b.freeFrames, fid < b.numFrames
  freeNodup : b.freeFrames.Nodup
  freePin : ∀ fid ∈ b.freeFrames, ∀ fh, alookup b.frames fid = some fh → fh.pin = 0
  freeDisjoint : ∀ fid ∈ b.freeFrames, alookup b.replacer.store fid = none
  ptBounded : ∀ p ∈ b.pageTable, p.2 < b.numFrames
  ptKeysNodup : (b.pageTable.map Prod.fst).Nodup
  ptKeysLt : ∀ p ∈ b.pageTable, p.1 < b.nextPageId
  ptValInj : ∀ p ∈ b.pageTable, ∀ q ∈ b.pageTable, p.2 = q.2 → p.1 = q.1
  ptFreeDisjoint : ∀ p ∈ b.pageTable, p.2 ∉ b.freeFrames
  linv : LInv b.replacer
  repSize : b.replacer.replacerSize = b.numFrames

theorem binv_registerFrame (b : BufferPoolManager) (pid fid : Nat) (b' : BufferPoolManager)
    (hinv : BInv b) (hfid : fid < b.numFrames) (hfree : fid ∉ b.freeFrames)
    (hvals : ∀ p ∈ b.pageTable, p.2 ≠ fid) (hpid : alookup b.pageTable pid = none)
    (hkey : pid < b.nextPageId)
    (h : b.registerFrame pid fid = some b') :
    BInv b' ∧
      b'.numFrames = b.numFrames ∧ b'.nextPageId = b.nextPageId ∧
      b'.frames = b.frames ∧ b'.freeFrames = b.freeFrames ∧
      alookup b'.pageTable pid = some fid ∧
      ∃ n, alookup b'.replacer.store fid = some n ∧ n.evictable = true := by
  unfold BufferPoolManager.registerFrame at h
  dsimp only at h
  cases hra : b.replacer.recordAccess fid with
  | none =>
    rw [hra] at h
    simp at h
  | some rep1 =>
    rw [hra] at h
    dsimp only at h
    cases hse : rep1.setEvictable fid true with
    | none =>
      rw [hse] at h
      simp at h
    | some rep2 =>
      rw [hse] at h
      rw [Option.some.injEq] at h
      subst h
      obtain ⟨hraSz, -, hraNe⟩ := recordAccess_shape b.replacer rep1 fid hra
      obtain ⟨hseSz, hseNe, n, -, hn2⟩ := setEvictable_shape rep1 rep2 fid true hse
      have hpidKeys : pid ∉ b.pageTable.map Prod.fst := (alookup_eq_none_iff _ _).mp hpid
      refine ⟨⟨hinv.framesNodup, hinv.framesComplete, hinv.freeBounded, hinv.freeNodup,
        hinv.freePin, ?_, ?_, ?_, ?_, ?_, ?_, ?_, ?_⟩,
        rfl, rfl, rfl, rfl, alookup_aupdate_self _ _ _, ?_⟩
      · intro f hf
        have hne : f ≠ fid := fun he => hfree (he ▸ hf)
        dsimp only
        rw [hseNe f hne, hraNe f hne]
        exact hinv.freeDisjoint f hf
      · intro p hp
        rcases mem_aupdate _ _ _ p hp with h1 | h1
        · rw [h1]
          exact hfid
        · exact hinv.ptBounded p h1
      · dsimp only
        rw [aupdate_absent _ _ _ hpid, List.map_append]
        refine List.Nodup.append hinv.ptKeysNodup (by simp) ?_
        intro x hx hx2
        simp at hx2
        subst hx2
        exact hpidKeys hx
      · intro p hp
        rcases mem_aupdate _ _ _ p hp with h1 | h1
        · rw [h1]
          exact hkey
        · exact hinv.ptKeysLt p h1
      · intro p hp q hq hpq
        rcases mem_aupdate _ _ _ p hp with h1 | h1 <;>
          rcases mem_aupdate _ _ _ q hq with h2 | h2
        · rw [h1, h2]
        · rw [h1] at hpq ⊢
          exact absurd hpq.symm (hvals q h2)
        · rw [h2] at hpq ⊢
          exact absurd hpq (hvals p h1)
        · exact hinv.ptValInj p h1 q h2 hpq
      · intro p hp
        rcases mem_aupdate _ _ _ p hp with h1 | h1
        · rw [h1]
          exact hfree
        · exact hinv.ptFreeDisjoint p h1
      · exact linv_setEvictable rep1 rep2 fid true
          (linv_recordAccess b.replacer rep1 fid hinv.linv hra) hse
      · dsimp only
        rw [hseSz, hraSz]
        exact hinv.repSize
      · exact ⟨{ n with evictable := true }, hn2, rfl⟩

theorem binv_acquireFrame (b : BufferPoolManager) (fid : Nat) (b1 : BufferPoolManager)
    (hinv : BInv b) (h : b.acquireFrame = (some fid, b1)) :
    BInv b1 ∧ fid < b1.numFrames ∧ fid ∉ b1.freeFrames ∧
      (∀ p ∈ b1.pageTable, p.2 ≠ fid) ∧
      (∀ fh, alookup b1.frames fid = some fh → fh.pin = 0) ∧
      (∀ p ∈ b1.pageTable, p ∈ b.pageTable) ∧
      b1.numFrames = b.numFrames ∧ b1.nextPageId = b.nextPageId := by
  unfold BufferPoolManager.acquireFrame at h
  cases hff : b.freeFrames with
  | cons f rest =>
    rw [hff] at h
    simp only [Prod.mk.injEq, Option.some.injEq] at h
    obtain ⟨h1, h2⟩ := h
    subst h1
    subst h2
    have hfmem : f ∈ b.freeFrames := by
      rw [hff]
      exact List.mem_cons_self f rest
    have hndc : f ∉ rest ∧ rest.Nodup := by
      have := hinv.freeNodup
      rw [hff] at this
      exact List.nodup_cons.mp this
    refine ⟨⟨hinv.framesNodup, hinv.framesComplete, ?_, hndc.2, ?_, ?_,
      hinv.ptBounded, hinv.ptKeysNodup, hinv.ptKeysLt, hinv.ptValInj, ?_,
      hinv.linv, hinv.repSize⟩,
      hinv.freeBounded f hfmem, hndc.1, ?_, ?_, fun p hp => hp, rfl, rfl⟩
    · intro f2 hf2
      exact hinv.freeBounded f2 (by rw [hff]; exact List.mem_cons_of_mem _ hf2)
    · intro f2 hf2
      exact hinv.freePin f2 (by rw [hff]; exact List.mem_cons_of_mem _ hf2)
    · intro f2 hf2
      exact hinv.freeDisjoint f2 (by rw [hff]; exact List.mem_cons_of_mem _ hf2)
    · intro p hp
      have := hinv.ptFreeDisjoint p hp
      rw [hff] at this
      intro hc
      exact this (List.mem_cons_of_mem _ hc)
    · intro p hp
      have := hinv.ptFreeDisjoint p hp
      rw [hff] at this
      intro hc
      rw [hc] at this
      exact this (List.mem_cons_self f rest)
    · exact hinv.freePin f hfmem
  | nil =>
    rw [hff] at h
    dsimp only at h
    cases hev : b.replacer.evict with
    | none =>
      rw [hev] at h
      simp at h
    | some p =>
      obtain ⟨vfid, rep'⟩ := p
      rw [hev] at h
      dsimp only at h
      obtain ⟨⟨n, hmem⟩, hsz, hnone, hne⟩ :=
        evict_store_shape b.replacer rep' vfid hinv.linv.nodup hev
      have hvb : vfid < b.numFrames := by
        have := hinv.linv.bounded (vfid, n) hmem
        rw [hinv.repSize] at this
        exact this
      have hlinv' : LInv rep' := linv_evict b.replacer rep' vfid hinv.linv hev
      cases hfind : b.pageTable.find? (fun kv => kv.2 == vfid) with
      | some kv =>
        rw [hfind] at h
        dsimp only at h
        simp only [Prod.mk.injEq, Option.some.injEq] at h
        obtain ⟨h1, h2⟩ := h
        subst h1
        subst h2
        have hkvmem : kv ∈ b.pageTable := List.mem_of_find?_eq_some hfind
        have hkvval : kv.2 = vfid := by
          have := List.find?_some hfind
          simpa using this
        refine ⟨⟨?_, ?_, by simp, List.nodup_nil, by simp, by simp, ?_, ?_, ?_, ?_,
          by simp, hlinv', by rw [hsz]; exact hinv.repSize⟩,
          hvb, by simp, ?_, ?_, fun p hp => mem_aerase _ _ _ hp, rfl, rfl⟩
        · dsimp only
          rw [keys_aupdate_present _ _ _ (hinv.framesComplete vfid hvb)]
          exact hinv.framesNodup
        · intro f2 hf2
          dsimp only
          by_cases hfe : f2 = vfid
          · subst hfe
            rw [alookup_aupdate_self]
            simp
          · rw [alookup_aupdate_ne _ _ _ _ (fun he => hfe he.symm)]
            exact hinv.framesComplete f2 hf2
        · intro p hp
          exact hinv.ptBounded p (mem_aerase _ _ _ hp)
        · exact nodup_keys_aerase _ _ hinv.ptKeysNodup
        · intro p hp
          exact hinv.ptKeysLt p (mem_aerase _ _ _ hp)
        · intro p hp q hq hpq
          exact hinv.ptValInj p (mem_aerase _ _ _ hp) q (mem_aerase _ _ _ hq) hpq
        · intro p hp hpv
          have hpm : p ∈ b.pageTable := mem_aerase _ _ _ hp
          have : p.1 = kv.1 := hinv.ptValInj p hpm kv hkvmem (by rw [hpv, hkvval])
          exact mem_aerase_ne_key _ _ hinv.ptKeysNodup p hp this
        · intro fh hfh
          dsimp only at hfh
          rw [alookup_aupdate_self] at hfh
          rw [Option.some.injEq] at hfh
          rw [← hfh]
          exact rfl
      | none =>
        rw [hfind] at h
        dsimp only at h
        simp only [Prod.mk.injEq, Option.some.injEq] at h
        obtain ⟨h1, h2⟩ := h
        subst h1
        subst h2
        have hvals0 : ∀ p ∈ b.pageTable, p.2 ≠ vfid := by
          intro p hp hc
          have := List.find?_eq_none.mp hfind p hp
          simp at this
          exact this hc
        refine ⟨⟨?_, ?_, by simp, List.nodup_nil, by simp, by simp, hinv.ptBounded,
          hinv.ptKeysNodup, hinv.ptKeysLt, hinv.ptValInj, by simp,
          hlinv', by rw [hsz]; exact hinv.repSize⟩,
          hvb, by simp, hvals0, ?_, fun p hp => hp, rfl, rfl⟩
        · dsimp only
          rw [keys_aupdate_present _ _ _ (hinv.framesComplete vfid hvb)]
          exact hinv.framesNodup
        · intro f2 hf2
          dsimp only
          by_cases hfe : f2 = vfid
          · subst hfe
            rw [alookup_aupdate_self]
            simp
          · rw [alookup_aupdate_ne _ _ _ _ (fun he => hfe he.symm)]
            exact hinv.framesComplete f2 hf2
        · intro fh hfh
          dsimp only at hfh
          rw [alookup_aupdate_self] at hfh
          rw [Option.some.injEq] at hfh
          rw [← hfh]
          exact rfl

theorem acquireFrame_none (b b1 : BufferPoolManager)
    (h : b.acquireFrame = (none, b1)) : b1 = b := by
  unfold BufferPoolManager.acquireFrame at h
  cases hff : b.freeFrames with
  | cons f rest =>
    rw [hff] at h
    simp at h
  | nil =>
    rw [hff] at h
    dsimp only at h
    cases hev : b.replacer.evict with
    | none =>
      rw [hev] at h
      simp only [Prod.mk.injEq] at h
      exact h.2.symm
    | some p =>
      obtain ⟨vfid, rep'⟩ := p
      rw [hev] at h
      simp at h

theorem binv_setNext (b : BufferPoolManager) (m : Nat) (hinv : BInv b)
    (hm : b.nextPageId ≤ m) : BInv { b with nextPageId := m } :=
  ⟨hinv.framesNodup, hinv.framesComplete, hinv.freeBounded, hinv.freeNodup,
   hinv.freePin, hinv.freeDisjoint, hinv.ptBounded, hinv.ptKeysNodup,
   fun p hp => Nat.lt_of_lt_of_le (hinv.ptKeysLt p hp) hm, hinv.ptValInj,
   hinv.ptFreeDisjoint, hinv.linv, hinv.repSize⟩

theorem newPage_ok (b : BufferPoolManager) (res : Option Nat) (b' : BufferPoolManager)
    (hinv : BInv b) (h : b.newPage = some (res, b')) :
    BInv b' ∧ ∀ pid, res = some pid →
      ∃ fid fh n, alookup b'.pageTable pid = some fid ∧
        alookup b'.frames fid = some fh ∧ fh.pin = 0 ∧
        alookup b'.replacer.store fid = some n ∧ n.evictable = true := by
  unfold BufferPoolManager.newPage at h
  cases hacq : b.acquireFrame with
  | mk o b1 =>
    rw [hacq] at h
    cases o with
    | none =>
      dsimp only at h
      simp only [Option.some.injEq, Prod.mk.injEq] at h
      obtain ⟨h1, h2⟩ := h
      subst h2
      have := acquireFrame_none b b1 hacq
      subst this
      refine ⟨hinv, ?_⟩
      intro pid hpid
      rw [← h1] at hpid
      simp at hpid
    | some fid =>
      dsimp only at h
      obtain ⟨hinv1, hfid, hfree, hvals, hpin0, hsub, hnf, hnp⟩ :=
        binv_acquireFrame b fid b1 hinv hacq
      cases hreg : BufferPoolManager.registerFrame
          { b1 with nextPageId := b1.nextPageId + 1 } b1.nextPageId fid with
      | none =>
        rw [hreg] at h
        simp at h
      | some b2 =>
        rw [hreg] at h
        simp only [Option.some.injEq, Prod.mk.injEq] at h
        obtain ⟨h1, h2⟩ := h
        subst h2
        have hpidnone : alookup b1.pageTable b1.nextPageId = none :=
          alookup_none_of_keys_lt _ _ hinv1.ptKeysLt
        obtain ⟨hinv2, -, -, hfr, hff2, hlook, n, hn, hnev⟩ :=
          binv_registerFrame { b1 with nextPageId := b1.nextPageId + 1 }
            b1.nextPageId fid b2
            (binv_setNext b1 _ hinv1 (Nat.le_succ _)) hfid hfree hvals
            hpidnone (Nat.lt_succ_self _) hreg
        refine ⟨hinv2, ?_⟩
        intro pid hpid
        rw [← h1] at hpid
        rw [Option.some.injEq] at hpid
        subst hpid
        have hcomp : (alookup b1.frames fid).isSome :=
          hinv1.framesComplete fid hfid
        cases hlf : alookup b1.frames fid with
        | none =>
          rw [hlf] at hcomp
          simp at hcomp
        | some fh =>
          refine ⟨fid, fh, n, hlook, ?_, hpin0 fh hlf, hn, hnev⟩
          rw [hfr]
          exact hlf

theorem checkedPage_ok (b : BufferPoolManager) (pid : Nat) (res : Option Nat)
    (b1 : BufferPoolManager) (hinv : BInv b) (hpid : pid < b.nextPageId)
    (h : b.checkedPage pid = some (res, b1)) :
    BInv b1 ∧ b1.numFrames = b.numFrames ∧
      ∀ fid, res = some fid →
        alookup b1.pageTable pid = some fid ∧ fid < b1.numFrames ∧
          fid ∉ b1.freeFrames := by
  unfold BufferPoolManager.checkedPage at h
  cases hl : alookup b.pageTable pid with
  | some fid0 =>
    rw [hl] at h
    simp only [Option.some.injEq, Prod.mk.injEq] at h
    obtain ⟨h1, h2⟩ := h
    subst h2
    refine ⟨hinv, rfl, ?_⟩
    intro fid hfid
    rw [← h1] at hfid
    rw [Option.some.injEq] at hfid
    subst hfid
    have hmem : (pid, fid0) ∈ b.pageTable := alookup_mem _ _ _ hl
    exact ⟨hl, hinv.ptBounded _ hmem, hinv.ptFreeDisjoint _ hmem⟩
  | none =>
    rw [hl] at h
    cases hacq : b.acquireFrame with
    | mk o bm =>
      rw [hacq] at h
      cases o with
      | none =>
        dsimp only at h
        simp only [Option.some.injEq, Prod.mk.injEq] at h
        obtain ⟨h1, h2⟩ := h
        subst h2
        have := acquireFrame_none b bm hacq
        subst this
        refine ⟨hinv, rfl, ?_⟩
        intro fid hfid
        rw [← h1] at hfid
        simp at hfid
      | some fida =>
        dsimp only at h
        obtain ⟨hinvm, hfid, hfree, hvals, hpin0, hsub, hnf, hnp⟩ :=
          binv_acquireFrame b fida bm hinv hacq
        cases hreg : bm.registerFrame pid fida with
        | none =>
          rw [hreg] at h
          simp at h
        | some b2 =>
          rw [hreg] at h
          simp only [Option.some.injEq, Prod.mk.injEq] at h
          obtain ⟨h1, h2⟩ := h
          subst h2
          have hpidnone : alookup bm.pageTable pid = none := by
            rw [alookup_eq_none_iff]
            intro hmem
            obtain ⟨p, hp, hpe⟩ := List.mem_map.mp hmem
            have hpk : pid ∈ b.pageTable.map Prod.fst :=
              List.mem_map.mpr ⟨p, hsub p hp, hpe⟩
            exact (alookup_eq_none_iff _ _).mp hl hpk
          obtain ⟨hinv2, hnf2, hnp2, hfr, hff2, hlook, n, hn, hnev⟩ :=
            binv_registerFrame bm pid fida b2 hinvm hfid hfree hvals
              hpidnone (by rw [hnp]; exact hpid) hreg
          refine ⟨hinv2, by rw [hnf2, hnf], ?_⟩
          intro fid hfid2
          rw [← h1] at hfid2
          rw [Option.some.injEq] at hfid2
          subst hfid2
          refine ⟨hlook, by rw [hnf2]; exact hfid, ?_⟩
          rw [hff2]
          exact hfree

theorem binv_updateFrameOnly (b1 : BufferPoolManager) (fid : Nat) (fh fh' : FrameHeader)
    (hinv : BInv b1) (hfh : alookup b1.frames fid = some fh)
    (hfree : fid ∉ b1.freeFrames) :
    BInv { b1 with frames := aupdate b1.frames fid fh' } := by
  refine ⟨?_, ?_, hinv.freeBounded, hinv.freeNodup, ?_, hinv.freeDisjoint,
    hinv.ptBounded, hinv.ptKeysNodup, hinv.ptKeysLt, hinv.ptValInj,
    hinv.ptFreeDisjoint, hinv.linv, hinv.repSize⟩
  · dsimp only
    rw [keys_aupdate_present _ _ _ (by simp [hfh])]
    exact hinv.framesNodup
  · intro f2 hf2
    dsimp only
    by_cases hfe : f2 = fid
    · subst hfe
      rw [alookup_aupdate_self]
      simp
    · rw [alookup_aupdate_ne _ _ _ _ (fun he => hfe he.symm)]
      exact hinv.framesComplete f2 hf2
  · intro f2 hf2 fh2 hfh2
    have hne : f2 ≠ fid := fun he => hfree (he ▸ hf2)
    dsimp only at hfh2
    rw [alookup_aupdate_ne _ _ _ _ (Ne.symm hne)] at hfh2
    exact hinv.freePin f2 hf2 fh2 hfh2

theorem binv_updateFrame (b1 : BufferPoolManager) (fid : Nat) (fh fh' : FrameHeader)
    (ev : Bool) (rep' : LRUKReplacer) (hinv : BInv b1)
    (hfh : alookup b1.frames fid = some fh) (hfree : fid ∉ b1.freeFrames)
    (hse : b1.replacer.setEvictable fid ev = some rep') :
    BInv { b1 with frames := aupdate b1.frames fid fh', replacer := rep' } := by
  obtain ⟨hsz, hne, -⟩ := setEvictable_shape _ _ _ _ hse
  have hbase := binv_updateFrameOnly b1 fid fh fh' hinv hfh hfree
  refine ⟨hbase.framesNodup, hbase.framesComplete, hbase.freeBounded,
    hbase.freeNodup, hbase.freePin, ?_, hbase.ptBounded, hbase.ptKeysNodup,
    hbase.ptKeysLt, hbase.ptValInj, hbase.ptFreeDisjoint,
    linv_setEvictable _ _ _ _ hinv.linv hse, ?_⟩
  · intro f2 hf2
    have hne2 : f2 ≠ fid := fun he => hfree (he ▸ hf2)
    dsimp only
    rw [hne f2 hne2]
    exact hinv.freeDisjoint f2 hf2
  · dsimp only
    rw [hsz]
    exact hinv.repSize

theorem checkedWritePage_ok (b : BufferPoolManager) (pid : Nat) (res : Option Nat)
    (b' : BufferPoolManager) (hinv : BInv b) (hpid : pid < b.nextPageId)
    (h : b.checkedWritePage pid = some (res, b')) :
    BInv b' ∧ ∀ fid, res = some fid →
      ∃ b1 fh, b.checkedPage pid = some (some fid, b1) ∧
        alookup b1.frames fid = some fh ∧
        alookup b'.frames fid = some { fh with pin := fh.pin + 1, dirty := true } ∧
        ∃ n, alookup b'.replacer.store fid = some n ∧ n.evictable = false := by
  unfold BufferPoolManager.checkedWritePage at h
  cases hcp : b.checkedPage pid with
  | none =>
    rw [hcp] at h
    simp at h
  | some pr =>
    obtain ⟨o, b1⟩ := pr
    rw [hcp] at h
    cases o with
    | none =>
      dsimp only at h
      simp only [Option.some.injEq, Prod.mk.injEq] at h
      obtain ⟨h1, h2⟩ := h
      subst h2
      obtain ⟨hinv1, -, -⟩ := checkedPage_ok b pid none b1 hinv hpid hcp
      refine ⟨hinv1, ?_⟩
      intro fid hfid
      rw [← h1] at hfid
      simp at hfid
    | some fid0 =>
      dsimp only at h
      cases hlf : alookup b1.frames fid0 with
      | none =>
        rw [hlf] at h
        simp at h
      | some fh =>
        rw [hlf] at h
        dsimp only at h
        cases hse : b1.replacer.setEvictable fid0 false with
        | none =>
          rw [hse] at h
          simp at h
        | some rep' =>
          rw [hse] at h
          simp only [Option.some.injEq, Prod.mk.injEq] at h
          obtain ⟨h1, h2⟩ := h
          subst h2
          obtain ⟨hinv1, -, hres⟩ := checkedPage_ok b pid (some fid0) b1 hinv hpid hcp
          obtain ⟨hmap, hfb, hfree⟩ := hres fid0 rfl
          refine ⟨binv_updateFrame b1 fid0 fh
            { fh with pin := fh.pin + 1, dirty := true } false rep' hinv1 hlf hfree hse, ?_⟩
          intro fid hfid
          rw [← h1] at hfid
          rw [Option.some.injEq] at hfid
          subst hfid
          obtain ⟨-, -, n, -, hn2⟩ := setEvictable_shape _ _ _ _ hse
          exact ⟨b1, fh, rfl, hlf, alookup_aupdate_self _ _ _,
            { n with evictable := false }, hn2, rfl⟩

theorem checkedReadPage_ok (b : BufferPoolManager) (pid : Nat) (res : Option Nat)
    (b' : BufferPoolManager) (hinv : BInv b) (hpid : pid < b.nextPageId)
    (h : b.checkedReadPage pid = some (res, b')) :
    BInv b' ∧ ∀ fid, res = some fid →
      ∃ b1 fh, b.checkedPage pid = some (some fid, b1) ∧
        alookup b1.frames fid = some fh ∧
        alookup b'.frames fid = some { fh with pin := fh.pin + 1 } ∧
        ∃ n, alookup b'.replacer.store fid = some n ∧ n.evictable = false := by
  unfold BufferPoolManager.checkedReadPage at h
  cases hcp : b.checkedPage pid with
  | none =>
    rw [hcp] at h
    simp at h
  | some pr =>
    obtain ⟨o, b1⟩ := pr
    rw [hcp] at h
    cases o with
    | none =>
      dsimp only at h
      simp only [Option.some.injEq, Prod.mk.injEq] at h
      obtain ⟨h1, h2⟩ := h
      subst h2
      obtain ⟨hinv1, -, -⟩ := checkedPage_ok b pid none b1 hinv hpid hcp
      refine ⟨hinv1, ?_⟩
      intro fid hfid
      rw [← h1] at hfid
      simp at hfid
    | some fid0 =>
      dsimp only at h
      cases hlf : alookup b1.frames fid0 with
      | none =>
        rw [hlf] at h
        simp at h
      | some fh =>
        rw [hlf] at h
        dsimp only at h
        cases hse : b1.replacer.setEvictable fid0 false with
        | none =>
          rw [hse] at h
          simp at h
        | some rep' =>
          rw [hse] at h
          simp only [Option.some.injEq, Prod.mk.injEq] at h
          obtain ⟨h1, h2⟩ := h
          subst h2
          obtain ⟨hinv1, -, hres⟩ := checkedPage_ok b pid (some fid0) b1 hinv hpid hcp
          obtain ⟨hmap, hfb, hfree⟩ := hres fid0 rfl
          refine ⟨binv_updateFrame b1 fid0 fh
            { fh with pin := fh.pin + 1 } false rep' hinv1 hlf hfree hse, ?_⟩
          intro fid hfid
          rw [← h1] at hfid
          rw [Option.some.injEq] at hfid
          subst hfid
          obtain ⟨-, -, n, -, hn2⟩ := setEvictable_shape _ _ _ _ hse
          exact ⟨b1, fh, rfl, hlf, alookup_aupdate_self _ _ _,
            { n with evictable := false }, hn2, rfl⟩

theorem binv_deletePage (b : BufferPoolManager) (pid : Nat) (ok : Bool)
    (b' : BufferPoolManager) (hinv : BInv b)
    (h : b.deletePage pid = some (ok, b')) : BInv b' := by
  unfold BufferPoolManager.deletePage at h
  cases hl : alookup b.pageTable pid with
  | none =>
    rw [hl] at h
    simp only [Option.some.injEq, Prod.mk.injEq] at h
    rw [← h.2]
    exact hinv
  | some fid =>
    rw [hl] at h
    dsimp only at h
    cases hlf : alookup b.frames fid with
    | none =>
      rw [hlf] at h
      simp at h
    | some fh =>
      rw [hlf] at h
      dsimp only at h
      by_cases hpin : 0 < fh.pin
      · rw [if_pos hpin] at h
        simp only [Option.some.injEq, Prod.mk.injEq] at h
        rw [← h.2]
        exact hinv
      · rw [if_neg hpin] at h
        cases hrm : b.replacer.removeFrame fid with
        | none =>
          rw [hrm] at h
          simp at h
        | some rep' =>
          rw [hrm] at h
          simp only [Option.some.injEq, Prod.mk.injEq] at h
          obtain ⟨h1, h2⟩ := h
          subst h2
          have hmem : (pid, fid) ∈ b.pageTable := alookup_mem _ _ _ hl
          have hfb : fid < b.numFrames := hinv.ptBounded _ hmem
          have hnotfree : fid ∉ b.freeFrames := hinv.ptFreeDisjoint _ hmem
          obtain ⟨hsz, hnone, hne⟩ :=
            removeFrame_shape b.replacer rep' fid hinv.linv.nodup hrm
          refine ⟨?_, ?_, ?_, ?_, ?_, ?_, ?_, ?_, ?_, ?_, ?_,
            linv_removeFrame _ _ _ hinv.linv hrm, ?_⟩
          · dsimp only
            rw [keys_aupdate_present _ _ _ (by simp [hlf])]
            exact hinv.framesNodup
          · intro f2 hf2
            dsimp only
            by_cases hfe : f2 = fid
            · subst hfe
              rw [alookup_aupdate_self]
              simp
            · rw [alookup_aupdate_ne _ _ _ _ (fun he => hfe he.symm)]
              exact hinv.framesComplete f2 hf2
          · intro f2 hf2
            dsimp only at hf2
            rcases List.mem_append.mp hf2 with h3 | h3
            · exact hinv.freeBounded f2 h3
            · rw [List.mem_singleton] at h3
              subst h3
              exact hfb
          · dsimp only
            refine List.Nodup.append hinv.freeNodup (by simp) ?_
            intro a ha hb
            simp at hb
            subst hb
            exact hnotfree ha
          · intro f2 hf2 fh2 hfh2
            dsimp only at hf2 hfh2
            rcases List.mem_append.mp hf2 with h3 | h3
            · have hne2 : f2 ≠ fid := fun he => hnotfree (he ▸ h3)
              rw [alookup_aupdate_ne _ _ _ _ (Ne.symm hne2)] at hfh2
              exact hinv.freePin f2 h3 fh2 hfh2
            · rw [List.mem_singleton] at h3
              subst h3
              rw [alookup_aupdate_self] at hfh2
              rw [Option.some.injEq] at hfh2
              rw [← hfh2]
              exact rfl
          · intro f2 hf2
            dsimp only at hf2 ⊢
            rcases List.mem_append.mp hf2 with h3 | h3
            · have hne2 : f2 ≠ fid := fun he => hnotfree (he ▸ h3)
              rw [hne f2 hne2]
              exact hinv.freeDisjoint f2 h3
            · rw [List.mem_singleton] at h3
              subst h3
              exact hnone
          · intro p hp
            exact hinv.ptBounded p (mem_aerase _ _ _ hp)
          · exact nodup_keys_aerase _ _ hinv.ptKeysNodup
          · intro p hp
            exact hinv.ptKeysLt p (mem_aerase _ _ _ hp)
          · intro p hp q hq hpq
            exact hinv.ptValInj p (mem_aerase _ _ _ hp) q (mem_aerase _ _ _ hq) hpq
          · intro p hp
            dsimp only at hp ⊢
            have hpm : p ∈ b.pageTable := mem_aerase _ _ _ hp
            intro hc
            rcases List.mem_append.mp hc with h3 | h3
            · exact hinv.ptFreeDisjoint p hpm h3
            · rw [List.mem_singleton] at h3
              have : p.1 = pid := hinv.ptValInj p hpm (pid, fid) hmem h3
              exact mem_aerase_ne_key _ _ hinv.ptKeysNodup p hp this
          · dsimp only
            rw [hsz]
            exact hinv.repSize

theorem binv_flushPage (b : BufferPoolManager) (pid : Nat) (ok : Bool)
    (b' : BufferPoolManager) (hinv : BInv b)
    (h : b.flushPage pid = some (ok, b')) : BInv b' := by
  unfold BufferPoolManager.flushPage at h
  cases hl : alookup b.pageTable pid with
  | none =>
    rw [hl] at h
    simp only [Option.some.injEq, Prod.mk.injEq] at h
    rw [← h.2]
    exact hinv
  | some fid =>
    rw [hl] at h
    dsimp only at h
    cases hlf : alookup b.frames fid with
    | none =>
      rw [hlf] at h
      simp at h
    | some fh =>
      rw [hlf] at h
      simp only [Option.some.injEq, Prod.mk.injEq] at h
      rw [← h.2]
      have hmem : (pid, fid) ∈ b.pageTable := alookup_mem _ _ _ hl
      exact binv_updateFrameOnly b fid fh { fh with dirty := false } hinv hlf
        (hinv.ptFreeDisjoint _ hmem)

theorem binv_dropGuard (b : BufferPoolManager) (fid : Nat) (fh : FrameHeader)
    (b' : BufferPoolManager) (hinv : BInv b)
    (hfh : alookup b.frames fid = some fh) (hpin : 0 < fh.pin)
    (h : b.dropGuard fid = some b') : BInv b' := by
  have hfree : fid ∉ b.freeFrames := by
    intro hc
    have := hinv.freePin fid hc fh hfh
    omega
  unfold BufferPoolManager.dropGuard at h
  rw [hfh] at h
  dsimp only at h
  by_cases hz : fh.pin - 1 = 0
  · rw [if_pos hz] at h
    cases hse : b.replacer.setEvictable fid true with
    | none =>
      rw [hse] at h
      simp at h
    | some rep' =>
      rw [hse] at h
      rw [Option.some.injEq] at h
      subst h
      exact binv_updateFrame b fid fh { fh with pin := fh.pin - 1 } true rep'
        hinv hfh hfree hse
  · rw [if_neg hz] at h
    rw [Option.some.injEq] at h
    subst h
    exact binv_updateFrameOnly b fid fh { fh with pin := fh.pin - 1 } hinv hfh hfree

theorem init_frames_keys (numFrames k : Nat) :
    (BufferPoolManager.init numFrames k).frames.map Prod.fst =
      List.range numFrames := by
  simp only [BufferPoolManager.init, List.map_map]
  have : (Prod.fst ∘ fun fid => (fid, FrameHeader.reset)) = fun fid : Nat => fid := by
    funext x
    rfl
  rw [this]
  exact List.map_id _

theorem binv_reach (b : BufferPoolManager) (h : BReach b) : BInv b := by
  induction h with
  | init numFrames k =>
    refine ⟨?_, ?_, ?_, List.nodup_range numFrames, ?_, ?_, ?_, ?_, ?_, ?_, ?_, ?_, rfl⟩
    · rw [init_frames_keys]
      exact List.nodup_range numFrames
    · intro fid hfid
      rw [alookup_isSome_iff, init_frames_keys]
      exact List.mem_range.mpr hfid
    · intro fid hfid
      simpa [BufferPoolManager.init] using List.mem_range.mp hfid
    · intro fid hfid fh hfh
      simp only [BufferPoolManager.init] at hfh
      have hmem := alookup_mem _ _ _ hfh
      obtain ⟨a, -, hae⟩ := List.mem_map.mp hmem
      rw [Prod.mk.injEq] at hae
      rw [← hae.2]
      exact rfl
    · intro fid hfid
      simp [BufferPoolManager.init, LRUKReplacer.init, alookup]
    · intro p hp
      simp [BufferPoolManager.init] at hp
    · simp [BufferPoolManager.init]
    · intro p hp
      simp [BufferPoolManager.init] at hp
    · intro p hp
      simp [BufferPoolManager.init] at hp
    · intro p hp
      simp [BufferPoolManager.init] at hp
    · exact ⟨by simp [BufferPoolManager.init, LRUKReplacer.init],
        by intro p hp; simp [BufferPoolManager.init, LRUKReplacer.init] at hp,
        by simp [BufferPoolManager.init, LRUKReplacer.init, evictableCount]⟩
  | newP b res b' _ hop ih => exact (newPage_ok b res b' ih hop).1
  | readP b pid res b' _ hpid hop ih => exact (checkedReadPage_ok b pid res b' ih hpid hop).1
  | writeP b pid res b' _ hpid hop ih => exact (checkedWritePage_ok b pid res b' ih hpid hop).1
  | delP b pid ok b' _ hop ih => exact binv_deletePage b pid ok b' ih hop
  | flushP b pid ok b' _ hop ih => exact binv_flushPage b pid ok b' ih hop
  | dropG b fid fh b' _ hfh hpin hop ih => exact binv_dropGuard b fid fh b' ih hfh hpin hop

/-- C10. In every reachable buffer-pool state: immediately after `NewPage`
returns a page id, the frame the new page is mapped to has pin count 0 and
its replacer record is evictable (NewPage records an access and calls
`SetEvictable(frame, true)` without pinning or returning a guard), so the
new page is an eviction candidate; whereas a successful
`CheckedWritePage`/`CheckedReadPage` increments the mapped frame's pin count
by one over the state `CheckedPage` produced and leaves the frame's replacer
record non-evictable. -/
theorem newPage_evictable_spec (b : BufferPoolManager) (hreach : BReach b) :
    (∀ pid b', b.newPage = some (some pid, b') →
      ∃ fid fh n, alookup b'.pageTable pid = some fid ∧
        alookup b'.frames fid = some fh ∧ fh.pin = 0 ∧
        alookup b'.replacer.store fid = some n ∧ n.evictable = true) ∧
    (∀ pid fid b', pid < b.nextPageId → b.checkedWritePage pid = some (some fid, b') →
      ∃ b1 fh, b.checkedPage pid = some (some fid, b1) ∧
        alookup b1.frames fid = some fh ∧
        alookup b'.frames fid = some { fh with pin := fh.pin + 1, dirty := true } ∧
        ∃ n, alookup b'.replacer.store fid = some n ∧ n.evictable = false) ∧
    (∀ pid fid b', pid < b.nextPageId → b.checkedReadPage pid = some (some fid, b') →
      ∃ b1 fh, b.checkedPage pid = some (some fid, b1) ∧
        alookup b1.frames fid = some fh ∧
        alookup b'.frames fid = some { fh with pin := fh.pin + 1 } ∧
        ∃ n, alookup b'.replacer.store fid = some n ∧ n.evictable = false) := by
  have hinv := binv_reach b hreach
  refine ⟨?_, ?_, ?_⟩
  · intro pid b' h
    exact (newPage_ok b (some pid) b' hinv h).2 pid rfl
  · intro pid fid b' hpid h
    exact (checkedWritePage_ok b pid (some fid) b' hinv hpid h).2 fid rfl
  · intro pid fid b' hpid h
    exact (checkedReadPage_ok b pid (some fid) b' hinv hpid h).2 fid rfl

/-- Witness for C10 at a concrete input: `NewPage` on a freshly constructed
single-frame pool allocates page 0 in frame 0, unpinned and evictable. -/
theorem newPage_evictable_spec_witness :
    ∃ fid fh n,
      alookup ([(0, 0)] : List (Nat × Nat)) 0 = some fid ∧
      alookup [(0, FrameHeader.reset)] fid = some fh ∧ fh.pin = 0 ∧
      alookup [(0, ({ history := [0], evictable := true } : LRUKNode))] fid = some n ∧
      n.evictable = true :=
  (newPage_evictable_spec (BufferPoolManager.init 1 2) (BReach.init 1 2)).1 0
    { numFrames := 1, nextPageId := 1, pageTable := [(0, 0)],
      frames := [(0, FrameHeader.reset)], freeFrames := [],
      replacer := { store := [(0, { history := [0], evictable := true })],
                    currentTs := 1, currSize := 1, k := 2, replacerSize := 1 } }
    (by decide)

/-! ## Disk extendible hash table
(src/src/container/disk/hash/disk_extendible_hash_table.cpp and the page
classes under src/src/storage/page/)

Keys, values and hashes are `Nat` (the hash function is a template
parameter supplied from outside src/, so it is a field here); page ids are
`Int` with `-1` for `INVALID_PAGE_ID`.  The directory arrays persist beyond
`Size()` across global-depth changes, so `local_depths_` and
`bucket_page_ids_` are total functions over cell indices.  The `assert`
calls in the page classes compile away outside debug builds and reads are
modelled total; fetching a page absent from the store (possible only for
deallocated page ids) aborts the embedding with `none`. -/

/-- Embeds `ExtendibleHTableBucketPage` (extendible_htable_bucket_page.cpp):
`size_` entries in insertion order plus the `max_size_` bound. -/
structure HTableBucket where
  entries : List (Nat × Nat)
  maxSize : Nat
  deriving DecidableEq, Repr

/-- `ExtendibleHTableBucketPage::Lookup` (scan the `size_` entries). -/
def HTableBucket.lookup (b : HTableBucket) (key : Nat) : Option Nat :=
  (b.entries.find? (fun e => e.1 == key)).map Prod.snd

/-- `ExtendibleHTableBucketPage::IsFull`. -/
def HTableBucket.isFull (b : HTableBucket) : Bool := b.maxSize ≤ b.entries.length

/-- `ExtendibleHTableBucketPage::IsEmpty`. -/
def HTableBucket.isEmpty (b : HTableBucket) : Bool := b.entries.isEmpty

/-- `ExtendibleHTableBucketPage::Insert`: fail on a full bucket or a
present key, else append. -/
def HTableBucket.insert (b : HTableBucket) (key v : Nat) : Bool × HTableBucket :=
  if b.isFull then (false, b)
  else if (b.lookup key).isSome then (false, b)
  else (true, { b with entries := b.entries ++ [(key, v)] })

/-- `ExtendibleHTableBucketPage::Remove`/`RemoveAt`: drop the first entry
with the key, shifting the rest down. -/
def HTableBucket.remove (b : HTableBucket) (key : Nat) : Bool × HTableBucket :=
  if (b.lookup key).isSome then
    (true, { b with entries := b.entries.eraseP (fun e => e.1 == key) })
  else (false, b)

/-- `ExtendibleHTableBucketPage::Clear` semantics used by `SplitBucket`
(`bucket->Clear()` resets `size_` to zero). -/
def HTableBucket.clear (b : HTableBucket) : HTableBucket := { b with entries := [] }

/-- Embeds `ExtendibleHTableDirectoryPage`
(extendible_htable_directory_page.cpp).  The two arrays are total over cell
indices because cells beyond `Size()` keep their contents when the global
depth shrinks and grows again. -/
structure HTableDirectory where
  maxDepth : Nat
  globalDepth : Nat
  localDepths : Nat → Nat
  bucketPageIds : Nat → Int

/-- `ExtendibleHTableDirectoryPage::Init`: depth 0, all local depths 0, all
bucket page ids invalid (`memset` with `INVALID_PAGE_ID` bytes). -/
def HTableDirectory.initDir (maxDepth : Nat) : HTableDirectory :=
  { maxDepth := maxDepth, globalDepth := 0,
    localDepths := fun _ => 0, bucketPageIds := fun _ => -1 }

/-- `ExtendibleHTableDirectoryPage::Size` = 2^GD. -/
def HTableDirectory.size (d : HTableDirectory) : Nat := 2 ^ d.globalDepth

/-- `ExtendibleHTableDirectoryPage::HashToBucketIndex`: the low GD bits. -/
def HTableDirectory.hashToBucketIndex (d : HTableDirectory) (hash : Nat) : Nat :=
  if d.globalDepth = 0 then 0 else hash % 2 ^ d.globalDepth

/-- `ExtendibleHTableDirectoryPage::GetBucketPageId`. -/
def HTableDirectory.getBucketPageId (d : HTableDirectory) (i : Nat) : Int :=
  d.bucketPageIds i

/-- `ExtendibleHTableDirectoryPage::SetBucketPageId`. -/
def HTableDirectory.setBucketPageId (d : HTableDirectory) (i : Nat) (pid : Int) :
    HTableDirectory :=
  { d with bucketPageIds := fun j => if j = i then pid else d.bucketPageIds j }

/-- `ExtendibleHTableDirectoryPage::GetLocalDepth`. -/
def HTableDirectory.getLocalDepth (d : HTableDirectory) (i : Nat) : Nat :=
  d.localDepths i

/-- `ExtendibleHTableDirectoryPage::SetLocalDepth`. -/
def HTableDirectory.setLocalDepth (d : HTableDirectory) (i ld : Nat) : HTableDirectory :=
  { d with localDepths := fun j => if j = i then ld else d.localDepths j }

/-- `ExtendibleHTableDirectoryPage::IncrLocalDepth`. -/
def HTableDirectory.incrLocalDepth (d : HTableDirectory) (i : Nat) : HTableDirectory :=
  d.setLocalDepth i (d.localDepths i + 1)

/-- `ExtendibleHTableDirectoryPage::DecrLocalDepth`. -/
def HTableDirectory.decrLocalDepth (d : HTableDirectory) (i : Nat) : HTableDirectory :=
  d.setLocalDepth i (d.localDepths i - 1)

/-- `ExtendibleHTableDirectoryPage::GetLocalDepthMask` = 2^LD − 1. -/
def HTableDirectory.getLocalDepthMask (d : HTableDirectory) (i : Nat) : Nat :=
  2 ^ d.localDepths i - 1

/-- `ExtendibleHTableDirectoryPage::GetSplitImageIndex` = i XOR 2^(LD−1). -/
def HTableDirectory.getSplitImageIndex (d : HTableDirectory) (i : Nat) : Nat :=
  Nat.xor i (2 ^ (d.getLocalDepth i - 1))

/-- `ExtendibleHTableDirectoryPage::IncrGlobalDepth`
(extendible_htable_directory_page.cpp:116-128): bump the depth and copy the
old lower half of both arrays into the new upper half. -/
def HTableDirectory.incrGlobalDepth (d : HTableDirectory) : HTableDirectory :=
  let oldSize := 2 ^ d.globalDepth
  { d with globalDepth := d.globalDepth + 1,
           bucketPageIds := fun j =>
             if oldSize ≤ j ∧ j < 2 * oldSize then d.bucketPageIds (j - oldSize)
             else d.bucketPageIds j,
           localDepths := fun j =>
             if oldSize ≤ j ∧ j < 2 * oldSize then d.localDepths (j - oldSize)
             else d.localDepths j }

/-- `ExtendibleHTableDirectoryPage::DecrGlobalDepth` (arrays untouched). -/
def HTableDirectory.decrGlobalDepth (d : HTableDirectory) : HTableDirectory :=
  { d with globalDepth := d.globalDepth - 1 }

/-- `ExtendibleHTableDirectoryPage::CanShrink`: no slot's local depth equals
the (nonzero) global depth. -/
def HTableDirectory.canShrink (d : HTableDirectory) : Bool :=
  if d.globalDepth = 0 then false
  else (List.range (2 ^ d.globalDepth)).all fun i => d.localDepths i != d.globalDepth

/-- Embeds `ExtendibleHTableHeaderPage`
(extendible_htable_header_page.cpp). -/
structure HTableHeader where
  maxDepth : Nat
  directoryPageIds : Nat → Int

/-- `ExtendibleHTableHeaderPage::HashToDirectoryIndex`: the high
`max_depth_` bits of the 32-bit hash (0 when the depth is 0). -/
def HTableHeader.hashToDirectoryIndex (h : HTableHeader) (hash : Nat) : Nat :=
  if h.maxDepth = 0 then 0 else hash % 2 ^ 32 / 2 ^ (32 - h.maxDepth)

/-- `ExtendibleHTableHeaderPage::SetDirectoryPageId`. -/
def HTableHeader.setDirectoryPageId (h : HTableHeader) (i : Nat) (pid : Int) :
    HTableHeader :=
  { h with directoryPageIds := fun j => if j = i then pid else h.directoryPageIds j }

/-- Embeds the `DiskExtendibleHashTable` state: the header page, the
directory and bucket pages keyed by page id, the buffer pool's page-id
counter (the header page consumed id 0), and the constructor parameters
including the externally supplied hash function. -/
structure DiskExtendibleHashTable where
  hashFn : Nat → Nat
  headerMaxDepth : Nat
  directoryMaxDepth : Nat
  bucketMaxSize : Nat
  header : HTableHeader
  directories : List (Nat × HTableDirectory)
  buckets : List (Nat × HTableBucket)
  deletedPages : List Nat
  nextPageId : Nat

/-- The `DiskExtendibleHashTable` constructor
(disk_extendible_hash_table.cpp:36-53): a fresh header page and nothing
else. -/
def DiskExtendibleHashTable.mkTable (hashFn : Nat → Nat)
    (headerMaxDepth directoryMaxDepth bucketMaxSize : Nat) :
    DiskExtendibleHashTable :=
  { hashFn := hashFn, headerMaxDepth := headerMaxDepth,
    directoryMaxDepth := directoryMaxDepth, bucketMaxSize := bucketMaxSize,
    header := { maxDepth := headerMaxDepth, directoryPageIds := fun _ => -1 },
    directories := [], buckets := [], deletedPages := [], nextPageId := 1 }

/-- `DiskExtendibleHashTable::GetValue`
(disk_extendible_hash_table.cpp:64-102). -/
def DiskExtendibleHashTable.getValue (t : DiskExtendibleHashTable) (key : Nat) :
    Option Nat :=
  let hash := t.hashFn key
  let dirIdx := t.header.hashToDirectoryIndex hash
  let dpid := t.header.directoryPageIds dirIdx
  if dpid = -1 then none
  else
    match alookup t.directories dpid.toNat with
    | none => none
    | some dir =>
      let bidx := dir.hashToBucketIndex hash
      let bpid := dir.getBucketPageId bidx
      if bpid = -1 then none
      else
        match alookup t.buckets bpid.toNat with
        | none => none
        | some bucket => bucket.lookup key

/-- `DiskExtendibleHashTable::UpdateDirectoryMapping`
(disk_extendible_hash_table.cpp:227-243): one directory write per loop
index; note the comparison re-reads `GetBucketPageId(new_bucket_idx)` from
the directory being mutated. -/
def updateDirectoryMapping (dir : HTableDirectory) (newBucketIdx : Nat)
    (newBucketPageId : Int) (newLocalDepth localDepthMask : Nat) : HTableDirectory :=
  (List.range (2 ^ dir.globalDepth)).foldl
    (fun d i =>
      if d.getBucketPageId i = d.getBucketPageId newBucketIdx then
        if Nat.land i localDepthMask = newBucketIdx then
          (d.setBucketPageId i newBucketPageId).setLocalDepth i newLocalDepth
        else
          d.setLocalDepth i newLocalDepth
      else d)
    dir

/-- `DiskExtendibleHashTable::SplitBucket`
(disk_extendible_hash_table.cpp:386-441), acting on the fetched directory
and bucket and returning the updated directory, old bucket, new bucket page
id and new bucket.  The rehash loop classifies each entry by comparing its
full directory index with `bucket_idx` (line 431). -/
def splitBucket (t : DiskExtendibleHashTable) (dir : HTableDirectory)
    (bucket : HTableBucket) (bucketIdx : Nat) :
    (HTableDirectory × HTableBucket × Nat × HTableBucket) × Nat :=
  let newBucketPageId := t.nextPageId
  let newBucket : HTableBucket := { entries := [], maxSize := t.bucketMaxSize }
  let oldLocalDepth := dir.getLocalDepth bucketIdx
  let dir := dir.incrLocalDepth bucketIdx
  let splitIdx := dir.getSplitImageIndex bucketIdx
  let dir := dir.incrLocalDepth splitIdx
  let newLocalDepth := oldLocalDepth + 1
  let oldBucketPageId := dir.getBucketPageId bucketIdx
  let dir := (List.range dir.size).foldl
    (fun d i =>
      let lowBits := i % 2 ^ newLocalDepth
      if lowBits = bucketIdx % 2 ^ newLocalDepth then
        (d.setBucketPageId i oldBucketPageId).setLocalDepth i newLocalDepth
      else if lowBits = Nat.xor bucketIdx (2 ^ oldLocalDepth) % 2 ^ newLocalDepth then
        (d.setBucketPageId i (newBucketPageId : Int)).setLocalDepth i newLocalDepth
      else d)
    dir
  let entries := bucket.entries
  let rehashed := entries.foldl
    (fun (pr : HTableBucket × HTableBucket) entry =>
      let entryHash := t.hashFn entry.1
      let entryBucketIdx := dir.hashToBucketIndex entryHash
      if entryBucketIdx = bucketIdx then
        ((pr.1.insert entry.1 entry.2).2, pr.2)
      else
        (pr.1, (pr.2.insert entry.1 entry.2).2))
    (bucket.clear, newBucket)
  ((dir, rehashed.1, newBucketPageId, rehashed.2), t.nextPageId + 1)

/-- `DiskExtendibleHashTable::InsertToNewBucket`
(disk_extendible_hash_table.cpp:208-220), returning the updated table and
the insert result. -/
def insertToNewBucket (t : DiskExtendibleHashTable) (dpid : Nat)
    (dir : HTableDirectory) (bucketIdx key v : Nat) :
    Bool × DiskExtendibleHashTable :=
  let bucketPageId := t.nextPageId
  let bucket : HTableBucket := { entries := [], maxSize := t.bucketMaxSize }
  let dir := dir.setBucketPageId bucketIdx (bucketPageId : Int)
  let res := bucket.insert key v
  (res.1, { t with nextPageId := t.nextPageId + 1,
                   directories := aupdate t.directories dpid dir,
                   buckets := aupdate t.buckets bucketPageId res.2 })

/-- `DiskExtendibleHashTable::InsertToNewDirectory`
(disk_extendible_hash_table.cpp:187-201). -/
def insertToNewDirectory (t : DiskExtendibleHashTable) (directoryIdx hash key v : Nat) :
    Bool × DiskExtendibleHashTable :=
  let directoryPageId := t.nextPageId
  let dir := HTableDirectory.initDir t.directoryMaxDepth
  let t1 := { t with nextPageId := t.nextPageId + 1,
                     header := t.header.setDirectoryPageId directoryIdx
                       (directoryPageId : Int),
                     directories := aupdate t.directories directoryPageId dir }
  let bucketIdx := dir.hashToBucketIndex hash
  insertToNewBucket t1 directoryPageId dir bucketIdx key v

/-- `DiskExtendibleHashTable::Insert`
(disk_extendible_hash_table.cpp:115-180); the tail recursion after a split
is bounded by `fuel`, and `none` models fetching a page missing from the
store (never hit on the runs below). -/
def insertHT (t : DiskExtendibleHashTable) (key v : Nat) :
    Nat → Option (Bool × DiskExtendibleHashTable)
  | 0 => none
  | fuel + 1 =>
    if (t.getValue key).isSome then some (false, t)
    else
      let hash := t.hashFn key
      let directoryIdx := t.header.hashToDirectoryIndex hash
      let dpid := t.header.directoryPageIds directoryIdx
      if dpid = -1 then some (insertToNewDirectory t directoryIdx hash key v)
      else
        match alookup t.directories dpid.toNat with
        | none => none
        | some dir =>
          let bucketIdx := dir.hashToBucketIndex hash
          let bpid := dir.getBucketPageId bucketIdx
          if bpid = -1 then some (insertToNewBucket t dpid.toNat dir bucketIdx key v)
          else
            match alookup t.buckets bpid.toNat with
            | none => none
            | some bucket =>
              let ins := bucket.insert key v
              if ins.1 then
                some (true, { t with buckets := aupdate t.buckets bpid.toNat ins.2 })
              else
                if dir.getLocalDepth bucketIdx = dir.globalDepth ∧
                    dir.maxDepth ≤ dir.globalDepth then
                  some (false, t)
                else
                  let dir1 := if dir.getLocalDepth bucketIdx = dir.globalDepth then
                      dir.incrGlobalDepth
                    else dir
                  let split := splitBucket t dir1 bucket bucketIdx
                  let t1 := { t with
                    nextPageId := split.2,
                    directories := aupdate t.directories dpid.toNat split.1.1,
                    buckets := aupdate (aupdate t.buckets bpid.toNat split.1.2.1)
                      split.1.2.2.1 split.1.2.2.2 }
                  insertHT t1 key v fuel

/-- The merge loop of `DiskExtendibleHashTable::Remove`
(disk_extendible_hash_table.cpp:311-350), iterating on the local depth that
each round decrements.  Page ids are never reused and `DeletePage` writes
the page back before freeing its frame, so a deleted page's content remains
readable; deletion only records the page id — and it succeeds only when no
guard pins the page, which holds for the current bucket page exactly when
its guard was dropped (`bucketGuardHeld = false`) and never holds for the
split page, whose `WritePageGuard` is still in scope at the `DeletePage`
call (line 337). -/
def mergeLoop (buckets : List (Nat × HTableBucket)) (dir : HTableDirectory)
    (bucket : HTableBucket) (bucketPageId : Nat) (bucketGuardHeld : Bool)
    (bucketIdx globalDepth localDepth : Nat) (deleted : List Nat) :
    Nat → Option (HTableDirectory × List Nat)
  | 0 => none
  | fuel + 1 =>
    if localDepth = 0 then some (dir, deleted)
    else
      let splitIdx := Nat.xor bucketIdx (2 ^ (localDepth - 1))
      let splitLocalDepth := dir.getLocalDepth splitIdx
      let splitPid := dir.getBucketPageId splitIdx
      if splitPid = -1 then some (dir, deleted)
      else
        match alookup buckets splitPid.toNat with
        | none => none
        | some splitBucket =>
          if splitLocalDepth ≠ localDepth ∨
              (splitBucket.isEmpty = false ∧ bucket.isEmpty = false) then
            some (dir, deleted)
          else
            let st :=
              if bucket.isEmpty then
                (splitBucket, splitPid.toNat, true,
                 if bucketGuardHeld then deleted else deleted ++ [bucketPageId])
              else
                (bucket, bucketPageId, bucketGuardHeld, deleted)
            let dir1 := dir.decrLocalDepth bucketIdx
            let localDepth1 := dir1.getLocalDepth bucketIdx
            let maskIdx := Nat.land bucketIdx (dir1.getLocalDepthMask bucketIdx)
            let updateCount := 2 ^ (globalDepth - localDepth1)
            let dir2 := (List.range updateCount).foldl
              (fun d i =>
                updateDirectoryMapping d (i * 2 ^ localDepth1 + maskIdx)
                  (st.2.1 : Int) localDepth1 0)
              dir1
            mergeLoop buckets dir2 st.1 st.2.1 st.2.2.1 bucketIdx globalDepth
              localDepth1 st.2.2.2 fuel

/-- The shrink loop of `DiskExtendibleHashTable::Remove`
(disk_extendible_hash_table.cpp:351-353); each round decrements the global
depth, so it is bounded by the current depth. -/
def shrinkLoop (dir : HTableDirectory) : Nat → HTableDirectory
  | 0 => dir
  | fuel + 1 => if dir.canShrink then shrinkLoop dir.decrGlobalDepth fuel else dir

/-- `DiskExtendibleHashTable::Remove`
(disk_extendible_hash_table.cpp:265-355). -/
def removeHT (t : DiskExtendibleHashTable) (key : Nat) :
    Option (Bool × DiskExtendibleHashTable) :=
  let hash := t.hashFn key
  let directoryIdx := t.header.hashToDirectoryIndex hash
  let dpid := t.header.directoryPageIds directoryIdx
  if dpid = -1 then some (false, t)
  else
    match alookup t.directories dpid.toNat with
    | none => none
    | some dir =>
      let bucketIdx := dir.hashToBucketIndex hash
      let bpid := dir.getBucketPageId bucketIdx
      if bpid = -1 then some (false, t)
      else
        match alookup t.buckets bpid.toNat with
        | none => none
        | some bucket =>
          let rm := bucket.remove key
          let t1 := { t with buckets := aupdate t.buckets bpid.toNat rm.2 }
          if rm.1 = false then some (false, t1)
          else
            let localDepth := dir.getLocalDepth bucketIdx
            let globalDepth := dir.globalDepth
            match mergeLoop t1.buckets dir rm.2 bpid.toNat false bucketIdx
                globalDepth localDepth [] (localDepth + 1) with
            | none => none
            | some (dir2, deleted2) =>
              let dir3 := shrinkLoop dir2 (dir2.globalDepth + 1)
              some (true,
                { t1 with directories := aupdate t1.directories dpid.toNat dir3,
                          deletedPages := t1.deletedPages ++ deleted2 })

/-- Driver: perform a sequence of inserts (key = value), collecting each
call's result. -/
def insertAll (t : DiskExtendibleHashTable) (ks : List Nat) :
    Option (List Bool × DiskExtendibleHashTable) :=
  ks.foldlM
    (fun pr k => (insertHT pr.2 k k 20).map (fun r => (pr.1 ++ [r.1], r.2)))
    (([], t) : List Bool × DiskExtendibleHashTable)

/-- The directory invariant of
`ExtendibleHTableDirectoryPage::VerifyIntegrity`
(extendible_htable_directory_page.cpp:219-257): every local depth is at most
the global depth, every valid slot's bucket page is referenced by exactly
2^(GD − LD) slots, and all slots referencing the same bucket page carry the
same local depth. -/
def directoryIntegrity (d : HTableDirectory) : Bool :=
  let n := 2 ^ d.globalDepth
  ((List.range n).all fun i => d.localDepths i ≤ d.globalDepth) &&
  ((List.range n).all fun i =>
    if d.bucketPageIds i = -1 then true
    else
      (((List.range n).filter fun j => d.bucketPageIds j = d.bucketPageIds i).length
          == 2 ^ (d.globalDepth - d.localDepths i)) &&
      ((List.range n).all fun j =>
        d.bucketPageIds j != d.bucketPageIds i || d.localDepths j == d.localDepths i))

/-- C8 (refuted: code bug).  With an identity hash, header depth 0,
directory max depth 3 and bucket capacity 1, the inserts 0, 1, 3, 7, 4 all
return true, and the last one hits the full bucket shared by directory
slots 0 and 4 (local depth 1, global depth 3): the split misroutes the
resident entry for key 0 — `SplitBucket` classifies each rehashed entry by
comparing its full 3-bit directory index (0) with `bucket_idx` (4)
at disk_extendible_hash_table.cpp:431 instead of using the new
discriminating bit (bit 1, which is 0 for both) — so the entry lands in the
new sibling while slot 0 still points at the old bucket, and afterwards
`GetValue(0)` finds nothing even though `Insert(0, 0)` had returned true
(the retried key 4 itself is found). -/
theorem splitBucket_rehash_code_bug :
    (insertAll (DiskExtendibleHashTable.mkTable id 0 3 1) [0, 1, 3, 7, 4]).map
      (fun pr => (pr.1, pr.2.getValue 0, pr.2.getValue 4)) =
    some ([true, true, true, true, true], none, some 4) := by
  rfl

/-- C9 (refuted: code bug).  With an identity hash, header depth 0,
directory max depth 3 and bucket capacity 1, inserting 0, 1, 2, 3 builds a
directory of global depth 2 whose four slots hold distinct buckets of local
depth 2; removing key 1 empties its bucket (page 5), merges it with its
split image (page 3) and deletes page 5, but the redirect pass calls
`UpdateDirectoryMapping(directory, idx, bucket_page_id, local_depth, 0)`
(disk_extendible_hash_table.cpp:348) with `local_depth_mask = 0`, so the
check `(i & mask) == idx` fails for every nonzero idx and slot 1 keeps the
deleted page 5 while only slot 3 points at the surviving bucket: in the
resulting reachable state slot 1's bucket is referenced by 1 ≠ 2^(2−1)
slots (and so is slot 3's), violating the claimed directory invariant. -/
theorem remove_directory_integrity_code_bug :
    ∃ pr t' dir,
      insertAll (DiskExtendibleHashTable.mkTable id 0 3 1) [0, 1, 2, 3] = some pr ∧
      removeHT pr.2 1 = some (true, t') ∧
      alookup t'.directories 1 = some dir ∧
      directoryIntegrity dir = false ∧
      dir.getBucketPageId 1 = 5 ∧
      dir.getLocalDepth 1 = 1 ∧
      ((List.range (2 ^ dir.globalDepth)).filter
        (fun j => dir.bucketPageIds j = dir.bucketPageIds 1)).length = 1 ∧
      t'.deletedPages = [5] := by
  refine ⟨_, _, _, rfl, rfl, rfl, ?_, ?_, ?_, ?_, ?_⟩ <;> rfl

/-! ## B+Tree (src/src/storage/index/b_plus_tree.cpp)

Keys are `Nat` under the standard order (`comparator_(a, b)` is the
three-way comparison), values are `Nat`, page ids are `Int` with `-1` for
`INVALID_PAGE_ID`.  Pages are modelled exactly as the code manipulates
them: fixed arrays (total functions over slot indices, zero-filled on
allocation since a fresh frame is reset) together with the `size_` header
field, so that reads of stale slots beyond `size_` see whatever the array
holds, as in C++.  The implementation file of `BPlusTreePage::GetMinSize`
and of the leaf/internal page accessors is not under src/ (headers only);
the accessors are index reads/writes and, modelled from the spec
(section "min rule"), `GetMinSize` is ⌈max_size/2⌉ and leaf `Init` sets
the next-leaf pointer invalid.  Guards and latches carry no data; deleted
page ids are only recorded, since ids are never reused and `DeletePage` is
called after the page's guard is released.  The unbounded loops (binary
searches, descents, the recursive retry) take fuel; `none` models a fuel
shortage or a fetch of a page absent from the store, neither of which
occurs on the runs below. -/

/-- A leaf page (`BPlusTreeLeafPage`): key and value arrays with the
`size_`, `max_size_` and `next_page_id_` header fields. -/
structure BPTLeaf where
  maxSize : Nat
  size : Nat
  keys : Nat → Nat
  vals : Nat → Nat
  next : Int

/-- An internal page (`BPlusTreeInternalPage`): `size_` counts children;
`keys 0` is unused. -/
structure BPTInternal where
  maxSize : Nat
  size : Nat
  keys : Nat → Nat
  childs : Nat → Int

/-- A B+Tree page. -/
inductive BPTPage where
  | leaf : BPTLeaf → BPTPage
  | internal : BPTInternal → BPTPage

/-- `BPlusTreePage::GetMinSize`, modelled from the spec: ⌈max_size/2⌉. -/
def bptMinSize (maxSize : Nat) : Nat := (maxSize + 1) / 2

/-- The whole-tree state: the header page's root pointer, the page store,
the buffer pool's id counter and the constructor parameters. -/
structure BPlusTree where
  leafMaxSize : Nat
  internalMaxSize : Nat
  rootPageId : Int
  pages : List (Nat × BPTPage)
  deletedPages : List Nat
  nextPageId : Nat

/-- The `BPlusTree` constructor (b_plus_tree.cpp:15-27): an empty header. -/
def BPlusTree.mkTree (leafMaxSize internalMaxSize : Nat) : BPlusTree :=
  { leafMaxSize := leafMaxSize, internalMaxSize := internalMaxSize,
    rootPageId := -1, pages := [], deletedPages := [], nextPageId := 1 }

/-- `BPlusTree::KeyBinarySearch`, leaf branch (b_plus_tree.cpp:839-853):
find the index holding the key, `-1` if absent. -/
def kbsLeafGo (l : BPTLeaf) (key : Nat) : Nat → Int → Int → Int
  | 0, _, _ => -1
  | fuel + 1, left, right =>
    if left ≤ right then
      let mid := left + (right - left) / 2
      if key = l.keys mid.toNat then mid
      else if key < l.keys mid.toNat then kbsLeafGo l key fuel left (mid - 1)
      else kbsLeafGo l key fuel (mid + 1) right
    else -1

def keyBinarySearchLeaf (l : BPTLeaf) (key : Nat) : Int :=
  kbsLeafGo l key (l.size + 2) 0 ((l.size : Int) - 1)

/-- `BPlusTree::KeyBinarySearch`, internal branch (b_plus_tree.cpp:854-876):
the child slot whose subtree covers the key. -/
def kbsInternalGo (p : BPTInternal) (key : Nat) : Nat → Int → Int → Int
  | 0, _, _ => -1
  | fuel + 1, left, right =>
    if left ≤ right then
      let mid := left + (right - left) / 2
      if p.keys mid.toNat ≤ key then
        if mid + 1 ≥ (p.size : Int) ∨ key < p.keys (mid.toNat + 1) then mid
        else kbsInternalGo p key fuel (mid + 1) right
      else kbsInternalGo p key fuel left (mid - 1)
    else -1

def keyBinarySearchInternal (p : BPTInternal) (key : Nat) : Int :=
  if key < p.keys 1 then 0
  else kbsInternalGo p key (p.size + 2) 1 ((p.size : Int) - 1)

/-- `BPlusTree::IndexBinarySearchLeaf` (b_plus_tree.cpp:879-903): the
insertion slot for the key, `-1` when the search falls through (which
happens exactly when the key equals an existing key at or before the probe
path, in particular a duplicate of the smallest key). -/
def ibsLeafGo (l : BPTLeaf) (key : Nat) : Nat → Int → Int → Int
  | 0, _, _ => -1
  | fuel + 1, left, right =>
    if left ≤ right then
      let mid := left + (right - left) / 2
      if l.keys mid.toNat < key then
        if mid + 1 ≥ (l.size : Int) ∨ key ≤ l.keys (mid.toNat + 1) then mid + 1
        else ibsLeafGo l key fuel (mid + 1) right
      else ibsLeafGo l key fuel left (mid - 1)
    else -1

def indexBinarySearchLeaf (l : BPTLeaf) (key : Nat) : Int :=
  if key < l.keys 0 then 0
  else ibsLeafGo l key (l.size + 2) 0 ((l.size : Int) - 1)

/-- The in-place leaf insertion loop (b_plus_tree.cpp:193-199, 261-267):
slots above `idx` shift up one, the new pair lands at `idx`. -/
def leafInsertAt (l : BPTLeaf) (idx : Nat) (key v : Nat) : BPTLeaf :=
  { l with
    size := l.size + 1,
    keys := fun j => if j = idx then key
      else if idx < j ∧ j ≤ l.size then l.keys (j - 1) else l.keys j,
    vals := fun j => if j = idx then v
      else if idx < j ∧ j ≤ l.size then l.vals (j - 1) else l.vals j }

/-- The in-place leaf deletion loop (b_plus_tree.cpp:554-558, 615-619):
slots above `idx` shift down one; the last slot keeps its stale content. -/
def leafDeleteAt (l : BPTLeaf) (idx : Nat) : BPTLeaf :=
  { l with
    size := l.size - 1,
    keys := fun j => if idx ≤ j ∧ j + 1 < l.size then l.keys (j + 1) else l.keys j,
    vals := fun j => if idx ≤ j ∧ j + 1 < l.size then l.vals (j + 1) else l.vals j }

/-- The leaf split block of the pessimistic insert
(b_plus_tree.cpp:276-334) on the fetched full leaf: the new right sibling
page is zero-filled before its `Init`; returns the updated left leaf, the
new right leaf, and the key passed upward (the sibling's first key, read
after the copy). -/
def leafSplitStep (leafMaxSize : Nat) (l : BPTLeaf) (insertIndex : Nat)
    (key v : Nat) (newLeafPageId : Int) : BPTLeaf × BPTLeaf × Nat :=
  let leftSize := (l.size + 2) / 2
  let rightSize := l.size + 1 - leftSize
  let base : BPTLeaf :=
    { maxSize := leafMaxSize, size := rightSize,
      keys := fun _ => 0, vals := fun _ => 0, next := l.next }
  let left0 : BPTLeaf := { l with size := leftSize, next := newLeafPageId }
  if insertIndex < leftSize then
    let right : BPTLeaf := { base with
      keys := fun i => if i < rightSize then l.keys (leftSize + i - 1) else 0,
      vals := fun i => if i < rightSize then l.vals (leftSize + i - 1) else 0 }
    let left : BPTLeaf := { left0 with
      keys := fun j => if j = insertIndex then key
        else if insertIndex < j ∧ j ≤ leftSize - 1 then l.keys (j - 1) else l.keys j,
      vals := fun j => if j = insertIndex then v
        else if insertIndex < j ∧ j ≤ leftSize - 1 then l.vals (j - 1) else l.vals j }
    (left, right, right.keys 0)
  else
    let right : BPTLeaf := { base with
      keys := fun i =>
        if i < insertIndex - leftSize then l.keys (i + leftSize)
        else if i = insertIndex - leftSize then key
        else if i < rightSize then l.keys (leftSize + i - 1) else 0,
      vals := fun i =>
        if i < insertIndex - leftSize then l.vals (i + leftSize)
        else if i = insertIndex - leftSize then v
        else if i < rightSize then l.vals (leftSize + i - 1) else 0 }
    (left0, right, right.keys 0)

/-- The direct internal insertion of the upward loop
(b_plus_tree.cpp:345-351): slots above `idx` shift up, the new separator
and child land at `idx` (always ≥ 1). -/
def internalInsertAt (p : BPTInternal) (idx : Nat) (key : Nat) (child : Int) :
    BPTInternal :=
  { p with
    size := p.size + 1,
    keys := fun j => if j = idx then key
      else if idx < j ∧ j ≤ p.size then p.keys (j - 1) else p.keys j,
    childs := fun j => if j = idx then child
      else if idx < j ∧ j ≤ p.size then p.childs (j - 1) else p.childs j }

/-- The internal split block of the upward loop (b_plus_tree.cpp:361-444)
on the fetched full internal page: returns the updated left page, the new
right page (zero-filled before the copy; its `keys 0` is never written),
and the separator passed upward. -/
def internalSplitStep (internalMaxSize : Nat) (p : BPTInternal)
    (insertIndex : Nat) (key : Nat) (child : Int) :
    BPTInternal × BPTInternal × Nat :=
  let leftSize := (p.size + 2) / 2
  let rightSize := p.size + 1 - leftSize
  let base : BPTInternal :=
    { maxSize := internalMaxSize, size := rightSize,
      keys := fun _ => 0, childs := fun _ => 0 }
  if insertIndex < leftSize then
    let midKey := p.keys (leftSize - 1)
    let right : BPTInternal := { base with
      keys := fun i => if 0 < i ∧ i < rightSize then p.keys (leftSize + i - 1) else 0,
      childs := fun i => if i < rightSize then p.childs (leftSize + i - 1) else 0 }
    let left : BPTInternal := { p with
      size := leftSize,
      keys := fun j => if j = insertIndex then key
        else if insertIndex < j ∧ j ≤ leftSize - 1 then p.keys (j - 1) else p.keys j,
      childs := fun j => if j = insertIndex then child
        else if insertIndex < j ∧ j ≤ leftSize - 1 then p.childs (j - 1) else p.childs j }
    (left, right, midKey)
  else
    let midKey := if leftSize < insertIndex then p.keys leftSize else key
    let right : BPTInternal := { base with
      keys := fun i =>
        if 0 < i ∧ i < insertIndex - leftSize then p.keys (i + leftSize)
        else if i = insertIndex - leftSize ∧ leftSize < insertIndex then key
        else if insertIndex - leftSize < i ∧ i < rightSize then p.keys (leftSize + i - 1)
        else 0,
      childs := fun i =>
        if i < insertIndex - leftSize then p.childs (i + leftSize)
        else if i = insertIndex - leftSize then child
        else if i < rightSize then p.childs (leftSize + i - 1) else 0 }
    ({ p with size := leftSize }, right, midKey)

/-- Size and max-size of either page kind (`GetSize`/`GetMaxSize`). -/
def BPTPage.size : BPTPage → Nat
  | .leaf l => l.size
  | .internal p => p.size

def BPTPage.maxSize : BPTPage → Nat
  | .leaf l => l.maxSize
  | .internal p => p.maxSize

/-- `BPlusTree::GetValue` (b_plus_tree.cpp:47-86); the outer `Option` is
the model abort (missing page or fuel), the inner one the lookup result. -/
def getValueGo (t : BPlusTree) (key : Nat) : Nat → Int → Option (Option Nat)
  | 0, _ => none
  | fuel + 1, pid =>
    match alookup t.pages pid.toNat with
    | none => none
    | some (BPTPage.leaf l) =>
      let idx := keyBinarySearchLeaf l key
      if idx = -1 then some none else some (some (l.vals idx.toNat))
    | some (BPTPage.internal p) =>
      let idx := keyBinarySearchInternal p key
      if idx = -1 then some none
      else getValueGo t key fuel (p.childs idx.toNat)

def BPlusTree.getValue (t : BPlusTree) (key : Nat) : Option (Option Nat) :=
  if t.rootPageId = -1 then some none
  else getValueGo t key (t.pages.length + 1) t.rootPageId

/-- The root-to-leaf read descent shared by the optimistic phases of
`Insert` and `Remove` (b_plus_tree.cpp:139-170, 510-540): the reached
leaf's page id and content, or inner `none` for the early `-1` return of
the internal search. -/
def findLeafGo (t : BPlusTree) (key : Nat) : Nat → Int → Option (Option (Nat × BPTLeaf))
  | 0, _ => none
  | fuel + 1, pid =>
    match alookup t.pages pid.toNat with
    | none => none
    | some (BPTPage.leaf l) => some (some (pid.toNat, l))
    | some (BPTPage.internal p) =>
      let idx := keyBinarySearchInternal p key
      if idx = -1 then some none
      else findLeafGo t key fuel (p.childs idx.toNat)

/-- The pessimistic write descent (b_plus_tree.cpp:213-245, 572-604):
collect the latched stack (head = deepest) and the per-level child indices
(head = deepest), releasing all ancestors whenever the freshly pushed child
is safe for the operation (`safe` is size < max for insert, size > min for
delete).  Returns the stacks; the reached leaf sits at the stack head. -/
def pessDescendGo (t : BPlusTree) (key : Nat) (safe : BPTPage → Bool) :
    Nat → Int → List Nat → List Nat → Option (Option (List Nat × List Nat))
  | 0, _, _, _ => none
  | fuel + 1, pid, ws, idxs =>
    match alookup t.pages pid.toNat with
    | none => none
    | some (BPTPage.leaf _) => some (some (ws, idxs))
    | some (BPTPage.internal p) =>
      let idx := keyBinarySearchInternal p key
      if idx = -1 then some none
      else
        let childPid := p.childs idx.toNat
        match alookup t.pages childPid.toNat with
        | none => none
        | some child =>
          let ws1 := childPid.toNat :: ws
          let ws2 := if safe child then [childPid.toNat] else ws1
          pessDescendGo t key safe fuel childPid ws2 (idx.toNat :: idxs)

/-- The upward split-propagation loop of the pessimistic insert
(b_plus_tree.cpp:338-451), driven by the recorded indices: a non-full
ancestor absorbs the pair and stops; a full one splits and passes its
separator and new page upward.  Returns the page store, the id counter,
whether a new root is needed, and the final separator and page id. -/
def insUpwardGo (internalMaxSize : Nat) :
    Nat → List (Nat × BPTPage) → List Nat → List Nat → Nat → Int → Nat →
    Option (List (Nat × BPTPage) × Nat × Bool × Nat × Int)
  | 0, _, _, _, _, _, _ => none
  | _ + 1, pages, _, [], newKey, secondPid, nextPid =>
    some (pages, nextPid, true, newKey, secondPid)
  | fuel + 1, pages, ws, idx :: idxsT, newKey, secondPid, nextPid =>
    match ws with
    | [] => none
    | parentPid :: wsT =>
      match alookup pages parentPid with
      | some (BPTPage.internal p) =>
        let insertIndex := idx + 1
        if p.size < p.maxSize then
          some (aupdate pages parentPid
              (BPTPage.internal (internalInsertAt p insertIndex newKey secondPid)),
            nextPid, false, newKey, secondPid)
        else
          let st := internalSplitStep internalMaxSize p insertIndex newKey secondPid
          insUpwardGo internalMaxSize fuel
            (aupdate (aupdate pages parentPid (BPTPage.internal st.1))
              nextPid (BPTPage.internal st.2.1))
            wsT idxsT st.2.2 (nextPid : Int) (nextPid + 1)
      | _ => none

/-- `BPlusTree::Insert` (b_plus_tree.cpp:98-479). -/
def BPlusTree.insert (t : BPlusTree) (key v : Nat) : Option (Bool × BPlusTree) :=
  if t.rootPageId = -1 then
    let pid := t.nextPageId
    let root : BPTLeaf := { maxSize := t.leafMaxSize, size := 1,
                            keys := fun j => if j = 0 then key else 0,
                            vals := fun j => if j = 0 then v else 0, next := -1 }
    some (true, { t with rootPageId := (pid : Int), nextPageId := pid + 1,
                         pages := aupdate t.pages pid (BPTPage.leaf root) })
  else
    match findLeafGo t key (t.pages.length + 1) t.rootPageId with
    | none => none
    | some none => some (false, t)
    | some (some (leafPid, l)) =>
      if l.size < l.maxSize then
        let idx := indexBinarySearchLeaf l key
        if idx = -1 then some (false, t)
        else if l.keys idx.toNat = key then some (false, t)
        else some (true, { t with
          pages := aupdate t.pages leafPid
            (BPTPage.leaf (leafInsertAt l idx.toNat key v)) })
      else
        match pessDescendGo t key (fun pg => pg.size < pg.maxSize)
            (t.pages.length + 1) t.rootPageId [t.rootPageId.toNat] [] with
        | none => none
        | some none => some (false, t)
        | some (some (ws, idxs)) =>
          match ws with
          | [] => none
          | leafPid2 :: wsT =>
            match alookup t.pages leafPid2 with
            | some (BPTPage.leaf l2) =>
              let insertIndex := indexBinarySearchLeaf l2 key
              if insertIndex = -1 then some (false, t)
              else if l2.keys insertIndex.toNat = key then some (false, t)
              else if l2.size < l2.maxSize then
                some (true, { t with
                  pages := aupdate t.pages leafPid2
                    (BPTPage.leaf (leafInsertAt l2 insertIndex.toNat key v)) })
              else
                let newLeafPid := t.nextPageId
                let st := leafSplitStep t.leafMaxSize l2 insertIndex.toNat key v
                  (newLeafPid : Int)
                let pages1 := aupdate (aupdate t.pages leafPid2 (BPTPage.leaf st.1))
                  newLeafPid (BPTPage.leaf st.2.1)
                match insUpwardGo t.internalMaxSize (idxs.length + 1) pages1 wsT idxs
                    st.2.2 (newLeafPid : Int) (newLeafPid + 1) with
                | none => none
                | some (pages2, nextPid2, newRootFlag, newKey2, secondPid2) =>
                  if newRootFlag then
                    let newRoot : BPTInternal :=
                      { maxSize := t.internalMaxSize, size := 2,
                        keys := fun j => if j = 1 then newKey2 else 0,
                        childs := fun j => if j = 0 then t.rootPageId
                          else if j = 1 then secondPid2 else 0 }
                    some (true, { t with
                      rootPageId := (nextPid2 : Int),
                      nextPageId := nextPid2 + 1,
                      pages := aupdate pages2 nextPid2 (BPTPage.internal newRoot) })
                  else
                    some (true, { t with pages := pages2, nextPageId := nextPid2 })
            | _ => none

/-- The parent shift-down shared by the merge helpers
(b_plus_tree.cpp:1057-1062, 1109-1114): drop the separator and child at
`idx`; the last slot keeps its stale content. -/
def internalDeleteAt (p : BPTInternal) (idx : Nat) : BPTInternal :=
  { p with
    size := p.size - 1,
    keys := fun j => if idx ≤ j ∧ j + 1 < p.size then p.keys (j + 1) else p.keys j,
    childs := fun j => if idx ≤ j ∧ j + 1 < p.size then p.childs (j + 1) else p.childs j }

/-- `BPlusTree::BorrowFromLeftSibling`, leaf branch
(b_plus_tree.cpp:914-931). -/
def borrowFromLeftSiblingLeaf (now left : BPTLeaf) (parent : BPTInternal)
    (index : Nat) : BPTLeaf × BPTLeaf × BPTInternal :=
  let now2 : BPTLeaf := { now with
    size := now.size + 1,
    keys := fun j => if j = 0 then left.keys (left.size - 1)
      else if j ≤ now.size then now.keys (j - 1) else now.keys j,
    vals := fun j => if j = 0 then left.vals (left.size - 1)
      else if j ≤ now.size then now.vals (j - 1) else now.vals j }
  let left2 : BPTLeaf := { left with size := left.size - 1 }
  let parent2 : BPTInternal := { parent with
    keys := fun j => if j = index then now2.keys 0 else parent.keys j }
  (now2, left2, parent2)

/-- `BPlusTree::BorrowFromLeftSibling`, internal branch
(b_plus_tree.cpp:932-952): the parent separator rotates down, the left
sibling's last key rotates up. -/
def borrowFromLeftSiblingInternal (now left parent : BPTInternal)
    (index : Nat) : BPTInternal × BPTInternal × BPTInternal :=
  let now2 : BPTInternal := { now with
    size := now.size + 1,
    keys := fun j => if j = 1 then parent.keys index
      else if 2 ≤ j ∧ j ≤ now.size then now.keys (j - 1) else now.keys j,
    childs := fun j => if j = 0 then left.childs (left.size - 1)
      else if j ≤ now.size then now.childs (j - 1) else now.childs j }
  let parent2 : BPTInternal := { parent with
    keys := fun j => if j = index then left.keys (left.size - 1) else parent.keys j }
  let left2 : BPTInternal := { left with size := left.size - 1 }
  (now2, left2, parent2)

/-- `BPlusTree::BorrowFromRightSibling`, leaf branch
(b_plus_tree.cpp:964-983); the parent separator is read from the right
sibling after its shift. -/
def borrowFromRightSiblingLeaf (now right : BPTLeaf) (parent : BPTInternal)
    (index : Nat) : BPTLeaf × BPTLeaf × BPTInternal :=
  let now2 : BPTLeaf := { now with
    size := now.size + 1,
    keys := fun j => if j = now.size then right.keys 0 else now.keys j,
    vals := fun j => if j = now.size then right.vals 0 else now.vals j }
  let right2 : BPTLeaf := { right with
    size := right.size - 1,
    keys := fun j => if j + 1 < right.size then right.keys (j + 1) else right.keys j,
    vals := fun j => if j + 1 < right.size then right.vals (j + 1) else right.vals j }
  let parent2 : BPTInternal := { parent with
    keys := fun j => if j = index + 1 then right2.keys 0 else parent.keys j }
  (now2, right2, parent2)

/-- `BPlusTree::BorrowFromRightSibling`, internal branch
(b_plus_tree.cpp:984-1007); the new parent separator is the right
sibling's first key read before its shift, and the shift loop also copies
the stale slot one past the old size. -/
def borrowFromRightSiblingInternal (now right parent : BPTInternal)
    (index : Nat) : BPTInternal × BPTInternal × BPTInternal :=
  let now2 : BPTInternal := { now with
    size := now.size + 1,
    keys := fun j => if j = now.size then parent.keys (index + 1) else now.keys j,
    childs := fun j => if j = now.size then right.childs 0 else now.childs j }
  let parent2 : BPTInternal := { parent with
    keys := fun j => if j = index + 1 then right.keys 1 else parent.keys j }
  let right2 : BPTInternal := { right with
    size := right.size - 1,
    keys := fun j => if 1 ≤ j ∧ j < right.size then right.keys (j + 1) else right.keys j,
    childs := fun j => if j < right.size then right.childs (j + 1) else right.childs j }
  (now2, right2, parent2)

/-- `BPlusTree::MergeWithLeftSibling`, leaf branch
(b_plus_tree.cpp:1019-1033, 1056-1062): the current page's entries append
to the left sibling, which inherits the next pointer; the parent drops the
slot at `index`. -/
def mergeWithLeftSiblingLeaf (now left : BPTLeaf) (parent : BPTInternal)
    (index : Nat) : BPTLeaf × BPTInternal :=
  let left2 : BPTLeaf := { left with
    size := left.size + now.size,
    next := now.next,
    keys := fun j => if left.size ≤ j ∧ j < left.size + now.size then
        now.keys (j - left.size) else left.keys j,
    vals := fun j => if left.size ≤ j ∧ j < left.size + now.size then
        now.vals (j - left.size) else left.vals j }
  (left2, internalDeleteAt parent index)

/-- `BPlusTree::MergeWithLeftSibling`, internal branch
(b_plus_tree.cpp:1035-1054, 1056-1062): the parent separator at `index`
descends between the two pages. -/
def mergeWithLeftSiblingInternal (now left parent : BPTInternal)
    (index : Nat) : BPTInternal × BPTInternal :=
  let left2 : BPTInternal := { left with
    size := left.size + now.size,
    keys := fun j => if j = left.size then parent.keys index
      else if left.size < j ∧ j < left.size + now.size then now.keys (j - left.size)
      else left.keys j,
    childs := fun j => if left.size ≤ j ∧ j < left.size + now.size then
        now.childs (j - left.size) else left.childs j }
  (left2, internalDeleteAt parent index)

/-- `BPlusTree::MergeWithRightSibling`, leaf branch
(b_plus_tree.cpp:1075-1086, 1108-1114). -/
def mergeWithRightSiblingLeaf (now right : BPTLeaf) (parent : BPTInternal)
    (index : Nat) : BPTLeaf × BPTInternal :=
  let now2 : BPTLeaf := { now with
    size := now.size + right.size,
    next := right.next,
    keys := fun j => if now.size ≤ j ∧ j < now.size + right.size then
        right.keys (j - now.size) else now.keys j,
    vals := fun j => if now.size ≤ j ∧ j < now.size + right.size then
        right.vals (j - now.size) else now.vals j }
  (now2, internalDeleteAt parent (index + 1))

/-- `BPlusTree::MergeWithRightSibling`, internal branch
(b_plus_tree.cpp:1087-1106, 1108-1114). -/
def mergeWithRightSiblingInternal (now right parent : BPTInternal)
    (index : Nat) : BPTInternal × BPTInternal :=
  let now2 : BPTInternal := { now with
    size := now.size + right.size,
    keys := fun j => if j = now.size then parent.keys (index + 1)
      else if now.size < j ∧ j < now.size + right.size then right.keys (j - now.size)
      else now.keys j,
    childs := fun j => if now.size ≤ j ∧ j < now.size + right.size then
        right.childs (j - now.size) else now.childs j }
  (now2, internalDeleteAt parent (index + 1))

/-- One non-root, under-min level of the removal fix-up loop
(b_plus_tree.cpp:658-720): try borrowing from the left then the right
sibling (either ends the walk, `none` in the second component), else merge
with the left sibling if one exists and the right one otherwise (the walk
continues; the second component carries the deleted page id and the
surviving page id recorded in `pe_now_page_id`). -/
def rmLevel (pages : List (Nat × BPTPage)) (nowPid parentPid index : Nat)
    (nowPage : BPTPage) (parent : BPTInternal) :
    Option (List (Nat × BPTPage) × Option (Nat × Nat)) :=
  let mergeStep : Option (List (Nat × BPTPage) × Option (Nat × Nat)) :=
    if 0 < index then
      let leftPid := (parent.childs (index - 1)).toNat
      match alookup pages leftPid with
      | none => none
      | some leftPage =>
        match nowPage, leftPage with
        | BPTPage.leaf n, BPTPage.leaf l =>
          let r := mergeWithLeftSiblingLeaf n l parent index
          some (aupdate (aupdate pages leftPid (BPTPage.leaf r.1)) parentPid
            (BPTPage.internal r.2), some (nowPid, leftPid))
        | BPTPage.internal n, BPTPage.internal l =>
          let r := mergeWithLeftSiblingInternal n l parent index
          some (aupdate (aupdate pages leftPid (BPTPage.internal r.1)) parentPid
            (BPTPage.internal r.2), some (nowPid, leftPid))
        | _, _ => none
    else
      let rightPid := (parent.childs (index + 1)).toNat
      match alookup pages rightPid with
      | none => none
      | some rightPage =>
        match nowPage, rightPage with
        | BPTPage.leaf n, BPTPage.leaf rp =>
          let r := mergeWithRightSiblingLeaf n rp parent index
          some (aupdate (aupdate pages nowPid (BPTPage.leaf r.1)) parentPid
            (BPTPage.internal r.2), some (rightPid, nowPid))
        | BPTPage.internal n, BPTPage.internal rp =>
          let r := mergeWithRightSiblingInternal n rp parent index
          some (aupdate (aupdate pages nowPid (BPTPage.internal r.1)) parentPid
            (BPTPage.internal r.2), some (rightPid, nowPid))
        | _, _ => none
  let rightBorrow : Option (List (Nat × BPTPage) × Option (Nat × Nat)) :=
    if index < parent.size - 1 then
      let rightPid := (parent.childs (index + 1)).toNat
      match alookup pages rightPid with
      | none => none
      | some rightPage =>
        if bptMinSize rightPage.maxSize < rightPage.size then
          match nowPage, rightPage with
          | BPTPage.leaf n, BPTPage.leaf rp =>
            let r := borrowFromRightSiblingLeaf n rp parent index
            some (aupdate (aupdate (aupdate pages nowPid (BPTPage.leaf r.1))
              rightPid (BPTPage.leaf r.2.1)) parentPid (BPTPage.internal r.2.2), none)
          | BPTPage.internal n, BPTPage.internal rp =>
            let r := borrowFromRightSiblingInternal n rp parent index
            some (aupdate (aupdate (aupdate pages nowPid (BPTPage.internal r.1))
              rightPid (BPTPage.internal r.2.1)) parentPid (BPTPage.internal r.2.2), none)
          | _, _ => none
        else mergeStep
    else mergeStep
  if 0 < index then
    let leftPid := (parent.childs (index - 1)).toNat
    match alookup pages leftPid with
    | none => none
    | some leftPage =>
      if bptMinSize leftPage.maxSize < leftPage.size then
        match nowPage, leftPage with
        | BPTPage.leaf n, BPTPage.leaf l =>
          let r := borrowFromLeftSiblingLeaf n l parent index
          some (aupdate (aupdate (aupdate pages nowPid (BPTPage.leaf r.1))
            leftPid (BPTPage.leaf r.2.1)) parentPid (BPTPage.internal r.2.2), none)
        | BPTPage.internal n, BPTPage.internal l =>
          let r := borrowFromLeftSiblingInternal n l parent index
          some (aupdate (aupdate (aupdate pages nowPid (BPTPage.internal r.1))
            leftPid (BPTPage.internal r.2.1)) parentPid (BPTPage.internal r.2.2), none)
        | _, _ => none
      else rightBorrow
  else rightBorrow

/-- The removal fix-up walk (b_plus_tree.cpp:628-725): root handling,
early exit at a no-longer-deficient page, borrow/merge per level.  Returns
the page store, the pages deleted, and the (possibly updated) root page
id. -/
def rmFixupGo (rootPid : Int) :
    Nat → List (Nat × BPTPage) → List Nat → List Nat → List Nat → Int →
    Option (List (Nat × BPTPage) × List Nat × Int)
  | 0, _, _, _, _, _ => none
  | fuel + 1, pages, deleted, ws, idxs, peNow =>
    match ws with
    | [] => some (pages, deleted, rootPid)
    | nowPid :: wsT =>
      match alookup pages nowPid with
      | none => none
      | some nowPage =>
        if (nowPid : Int) = rootPid then
          match nowPage with
          | BPTPage.leaf l =>
            if l.size = 0 then some (pages, deleted, -1)
            else some (pages, deleted, rootPid)
          | BPTPage.internal p =>
            if p.size ≤ 1 then some (pages, deleted ++ [nowPid], peNow)
            else some (pages, deleted, rootPid)
        else if bptMinSize nowPage.maxSize ≤ nowPage.size then
          some (pages, deleted, rootPid)
        else
          match wsT, idxs with
          | parentPid :: _, index :: idxsT =>
            match alookup pages parentPid with
            | some (BPTPage.internal parent) =>
              match rmLevel pages nowPid parentPid index nowPage parent with
              | none => none
              | some (pages2, none) => some (pages2, deleted, rootPid)
              | some (pages2, some pr) =>
                rmFixupGo rootPid fuel pages2 (deleted ++ [pr.1]) wsT idxsT (pr.2 : Int)
            | _ => none
          | _, _ => none

/-- `BPlusTree::Remove` (b_plus_tree.cpp:492-726); `Remove` returns no
value, so the result is the updated tree. -/
def BPlusTree.remove (t : BPlusTree) (key : Nat) : Option BPlusTree :=
  if t.rootPageId = -1 then some t
  else
    match findLeafGo t key (t.pages.length + 1) t.rootPageId with
    | none => none
    | some none => some t
    | some (some (leafPid, l)) =>
      if bptMinSize l.maxSize < l.size then
        let idx := keyBinarySearchLeaf l key
        if idx = -1 then some t
        else some { t with
          pages := aupdate t.pages leafPid (BPTPage.leaf (leafDeleteAt l idx.toNat)) }
      else
        match pessDescendGo t key (fun pg => bptMinSize pg.maxSize < pg.size)
            (t.pages.length + 1) t.rootPageId [t.rootPageId.toNat] [] with
        | none => none
        | some none => some t
        | some (some (ws, idxs)) =>
          match ws with
          | [] => none
          | leafPid2 :: _ =>
            match alookup t.pages leafPid2 with
            | some (BPTPage.leaf l2) =>
              let didx := keyBinarySearchLeaf l2 key
              if didx = -1 then some t
              else
                let pages1 := aupdate t.pages leafPid2
                  (BPTPage.leaf (leafDeleteAt l2 didx.toNat))
                match rmFixupGo t.rootPageId (ws.length + 1) pages1 [] ws idxs (-1) with
                | none => none
                | some (pages2, deleted2, root2) =>
                  some { t with pages := pages2,
                                deletedPages := t.deletedPages ++ deleted2,
                                rootPageId := root2 }
            | _ => none

/-- The occupied slots of a leaf, in slot order. -/
def BPTLeaf.toList (l : BPTLeaf) : List (Nat × Nat) :=
  (List.range l.size).map (fun i => (l.keys i, l.vals i))

/-- Insertion into a list at a position. -/
def listInsertAt {α : Type} (xs : List α) (n : Nat) (a : α) : List α :=
  xs.take n ++ a :: xs.drop n

theorem toList_length (l : BPTLeaf) : l.toList.length = l.size := by
  simp [BPTLeaf.toList]

theorem toList_getElem (l : BPTLeaf) (i : Nat) (h : i < l.toList.length) :
    l.toList[i] = (l.keys i, l.vals i) := by
  simp [BPTLeaf.toList]

theorem listInsertAt_length {α : Type} (xs : List α) (n : Nat) (a : α)
    (h : n ≤ xs.length) : (listInsertAt xs n a).length = xs.length + 1 := by
  simp [listInsertAt]
  omega

theorem listInsertAt_get_lt {α : Type} (xs : List α) (n : Nat) (a : α) (j : Nat)
    (hj : j < n) (hn : n ≤ xs.length) (h : j < (listInsertAt xs n a).length)
    (h2 : j < xs.length) : (listInsertAt xs n a)[j] = xs[j] := by
  unfold listInsertAt
  rw [List.getElem_append_left (by simp; omega)]
  simp

theorem listInsertAt_get_eq {α : Type} (xs : List α) (n : Nat) (a : α)
    (hn : n ≤ xs.length) (h : n < (listInsertAt xs n a).length) :
    (listInsertAt xs n a)[n] = a := by
  unfold listInsertAt
  rw [List.getElem_append_right (by simp)]
  simp [Nat.min_eq_left hn]

theorem listInsertAt_get_gt {α : Type} (xs : List α) (n : Nat) (a : α) (j : Nat)
    (hj : n < j) (hn : n ≤ xs.length) (h : j < (listInsertAt xs n a).length)
    (h2 : j - 1 < xs.length) : (listInsertAt xs n a)[j] = xs[j - 1] := by
  unfold listInsertAt
  rw [List.getElem_append_right (by simp; omega)]
  have hmin : (xs.take n).length = n := by simp; omega
  rw [List.getElem_cons]
  rw [dif_neg (by omega)]
  rw [List.getElem_drop]
  congr 1
  omega

/-- C7. Leaf split policy: when the pessimistic insert reaches a full leaf
(`size = max_size > 0`) with a fresh key whose insertion slot is
`insertIndex`, the split block (b_plus_tree.cpp:276-334) leaves the
ceil-half `⌈(max_size+1)/2⌉ = (max_size+2)/2` of the `max_size+1` resulting
entries — the old entries with the new pair at its slot, which are in
strictly increasing key order — in the original leaf and moves the rest to
the newly allocated right sibling; the original leaf's next pointer is set
to the sibling's page id and the sibling inherits the old next pointer; and
the key passed upward is the sibling's first key, which a non-full parent
absorbs right of the child's slot paired with the sibling's page id
(b_plus_tree.cpp:338-357). -/
theorem leafSplit_spec (lm : Nat) (l : BPTLeaf) (insertIndex key v : Nat) (newPid : Int)
    (hmax : 0 < l.maxSize)
    (hfull : l.size = l.maxSize)
    (hle : insertIndex ≤ l.size)
    (hlow : ∀ j, j < insertIndex → l.keys j < key)
    (hhigh : ∀ j, insertIndex ≤ j → j < l.size → key < l.keys j)
    (hsorted : ∀ i j, i < j → j < l.size → l.keys i < l.keys j) :
    (leafSplitStep lm l insertIndex key v newPid).1.toList =
      (listInsertAt l.toList insertIndex (key, v)).take ((l.maxSize + 2) / 2) ∧
    (leafSplitStep lm l insertIndex key v newPid).2.1.toList =
      (listInsertAt l.toList insertIndex (key, v)).drop ((l.maxSize + 2) / 2) ∧
    (leafSplitStep lm l insertIndex key v newPid).1.next = newPid ∧
    (leafSplitStep lm l insertIndex key v newPid).2.1.next = l.next ∧
    (∀ d : Nat × Nat, (leafSplitStep lm l insertIndex key v newPid).2.2 =
      (((listInsertAt l.toList insertIndex (key, v)).drop
        ((l.maxSize + 2) / 2)).headD d).1) ∧
    List.Pairwise (fun a b : Nat × Nat => a.1 < b.1)
      (listInsertAt l.toList insertIndex (key, v)) ∧
    (∀ (im fuel : Nat) (pages : List (Nat × BPTPage)) (parentPid : Nat)
        (wsT : List Nat) (idx : Nat) (idxsT : List Nat) (p : BPTInternal)
        (nextPid : Nat),
      alookup pages parentPid = some (BPTPage.internal p) → p.size < p.maxSize →
      insUpwardGo im (fuel + 1) pages (parentPid :: wsT) (idx :: idxsT)
          (leafSplitStep lm l insertIndex key v newPid).2.2 newPid nextPid =
        some (aupdate pages parentPid (BPTPage.internal (internalInsertAt p (idx + 1)
            (leafSplitStep lm l insertIndex key v newPid).2.2 newPid)),
          nextPid, false, (leafSplitStep lm l insertIndex key v newPid).2.2, newPid)) := by
  have hlen : l.toList.length = l.size := toList_length l
  have hmlen : (listInsertAt l.toList insertIndex (key, v)).length = l.size + 1 := by
    rw [listInsertAt_length _ _ _ (by omega)]
    omega
  have hls : (l.maxSize + 2) / 2 = (l.size + 2) / 2 := by rw [hfull]
  have hlsle : (l.size + 2) / 2 ≤ l.size := by omega
  have hlspos : 0 < (l.size + 2) / 2 := by omega
  have hmget : ∀ i (h : i < (listInsertAt l.toList insertIndex (key, v)).length),
      (listInsertAt l.toList insertIndex (key, v))[i] =
        if i < insertIndex then (l.keys i, l.vals i)
        else if i = insertIndex then (key, v)
        else (l.keys (i - 1), l.vals (i - 1)) := by
    intro i h
    by_cases h1 : i < insertIndex
    · rw [if_pos h1]
      rw [listInsertAt_get_lt _ _ _ _ h1 (by omega) (by omega) (by omega)]
      exact toList_getElem l i (by omega)
    · rw [if_neg h1]
      by_cases h2 : i = insertIndex
      · rw [if_pos h2]
        subst h2
        exact listInsertAt_get_eq _ _ _ (by omega) (by omega)
      · rw [if_neg h2]
        rw [listInsertAt_get_gt _ _ _ _ (by omega) (by omega) (by omega) (by omega)]
        exact toList_getElem l (i - 1) (by omega)
  have h1 : (leafSplitStep lm l insertIndex key v newPid).1.toList =
      (listInsertAt l.toList insertIndex (key, v)).take ((l.maxSize + 2) / 2) := by
    rw [hls]
    apply List.ext_getElem
    · rw [List.length_take, hmlen, toList_length]
      by_cases hbr : insertIndex < (l.size + 2) / 2 <;>
        simp only [leafSplitStep, if_pos, if_neg, hbr, ite_true, ite_false] <;> omega
    · intro i hi hi2
      rw [List.getElem_take, hmget i (by rw [List.length_take] at hi2; omega)]
      have hils : i < (l.size + 2) / 2 := by rw [List.length_take] at hi2; omega
      by_cases hbr : insertIndex < (l.size + 2) / 2
      · rw [toList_getElem _ i (by rw [toList_length] at hi ⊢; exact hi)]
        simp only [leafSplitStep, hbr, ite_true]
        by_cases c1 : i < insertIndex
        · rw [if_pos c1]
          have : ¬i = insertIndex := by omega
          simp only [this, ite_false, if_neg]
          rw [if_neg (by omega), if_neg (by omega)]
        · rw [if_neg c1]
          by_cases c2 : i = insertIndex
          · rw [if_pos c2]
            simp only [c2, ite_true]
          · rw [if_neg c2]
            simp only [c2, ite_false]
            rw [if_pos (by omega), if_pos (by omega)]
      · rw [toList_getElem _ i (by rw [toList_length] at hi ⊢; exact hi)]
        simp only [leafSplitStep, hbr, ite_false]
        rw [if_pos (by omega)]
  have h2 : (leafSplitStep lm l insertIndex key v newPid).2.1.toList =
      (listInsertAt l.toList insertIndex (key, v)).drop ((l.maxSize + 2) / 2) := by
    rw [hls]
    apply List.ext_getElem
    · rw [List.length_drop, hmlen, toList_length]
      by_cases hbr : insertIndex < (l.size + 2) / 2 <;>
        simp only [leafSplitStep, if_pos, if_neg, hbr, ite_true, ite_false]
    · intro i hia hib
      have hibnd : (l.size + 2) / 2 + i < l.size + 1 := by
        rw [List.length_drop, hmlen] at hib
        omega
      rw [List.getElem_drop, hmget ((l.size + 2) / 2 + i) (by omega)]
      rw [toList_getElem _ i hia]
      have hi3 : i < (leafSplitStep lm l insertIndex key v newPid).2.1.size := by
        rw [toList_length] at hia
        exact hia
      by_cases hbr : insertIndex < (l.size + 2) / 2
      · have hgt : ¬(l.size + 2) / 2 + i < insertIndex := by omega
        have hne : ¬(l.size + 2) / 2 + i = insertIndex := by omega
        rw [if_neg hgt, if_neg hne]
        simp only [leafSplitStep, hbr, ite_true] at hi3 ⊢
        rw [if_pos hi3, if_pos hi3]
      · simp only [leafSplitStep, hbr, ite_false] at hi3 ⊢
        by_cases c1 : (l.size + 2) / 2 + i < insertIndex
        · rw [if_pos c1]
          rw [if_pos (show i < insertIndex - (l.size + 2) / 2 by omega),
              if_pos (show i < insertIndex - (l.size + 2) / 2 by omega)]
          congr 2 <;> omega
        · rw [if_neg c1]
          by_cases c2 : (l.size + 2) / 2 + i = insertIndex
          · rw [if_pos c2]
            rw [if_neg (show ¬i < insertIndex - (l.size + 2) / 2 by omega),
                if_neg (show ¬i < insertIndex - (l.size + 2) / 2 by omega),
                if_pos (show i = insertIndex - (l.size + 2) / 2 by omega),
                if_pos (show i = insertIndex - (l.size + 2) / 2 by omega)]
          · rw [if_neg c2]
            rw [if_neg (show ¬i < insertIndex - (l.size + 2) / 2 by omega),
                if_neg (show ¬i < insertIndex - (l.size + 2) / 2 by omega),
                if_neg (show ¬i = insertIndex - (l.size + 2) / 2 by omega),
                if_neg (show ¬i = insertIndex - (l.size + 2) / 2 by omega),
                if_pos hi3, if_pos hi3]
  refine ⟨h1, h2, ?_, ?_, ?_, ?_, ?_⟩
  · by_cases hbr : insertIndex < (l.size + 2) / 2
    · simp only [leafSplitStep, hbr, ite_true]
    · simp only [leafSplitStep, hbr, ite_false]
  · by_cases hbr : insertIndex < (l.size + 2) / 2
    · simp only [leafSplitStep, hbr, ite_true]
    · simp only [leafSplitStep, hbr, ite_false]
  · intro d
    rw [← h2]
    have hsz : 0 < (leafSplitStep lm l insertIndex key v newPid).2.1.size := by
      by_cases hbr : insertIndex < (l.size + 2) / 2
      · simp only [leafSplitStep, hbr, ite_true]
        omega
      · simp only [leafSplitStep, hbr, ite_false]
        omega
    have hhead : (leafSplitStep lm l insertIndex key v newPid).2.1.toList.headD d =
        ((leafSplitStep lm l insertIndex key v newPid).2.1.keys 0,
         (leafSplitStep lm l insertIndex key v newPid).2.1.vals 0) := by
      unfold BPTLeaf.toList
      cases hsz2 : (leafSplitStep lm l insertIndex key v newPid).2.1.size with
      | zero => omega
      | succ n =>
        rw [List.range_succ_eq_map]
        simp
    rw [hhead]
    by_cases hbr : insertIndex < (l.size + 2) / 2
    · simp only [leafSplitStep, hbr, ite_true]
    · simp only [leafSplitStep, hbr, ite_false]
  · rw [List.pairwise_iff_getElem]
    intro i j hi hj hij
    rw [hmlen] at hi hj
    rw [hmget i (by omega), hmget j (by omega)]
    by_cases ci : i < insertIndex
    · rw [if_pos ci]
      by_cases cj : j < insertIndex
      · rw [if_pos cj]
        exact hsorted i j hij (by omega)
      · rw [if_neg cj]
        by_cases cj2 : j = insertIndex
        · rw [if_pos cj2]
          exact hlow i (by omega)
        · rw [if_neg cj2]
          exact hsorted i (j - 1) (by omega) (by omega)
    · rw [if_neg ci]
      by_cases ci2 : i = insertIndex
      · rw [if_pos ci2]
        have hj2 : ¬j < insertIndex := by omega
        have hj3 : ¬j = insertIndex := by omega
        rw [if_neg hj2, if_neg hj3]
        exact hhigh (j - 1) (by omega) (by omega)
      · rw [if_neg ci2]
        have hj2 : ¬j < insertIndex := by omega
        have hj3 : ¬j = insertIndex := by omega
        rw [if_neg hj2, if_neg hj3]
        exact hsorted (i - 1) (j - 1) (by omega) (by omega)
  · intro im fuel pages parentPid wsT idx idxsT p nextPid hp hsz
    simp only [insUpwardGo]
    rw [hp]
    dsimp only
    rw [if_pos hsz]

/-- A concrete full leaf for exercising the split: keys 1, 3, 5. -/
def c7witLeaf : BPTLeaf :=
  { maxSize := 3, size := 3,
    keys := fun j => if j = 0 then 1 else if j = 1 then 3 else if j = 2 then 5 else 0,
    vals := fun j => if j = 0 then 10 else if j = 1 then 30 else if j = 2 then 50 else 0,
    next := -1 }

/-- Witness for C7 at a concrete input: splitting the full leaf 1,3,5 of
capacity 3 while inserting key 4 at slot 2 keeps the ceil-half 1,3 left,
moves 4,5 to the sibling, and threads the next pointers. -/
theorem leafSplit_spec_witness :
    (leafSplitStep 3 c7witLeaf 2 4 40 7).1.toList =
      (listInsertAt c7witLeaf.toList 2 (4, 40)).take ((c7witLeaf.maxSize + 2) / 2) ∧
    (leafSplitStep 3 c7witLeaf 2 4 40 7).2.1.toList =
      (listInsertAt c7witLeaf.toList 2 (4, 40)).drop ((c7witLeaf.maxSize + 2) / 2) ∧
    (leafSplitStep 3 c7witLeaf 2 4 40 7).1.next = 7 ∧
    (leafSplitStep 3 c7witLeaf 2 4 40 7).2.1.next = c7witLeaf.next := by
  have hs : ∀ i j, i < j → j < c7witLeaf.size →
      c7witLeaf.keys i < c7witLeaf.keys j := by
    intro i j hij hj
    have hj2 : j = 1 ∨ j = 2 := by
      simp only [c7witLeaf] at hj
      omega
    rcases hj2 with h | h <;> subst h
    · have : i = 0 := by omega
      subst this
      decide
    · have : i = 0 ∨ i = 1 := by omega
      rcases this with h | h <;> subst h <;> decide
  have h := leafSplit_spec 3 c7witLeaf 2 4 40 7 (by decide) rfl (by decide)
    (by decide) (by decide) hs
  exact ⟨h.1, h.2.1, h.2.2.1, h.2.2.2.1⟩

end BusTub
